import Mathlib

/-!
Verification of the chunked-data transport layer of the
`minecraft-bedrock-websocket-tutorials` repository.

The Node-side producer (`MinecraftWebSocketServer`, file `src/unnamed/part_002`)
serializes a payload with `JSON.stringify`, escapes every non-ASCII UTF-16 code
unit to a `\uXXXX` sequence, splits the resulting ASCII string into maximal
fragments fitting a 661-byte wrapped-envelope budget via binary search, and
transmits `START` / `DATA` / `END` script-event commands.  The Minecraft-side
receiver (`WebSocketBridge.js` / `ScriptEventDataManager`) accumulates the
fragments keyed by index and, on `END`, reassembles and decodes them
(`JSON.parse` with a raw-string fallback).

JavaScript strings are modelled as lists of UTF-16 code units (`JStr := List
Nat`); JSON values are modelled by the inductive type `Json`, with JS numbers
restricted to (IEEE-exact) integers — fractional numbers are outside the model.
`JSON.stringify` / `JSON.parse` are given as executable Lean functions with the
standard JSON escaping and grammar.
-/

/-- A JavaScript string: its sequence of UTF-16 code units. -/
abbrev JStr := List Nat

/-- Code units of a Lean string literal (used for the ASCII literals appearing
in the source). -/
def lit (s : String) : JStr := s.data.map Char.toNat

/-- The colon code unit. -/
def colonU : Nat := 58

/-- Lowercase hexadecimal digit for a value below 16
(mirrors `Number.prototype.toString(16)` digit output). -/
def hexDigitUnit (d : Nat) : Nat := if d < 10 then 48 + d else 87 + d

/-- Last four hexadecimal digits of a code unit, lowercase — the output of
`('0000' + u.toString(16)).slice(-4)` for `u < 0x10000`. -/
def hex4 (u : Nat) : JStr :=
  [hexDigitUnit (u / 4096 % 16), hexDigitUnit (u / 256 % 16),
   hexDigitUnit (u / 16 % 16), hexDigitUnit (u % 16)]

/-- Fuel-driven decimal printer (structural recursion so that the kernel can
evaluate it on closed inputs). -/
def natUnitsAux : Nat → Nat → JStr
  | 0, _ => []
  | f + 1, n =>
      if n < 10 then [n + 48] else natUnitsAux f (n / 10) ++ [n % 10 + 48]

/-- Decimal digit string of a natural number, as code units
(mirrors JS decimal printing of a nonnegative integer). -/
def natUnits (n : Nat) : JStr := natUnitsAux (n + 1) n

theorem natUnitsAux_congr :
    ∀ n, ∀ f1 f2, n < f1 → n < f2 → natUnitsAux f1 n = natUnitsAux f2 n := by
  intro n
  induction n using Nat.strong_induction_on with
  | _ n ih =>
      intro f1 f2 h1 h2
      obtain ⟨g1, rfl⟩ : ∃ g1, f1 = g1 + 1 := ⟨f1 - 1, by omega⟩
      obtain ⟨g2, rfl⟩ : ∃ g2, f2 = g2 + 1 := ⟨f2 - 1, by omega⟩
      by_cases hn : n < 10
      · simp [natUnitsAux, hn]
      · simp only [natUnitsAux, if_neg hn]
        rw [ih (n / 10) (by omega) g1 g2 (by omega) (by omega)]

theorem natUnitsAux_succ (f n : Nat) :
    natUnitsAux (f + 1) n =
      if n < 10 then [n + 48] else natUnitsAux f (n / 10) ++ [n % 10 + 48] :=
  rfl

theorem natUnits_eq_digits (n : Nat) :
    natUnits n =
      if n = 0 then [48]
      else ((Nat.digits 10 n).map (fun d => d + 48)).reverse := by
  induction n using Nat.strong_induction_on with
  | _ n ih =>
      by_cases h0 : n = 0
      · subst h0
        rfl
      · rw [if_neg h0]
        by_cases hn : n < 10
        · rw [show natUnits n = natUnitsAux (n + 1) n from rfl,
            natUnitsAux_succ, if_pos hn]
          rw [Nat.digits_def' (by norm_num) (by omega)]
          rw [show n % 10 = n from by omega, show n / 10 = 0 from by omega]
          simp
        · rw [show natUnits n = natUnitsAux (n + 1) n from rfl,
            natUnitsAux_succ, if_neg hn]
          rw [natUnitsAux_congr (n / 10) n (n / 10 + 1) (by omega) (by omega)]
          rw [show natUnitsAux (n / 10 + 1) (n / 10) = natUnits (n / 10)
            from rfl]
          rw [ih (n / 10) (by omega), if_neg (by omega)]
          conv_rhs => rw [Nat.digits_def' (by norm_num : (1:Nat) < 10)
            (by omega : 0 < n)]
          simp

/-- Decimal printing of an integer, as code units. -/
def intUnits (n : Int) : JStr :=
  if n < 0 then 45 :: natUnits n.natAbs else natUnits n.toNat

/-- JSON values.  `num` carries a mathematical integer: the model restricts JS
numbers to integers (floating-point fractions are outside the model). -/
inductive Json where
  | null : Json
  | bool (b : Bool) : Json
  | num (n : Int) : Json
  | str (s : JStr) : Json
  | arr (elems : List Json) : Json
  | obj (fields : List (JStr × Json)) : Json
  deriving Repr

/-- Escape of a single code unit inside a JSON string literal, as produced by
`JSON.stringify`: quote and backslash get two-character escapes, the usual
control characters get their named escapes, remaining control characters get
`\u00xx`, and everything else is emitted verbatim.  (JS additionally escapes
lone surrogates; at the wire level that coincides with the later non-ASCII
escape, see `asciiEscapeChar`.) -/
def jsonEscapeChar (u : Nat) : JStr :=
  if u = 34 then [92, 34]
  else if u = 92 then [92, 92]
  else if u = 8 then [92, 98]
  else if u = 9 then [92, 116]
  else if u = 10 then [92, 110]
  else if u = 12 then [92, 102]
  else if u = 13 then [92, 114]
  else if u < 32 then 92 :: 117 :: hex4 u
  else [u]

/-- Escape of a whole string body for a JSON string literal. -/
def jsonEscapeStr (s : JStr) : JStr := (s.map jsonEscapeChar).flatten

mutual

/-- `JSON.stringify` (no spacing): code units of the serialization. -/
def jsonStringify : Json → JStr
  | .null => lit "null"
  | .bool true => lit "true"
  | .bool false => lit "false"
  | .num n => intUnits n
  | .str s => 34 :: (jsonEscapeStr s ++ [34])
  | .arr l => 91 :: (stringifyElems l ++ [93])
  | .obj l => 123 :: (stringifyFields l ++ [125])

/-- Serialization of the elements of a JSON array, comma separated. -/
def stringifyElems : List Json → JStr
  | [] => []
  | v :: vs => jsonStringify v ++ stringifyElemsTail vs

/-- Serialization of the non-first elements of a JSON array. -/
def stringifyElemsTail : List Json → JStr
  | [] => []
  | v :: vs => 44 :: (jsonStringify v ++ stringifyElemsTail vs)

/-- Serialization of the fields of a JSON object, comma separated. -/
def stringifyFields : List (JStr × Json) → JStr
  | [] => []
  | (k, v) :: fs =>
      (34 :: (jsonEscapeStr k ++ [34])) ++ 58 :: jsonStringify v ++
        stringifyFieldsTail fs

/-- Serialization of the non-first fields of a JSON object. -/
def stringifyFieldsTail : List (JStr × Json) → JStr
  | [] => []
  | (k, v) :: fs =>
      44 :: ((34 :: (jsonEscapeStr k ++ [34])) ++ 58 :: jsonStringify v ++
        stringifyFieldsTail fs)

end

/-- The non-ASCII escape applied by `sendData` before chunking
(`dataString = jsonString.replace(/[^\x00-\x7F]/g, c => \uXXXX escape)`):
ASCII code units are kept, every other unit becomes a six-character
`\uXXXX` sequence with lowercase hex digits. -/
def asciiEscapeChar (u : Nat) : JStr :=
  if u ≤ 127 then [u] else 92 :: 117 :: hex4 u

/-- Non-ASCII escape of a whole string. -/
def asciiEscape (s : JStr) : JStr := (s.map asciiEscapeChar).flatten

/-- The string `sendData` actually chunks: serialized payload with all
non-ASCII units escaped. -/
def wireEncode (v : Json) : JStr := asciiEscape (jsonStringify v)

/-- UTF-8 byte count of a UTF-16 code-unit sequence, as computed by
`Buffer.byteLength(s, "utf8")`: a surrogate pair takes four bytes and a lone
surrogate becomes the three-byte replacement character. -/
def utf8Len : JStr → Nat
  | [] => 0
  | [u] => if u < 128 then 1 else if u < 2048 then 2 else 3
  | u :: v :: rest =>
    if u < 128 then 1 + utf8Len (v :: rest)
    else if u < 2048 then 2 + utf8Len (v :: rest)
    else if 55296 ≤ u ∧ u ≤ 56319 ∧ 56320 ≤ v ∧ v ≤ 57343 then 4 + utf8Len rest
    else 3 + utf8Len (v :: rest)

mutual

/-- Well-formedness of a modelled JSON value as a JavaScript value: all string
code units fit in 16 bits and all numbers are exactly representable doubles. -/
def jsonWF : Json → Bool
  | .null => true
  | .bool _ => true
  | .num n => n.natAbs ≤ 9007199254740992
  | .str s => s.all (fun u => u < 65536)
  | .arr l => jsonWFList l
  | .obj l => jsonWFFields l

/-- Well-formedness of a list of JSON values. -/
def jsonWFList : List Json → Bool
  | [] => true
  | v :: vs => jsonWF v && jsonWFList vs

/-- Well-formedness of the fields of a JSON object. -/
def jsonWFFields : List (JStr × Json) → Bool
  | [] => true
  | (k, v) :: fs => k.all (fun u => u < 65536) && jsonWF v && jsonWFFields fs

end

/-- JSON whitespace (space, tab, line feed, carriage return). -/
def isWsU (u : Nat) : Bool := u = 32 || u = 9 || u = 10 || u = 13

/-- Drop leading JSON whitespace. -/
def skipWs : JStr → JStr
  | [] => []
  | u :: rest => if isWsU u then skipWs rest else u :: rest

/-- ASCII decimal digit test. -/
def isDigitU (u : Nat) : Bool := 48 ≤ u && u ≤ 57

/-- Value of a hexadecimal digit code unit (either case), if any. -/
def parseHexDigit (u : Nat) : Option Nat :=
  if 48 ≤ u ∧ u ≤ 57 then some (u - 48)
  else if 97 ≤ u ∧ u ≤ 102 then some (u - 87)
  else if 65 ≤ u ∧ u ≤ 70 then some (u - 55)
  else none

/-- Code unit denoted by a single-character JSON string escape. -/
def unescapeChar (e : Nat) : Option Nat :=
  if e = 34 then some 34
  else if e = 92 then some 92
  else if e = 47 then some 47
  else if e = 98 then some 8
  else if e = 102 then some 12
  else if e = 110 then some 10
  else if e = 114 then some 13
  else if e = 116 then some 9
  else none

/-- Parse the body of a JSON string literal (the opening quote already
consumed): returns the decoded code units and the input after the closing
quote.  Unescaped control characters are rejected, as by `JSON.parse`. -/
def parseStringBody : JStr → Option (JStr × JStr)
  | [] => none
  | u :: rest =>
    if u = 34 then some ([], rest)
    else if u = 92 then
      match rest with
      | [] => none
      | e :: rest2 =>
        if e = 117 then
          match rest2 with
          | a :: b :: c :: d :: rest3 =>
            match parseHexDigit a, parseHexDigit b, parseHexDigit c,
                parseHexDigit d with
            | some x, some y, some z, some w =>
              match parseStringBody rest3 with
              | some (content, r) =>
                  some ((4096 * x + 256 * y + 16 * z + w) :: content, r)
              | none => none
            | _, _, _, _ => none
          | _ => none
        else
          match unescapeChar e with
          | some u2 =>
            match parseStringBody rest2 with
            | some (content, r) => some (u2 :: content, r)
            | none => none
          | none => none
    else if u < 32 then none
    else
      match parseStringBody rest with
      | some (content, r) => some (u :: content, r)
      | none => none

/-- Accumulating decimal-digit scanner: consumes a maximal digit run. -/
def parseNatGo (acc : Nat) : JStr → Nat × JStr
  | [] => (acc, [])
  | u :: rest =>
      if isDigitU u then parseNatGo (acc * 10 + (u - 48)) rest
      else (acc, u :: rest)

/-- Parse a nonnegative JSON integer at the head of the input.  A leading `0`
is the whole numeral (JSON forbids further digits after it; a following digit
is left in place and makes the surrounding parse fail, matching
`JSON.parse`). -/
def parseNumberPos : JStr → Option (Nat × JStr)
  | [] => none
  | u :: rest =>
    if u = 48 then some (0, rest)
    else if isDigitU u then some (parseNatGo (u - 48) rest)
    else none

mutual

/-- Fuel-indexed JSON value parser (the core of `JSON.parse` restricted to
integer numbers): returns the parsed value and the remaining input. -/
def pVal : Nat → JStr → Option (Json × JStr)
  | 0, _ => none
  | Nat.succ f, s =>
    match skipWs s with
    | [] => none
    | u :: rest =>
      if u = 110 then
        match rest with
        | 117 :: 108 :: 108 :: r => some (.null, r)
        | _ => none
      else if u = 116 then
        match rest with
        | 114 :: 117 :: 101 :: r => some (.bool true, r)
        | _ => none
      else if u = 102 then
        match rest with
        | 97 :: 108 :: 115 :: 101 :: r => some (.bool false, r)
        | _ => none
      else if u = 34 then
        match parseStringBody rest with
        | some (c, r) => some (.str c, r)
        | none => none
      else if u = 45 then
        match parseNumberPos rest with
        | some (n, r) => some (.num (-(n : Int)), r)
        | none => none
      else if isDigitU u then
        match parseNumberPos (u :: rest) with
        | some (n, r) => some (.num (n : Int), r)
        | none => none
      else if u = 91 then
        match skipWs rest with
        | 93 :: r => some (.arr [], r)
        | s2 =>
          match pVal f s2 with
          | some (v, r) => pArrTail f [v] r
          | none => none
      else if u = 123 then
        match skipWs rest with
        | 125 :: r => some (.obj [], r)
        | s2 => pField f [] s2
      else none

/-- After one or more array elements have been parsed: expect `,` and a
further element, or `]`. -/
def pArrTail : Nat → List Json → JStr → Option (Json × JStr)
  | 0, _, _ => none
  | Nat.succ f, acc, s =>
    match skipWs s with
    | 44 :: r =>
      match pVal f r with
      | some (v, r2) => pArrTail f (acc ++ [v]) r2
      | none => none
    | 93 :: r => some (.arr acc, r)
    | _ => none

/-- Parse one `"key": value` object field and continue with `pObjTail`. -/
def pField : Nat → List (JStr × Json) → JStr → Option (Json × JStr)
  | 0, _, _ => none
  | Nat.succ f, acc, s =>
    match skipWs s with
    | 34 :: r =>
      match parseStringBody r with
      | some (k, r2) =>
        match skipWs r2 with
        | 58 :: r3 =>
          match pVal f r3 with
          | some (v, r4) => pObjTail f (acc ++ [(k, v)]) r4
          | none => none
        | _ => none
      | none => none
    | _ => none

/-- After one or more object fields have been parsed: expect `,` and a further
field, or `}`. -/
def pObjTail : Nat → List (JStr × Json) → JStr → Option (Json × JStr)
  | 0, _, _ => none
  | Nat.succ f, acc, s =>
    match skipWs s with
    | 44 :: r => pField f acc r
    | 125 :: r => some (.obj acc, r)
    | _ => none

end

/-- `JSON.parse`: a whole-input JSON document (integer numbers only; see
`Json.num`).  The fuel `s.length + 1` dominates the parser's recursion depth
for any input it accepts. -/
def jsonParse (s : JStr) : Option Json :=
  match pVal (s.length + 1) s with
  | some (v, r) => if skipWs r = [] then some v else none
  | none => none

/-- The receiving side's decode of a reassembled transfer
(`WebSocketBridge.processCompleteTransfer`): `JSON.parse` with the raw string
as fallback when parsing fails. -/
def decodePayload (s : JStr) : Json :=
  match jsonParse s with
  | some v => v
  | none => .str s

mutual

/-- Node count of a JSON value (induction measure). -/
def jsonSize : Json → Nat
  | .arr l => 1 + jsonSizeL l
  | .obj l => 1 + jsonSizeF l
  | _ => 1

/-- Node count of a list of JSON values. -/
def jsonSizeL : List Json → Nat
  | [] => 0
  | v :: vs => jsonSize v + jsonSizeL vs

/-- Node count of the fields of a JSON object. -/
def jsonSizeF : List (JStr × Json) → Nat
  | [] => 0
  | (_, v) :: fs => jsonSize v + jsonSizeF fs

end

mutual

/-- Parser fuel sufficient for a value (used to justify the fuel passed by
`jsonParse`). -/
def pNeed : Json → Nat
  | .arr l => arrNeed l
  | .obj l => objTailNeed l
  | _ => 1

/-- Fuel sufficient for `pArrTail` on the remaining elements. -/
def arrNeed : List Json → Nat
  | [] => 1
  | v :: vs => 1 + max (pNeed v) (arrNeed vs)

/-- Fuel sufficient for `pObjTail` on the remaining fields. -/
def objTailNeed : List (JStr × Json) → Nat
  | [] => 1
  | (_, v) :: fs => 2 + max (pNeed v) (objTailNeed fs)

end

theorem asciiEscape_append (a b : JStr) :
    asciiEscape (a ++ b) = asciiEscape a ++ asciiEscape b := by
  simp [asciiEscape]

theorem asciiEscape_cons (u : Nat) (s : JStr) :
    asciiEscape (u :: s) = asciiEscapeChar u ++ asciiEscape s := by
  simp [asciiEscape]

theorem asciiEscape_nil : asciiEscape [] = [] := rfl

theorem asciiEscape_ascii (s : JStr) (h : ∀ u ∈ s, u ≤ 127) :
    asciiEscape s = s := by
  induction s with
  | nil => rfl
  | cons u rest ih =>
      rw [asciiEscape_cons, asciiEscapeChar, if_pos (h u (by simp))]
      simp only [List.singleton_append, List.cons.injEq, true_and]
      exact ih (fun v hv => h v (by simp [hv]))

theorem jsonEscapeStr_cons (u : Nat) (s : JStr) :
    jsonEscapeStr (u :: s) = jsonEscapeChar u ++ jsonEscapeStr s := by
  simp [jsonEscapeStr]

theorem skipWs_cons_of_not_ws (u : Nat) (s : JStr) (h : isWsU u = false) :
    skipWs (u :: s) = u :: s := by
  simp [skipWs, h]

theorem parseHexDigit_hexDigitUnit (d : Nat) (hd : d < 16) :
    parseHexDigit (hexDigitUnit d) = some d := by
  unfold parseHexDigit hexDigitUnit
  split_ifs <;>
    first
      | (simp only [Option.some.injEq]; omega)
      | omega

theorem hex4_ascii (u : Nat) : ∀ x ∈ hex4 u, x ≤ 127 := by
  intro x hx
  have : ∀ d, hexDigitUnit (d % 16) ≤ 127 := by
    intro d
    unfold hexDigitUnit
    have : d % 16 < 16 := Nat.mod_lt _ (by norm_num)
    split <;> omega
  simp only [hex4, List.mem_cons, List.not_mem_nil, or_false] at hx
  rcases hx with h | h | h | h <;> subst h <;> apply this

theorem parseStringBody_uescape (u : Nat) (hu : u < 65536) (t : JStr) :
    parseStringBody (92 :: 117 :: (hex4 u ++ t)) =
      (parseStringBody t).map (fun p => (u :: p.1, p.2)) := by
  have h1 : u / 4096 % 16 < 16 := Nat.mod_lt _ (by norm_num)
  have h2 : u / 256 % 16 < 16 := Nat.mod_lt _ (by norm_num)
  have h3 : u / 16 % 16 < 16 := Nat.mod_lt _ (by norm_num)
  have h4 : u % 16 < 16 := Nat.mod_lt _ (by norm_num)
  simp only [hex4, List.cons_append, List.nil_append]
  simp only [parseStringBody, parseHexDigit_hexDigitUnit _ h1,
    parseHexDigit_hexDigitUnit _ h2, parseHexDigit_hexDigitUnit _ h3,
    parseHexDigit_hexDigitUnit _ h4]
  norm_num
  have hcomb :
      4096 * (u / 4096 % 16) + 256 * (u / 256 % 16) + 16 * (u / 16 % 16) +
        u % 16 = u := by omega
  rw [hcomb]
  cases parseStringBody t with
  | none => rfl
  | some p => rfl

theorem parseStringBody_twoesc (e u2 : Nat) (he : unescapeChar e = some u2)
    (he117 : e ≠ 117) (t : JStr) :
    parseStringBody (92 :: e :: t) =
      (parseStringBody t).map (fun p => (u2 :: p.1, p.2)) := by
  rw [parseStringBody.eq_def]
  simp only [reduceIte, he117, if_false, he]
  cases parseStringBody t with
  | none => rfl
  | some p => rfl

theorem parseStringBody_wire_two (u e : Nat) (t s rest : JStr)
    (hesc : asciiEscape (jsonEscapeChar u) = [92, e])
    (hue : unescapeChar e = some u) (he117 : e ≠ 117)
    (hrec : parseStringBody t = some (s, rest)) :
    parseStringBody (asciiEscape (jsonEscapeChar u) ++ t) =
      some (u :: s, rest) := by
  rw [hesc, show ([92, e] : JStr) ++ t = 92 :: e :: t from rfl,
    parseStringBody_twoesc e u hue he117, hrec]
  rfl

theorem parseStringBody_wire (s : JStr) (hs : ∀ u ∈ s, u < 65536)
    (rest : JStr) :
    parseStringBody (asciiEscape (jsonEscapeStr s) ++ 34 :: rest) =
      some (s, rest) := by
  induction s with
  | nil =>
      rw [show jsonEscapeStr [] = [] from rfl, asciiEscape_nil,
        List.nil_append, parseStringBody.eq_def]
      simp
  | cons u s ih =>
      have hu : u < 65536 := hs u (by simp)
      have ih2 := ih (fun v hv => hs v (by simp [hv]))
      rw [jsonEscapeStr_cons, asciiEscape_append, List.append_assoc]
      by_cases h34 : u = 34
      · subst h34
        exact parseStringBody_wire_two 34 34 _ s rest (by decide) (by decide)
          (by decide) ih2
      · by_cases h92 : u = 92
        · subst h92
          exact parseStringBody_wire_two 92 92 _ s rest (by decide) (by decide)
            (by decide) ih2
        · by_cases h8 : u = 8
          · subst h8
            exact parseStringBody_wire_two 8 98 _ s rest (by decide) (by decide)
              (by decide) ih2
          · by_cases h9 : u = 9
            · subst h9
              exact parseStringBody_wire_two 9 116 _ s rest (by decide)
                (by decide) (by decide) ih2
            · by_cases h10 : u = 10
              · subst h10
                exact parseStringBody_wire_two 10 110 _ s rest (by decide)
                  (by decide) (by decide) ih2
              · by_cases h12 : u = 12
                · subst h12
                  exact parseStringBody_wire_two 12 102 _ s rest (by decide)
                    (by decide) (by decide) ih2
                · by_cases h13 : u = 13
                  · subst h13
                    exact parseStringBody_wire_two 13 114 _ s rest (by decide)
                      (by decide) (by decide) ih2
                  · by_cases hlt32 : u < 32
                    · have hch : jsonEscapeChar u = 92 :: 117 :: hex4 u := by
                        unfold jsonEscapeChar
                        rw [if_neg h34, if_neg h92, if_neg h8, if_neg h9,
                          if_neg h10, if_neg h12, if_neg h13, if_pos hlt32]
                      rw [hch, asciiEscape_ascii _ (by
                        intro x hx
                        simp only [List.mem_cons] at hx
                        rcases hx with h | h | h
                        · omega
                        · omega
                        · exact hex4_ascii u x h)]
                      rw [show (92 :: 117 :: hex4 u) ++
                            (asciiEscape (jsonEscapeStr s) ++ 34 :: rest) =
                            92 :: 117 :: (hex4 u ++
                              (asciiEscape (jsonEscapeStr s) ++ 34 :: rest))
                          from by simp]
                      rw [parseStringBody_uescape u (by omega), ih2]
                      rfl
                    · have hch : jsonEscapeChar u = [u] := by
                        unfold jsonEscapeChar
                        rw [if_neg h34, if_neg h92, if_neg h8, if_neg h9,
                          if_neg h10, if_neg h12, if_neg h13, if_neg hlt32]
                      by_cases h127 : u ≤ 127
                      · rw [hch, show asciiEscape [u] = [u] from by
                          simp [asciiEscape, asciiEscapeChar, h127]]
                        rw [List.singleton_append, parseStringBody.eq_def]
                        simp only [h34, h92, if_false, reduceIte,
                          if_neg hlt32]
                        rw [ih2]
                      · rw [hch, show asciiEscape [u] = 92 :: 117 :: hex4 u
                          from by simp [asciiEscape, asciiEscapeChar, h127]]
                        rw [show (92 :: 117 :: hex4 u) ++
                              (asciiEscape (jsonEscapeStr s) ++ 34 :: rest) =
                              92 :: 117 :: (hex4 u ++
                                (asciiEscape (jsonEscapeStr s) ++ 34 :: rest))
                            from by simp]
                        rw [parseStringBody_uescape u hu, ih2]
                        rfl

/-- The continuation after a numeral must not begin with a further digit for
the numeral's parse to stop exactly there. -/
def NumDelim : JStr → Prop
  | [] => True
  | u :: _ => isDigitU u = false

theorem parseNatGo_digits (ds : List Nat) (hds : ∀ d ∈ ds, d < 10)
    (acc : Nat) (rest : JStr) (hrest : NumDelim rest) :
    parseNatGo acc (ds.map (fun d => d + 48) ++ rest) =
      (ds.foldl (fun a d => a * 10 + d) acc, rest) := by
  induction ds generalizing acc with
  | nil =>
      simp only [List.map_nil, List.nil_append, List.foldl_nil]
      cases rest with
      | nil => rfl
      | cons u t =>
          unfold NumDelim at hrest
          simp [parseNatGo, hrest]
  | cons d ds ih =>
      have hd : d < 10 := hds d (by simp)
      have hdig : isDigitU (d + 48) = true := by
        unfold isDigitU
        simp only [Bool.and_eq_true, decide_eq_true_eq]
        omega
      simp only [List.map_cons, List.cons_append, parseNatGo, hdig, if_true,
        List.foldl_cons]
      rw [show d + 48 - 48 = d from by omega]
      exact ih (fun x hx => hds x (by simp [hx])) _

theorem foldr_mul_add_eq_ofDigits (l : List Nat) :
    l.foldr (fun d a => a * 10 + d) 0 = Nat.ofDigits 10 l := by
  induction l with
  | nil => rfl
  | cons d t ih =>
      simp only [List.foldr_cons, ih, Nat.ofDigits_cons]
      ring

theorem foldl_digits_reverse (n : Nat) :
    ((Nat.digits 10 n).reverse).foldl (fun a d => a * 10 + d) 0 = n := by
  rw [List.foldl_reverse, foldr_mul_add_eq_ofDigits]
  exact_mod_cast Nat.ofDigits_digits 10 n

theorem parseNumberPos_natUnits (n : Nat) (rest : JStr) (hrest : NumDelim rest) :
    parseNumberPos (natUnits n ++ rest) = some (n, rest) := by
  by_cases hn : n = 0
  · subst hn
    rw [show natUnits 0 = [48] from rfl]
    simp [parseNumberPos]
  · have hL : Nat.digits 10 n ≠ [] := Nat.digits_ne_nil_iff_ne_zero.mpr hn
    have hLr : (Nat.digits 10 n).reverse ≠ [] := by
      simpa using hL
    obtain ⟨a, t, hat⟩ := List.exists_cons_of_ne_nil hLr
    have hmem : ∀ d ∈ (Nat.digits 10 n).reverse, d < 10 := by
      intro d hd
      exact Nat.digits_lt_base (by norm_num) (List.mem_reverse.mp hd)
    have ha10 : a < 10 := hmem a (by rw [hat]; simp)
    have hL_eq : Nat.digits 10 n = t.reverse ++ [a] := by
      have := congrArg List.reverse hat
      simpa using this
    have ha0 : a ≠ 0 := by
      have hlast := Nat.getLast_digit_ne_zero 10 hn
      have h1 : (Nat.digits 10 n).getLast? = some a := by
        rw [hL_eq]
        simp
      have h2 : (Nat.digits 10 n).getLast? =
          some ((Nat.digits 10 n).getLast
            (Nat.digits_ne_nil_iff_ne_zero.mpr hn)) :=
        List.getLast?_eq_getLast _ _
      rw [h1] at h2
      rw [Option.some_inj.mp h2]
      exact hlast
    have hmap : natUnits n = (a + 48) :: t.map (fun d => d + 48) := by
      rw [natUnits_eq_digits]
      rw [if_neg hn, ← List.map_reverse, hat, List.map_cons]
    rw [hmap]
    have hne48 : ¬(a + 48 = 48) := by omega
    have hdig : isDigitU (a + 48) = true := by
      unfold isDigitU
      simp only [Bool.and_eq_true, decide_eq_true_eq]
      omega
    simp only [List.cons_append, parseNumberPos, hne48, if_false, hdig, if_true]
    rw [show a + 48 - 48 = a from by omega]
    rw [parseNatGo_digits t (fun x hx => hmem x (by rw [hat]; simp [hx])) a rest
      hrest]
    have : t.foldl (fun acc d => acc * 10 + d) a = n := by
      have h0 : ((Nat.digits 10 n).reverse).foldl
          (fun acc d => acc * 10 + d) 0 = n := foldl_digits_reverse n
      rw [hat] at h0
      simpa using h0
    rw [this]

theorem natUnits_cons (m : Nat) :
    ∃ u t, natUnits m = u :: t ∧ 48 ≤ u ∧ u ≤ 57 := by
  by_cases hm : m = 0
  · subst hm
    exact ⟨48, [], rfl, by omega, by omega⟩
  · have hL : Nat.digits 10 m ≠ [] := Nat.digits_ne_nil_iff_ne_zero.mpr hm
    have hLr : (Nat.digits 10 m).reverse ≠ [] := by simpa using hL
    obtain ⟨a, t, hat⟩ := List.exists_cons_of_ne_nil hLr
    have ha10 : a < 10 :=
      Nat.digits_lt_base (by norm_num)
        (List.mem_reverse.mp (by rw [hat]; simp))
    refine ⟨a + 48, t.map (fun d => d + 48), ?_, by omega, by omega⟩
    rw [natUnits_eq_digits]
    rw [if_neg hm, ← List.map_reverse, hat, List.map_cons]

theorem natUnits_digits (m : Nat) : ∀ x ∈ natUnits m, 48 ≤ x ∧ x ≤ 57 := by
  intro x hx
  rw [natUnits_eq_digits] at hx
  by_cases hm : m = 0
  · rw [if_pos hm] at hx
    simp only [List.mem_singleton] at hx
    omega
  · rw [if_neg hm] at hx
    rw [List.mem_reverse, List.mem_map] at hx
    obtain ⟨d, hd, rfl⟩ := hx
    have := Nat.digits_lt_base (by norm_num) hd
    omega

theorem pVal_succ (f : Nat) (s : JStr) :
    pVal (f + 1) s =
      match skipWs s with
      | [] => none
      | u :: rest =>
        if u = 110 then
          match rest with
          | 117 :: 108 :: 108 :: r => some (Json.null, r)
          | _ => none
        else if u = 116 then
          match rest with
          | 114 :: 117 :: 101 :: r => some (Json.bool true, r)
          | _ => none
        else if u = 102 then
          match rest with
          | 97 :: 108 :: 115 :: 101 :: r => some (Json.bool false, r)
          | _ => none
        else if u = 34 then
          match parseStringBody rest with
          | some (c, r) => some (Json.str c, r)
          | none => none
        else if u = 45 then
          match parseNumberPos rest with
          | some (n, r) => some (Json.num (-(n : Int)), r)
          | none => none
        else if isDigitU u then
          match parseNumberPos (u :: rest) with
          | some (n, r) => some (Json.num (n : Int), r)
          | none => none
        else if u = 91 then
          match skipWs rest with
          | 93 :: r => some (Json.arr [], r)
          | s2 =>
            match pVal f s2 with
            | some (v, r) => pArrTail f [v] r
            | none => none
        else if u = 123 then
          match skipWs rest with
          | 125 :: r => some (Json.obj [], r)
          | s2 => pField f [] s2
        else none := rfl

theorem pArrTail_succ (f : Nat) (acc : List Json) (s : JStr) :
    pArrTail (f + 1) acc s =
      match skipWs s with
      | 44 :: r =>
        match pVal f r with
        | some (v, r2) => pArrTail f (acc ++ [v]) r2
        | none => none
      | 93 :: r => some (.arr acc, r)
      | _ => none := rfl

theorem pField_succ (f : Nat) (acc : List (JStr × Json)) (s : JStr) :
    pField (f + 1) acc s =
      match skipWs s with
      | 34 :: r =>
        match parseStringBody r with
        | some (k, r2) =>
          match skipWs r2 with
          | 58 :: r3 =>
            match pVal f r3 with
            | some (v, r4) => pObjTail f (acc ++ [(k, v)]) r4
            | none => none
          | _ => none
        | none => none
      | _ => none := rfl

theorem pObjTail_succ (f : Nat) (acc : List (JStr × Json)) (s : JStr) :
    pObjTail (f + 1) acc s =
      match skipWs s with
      | 44 :: r => pField f acc r
      | 125 :: r => some (.obj acc, r)
      | _ => none := rfl

theorem pVal_succ_cons (f u : Nat) (t : JStr) (hu : isWsU u = false) :
    pVal (f + 1) (u :: t) =
      (if u = 110 then
        match t with
        | 117 :: 108 :: 108 :: r => some (Json.null, r)
        | _ => none
      else if u = 116 then
        match t with
        | 114 :: 117 :: 101 :: r => some (Json.bool true, r)
        | _ => none
      else if u = 102 then
        match t with
        | 97 :: 108 :: 115 :: 101 :: r => some (Json.bool false, r)
        | _ => none
      else if u = 34 then
        match parseStringBody t with
        | some (c, r) => some (Json.str c, r)
        | none => none
      else if u = 45 then
        match parseNumberPos t with
        | some (n, r) => some (Json.num (-(n : Int)), r)
        | none => none
      else if isDigitU u then
        match parseNumberPos (u :: t) with
        | some (n, r) => some (Json.num (n : Int), r)
        | none => none
      else if u = 91 then
        match skipWs t with
        | 93 :: r => some (Json.arr [], r)
        | s2 =>
          match pVal f s2 with
          | some (v, r) => pArrTail f [v] r
          | none => none
      else if u = 123 then
        match skipWs t with
        | 125 :: r => some (Json.obj [], r)
        | s2 => pField f [] s2
      else none) := by
  rw [pVal_succ, skipWs_cons_of_not_ws u t hu]
  rfl

theorem pVal_num (n : Int) (f : Nat) (hf : 1 ≤ f) (rest : JStr)
    (hrest : NumDelim rest) :
    pVal f (asciiEscape (intUnits n) ++ rest) = some (.num n, rest) := by
  obtain ⟨f2, rfl⟩ : ∃ f2, f = f2 + 1 := ⟨f - 1, by omega⟩
  by_cases hn : n < 0
  · rw [show intUnits n = 45 :: natUnits n.natAbs from by
      unfold intUnits; rw [if_pos hn]]
    rw [asciiEscape_cons,
      show asciiEscapeChar 45 = [45] from by decide,
      asciiEscape_ascii (natUnits n.natAbs)
        (fun x hx => by have := natUnits_digits n.natAbs x hx; omega)]
    rw [show ([45] : JStr) ++ natUnits n.natAbs ++ rest
          = 45 :: (natUnits n.natAbs ++ rest) from by simp]
    rw [pVal_succ_cons _ _ _ (by decide)]
    norm_num [parseNumberPos_natUnits n.natAbs rest hrest]
    simp [abs_of_neg hn]
  · rw [show intUnits n = natUnits n.toNat from by
      unfold intUnits; rw [if_neg hn]]
    rw [asciiEscape_ascii (natUnits n.toNat)
      (fun x hx => by have := natUnits_digits n.toNat x hx; omega)]
    obtain ⟨u, t, hut, hu1, hu2⟩ := natUnits_cons n.toNat
    rw [hut]
    rw [show (u :: t) ++ rest = u :: (t ++ rest) from rfl]
    rw [pVal_succ_cons _ _ _ (by
      unfold isWsU; simp only [Bool.or_eq_false_iff, decide_eq_false_iff_not]
      omega)]
    have hdig : isDigitU u = true := by
      unfold isDigitU
      simp only [Bool.and_eq_true, decide_eq_true_eq]
      omega
    rw [if_neg (by omega), if_neg (by omega), if_neg (by omega),
      if_neg (by omega), if_neg (by omega), if_pos hdig]
    rw [show u :: (t ++ rest) = (u :: t) ++ rest from rfl, ← hut]
    rw [parseNumberPos_natUnits n.toNat rest hrest]
    show some (Json.num ((n.toNat : Nat) : Int), rest) = some (Json.num n, rest)
    rw [show ((n.toNat : Nat) : Int) = n from by omega]

theorem wire_head (v : Json) :
    ∃ u t, jsonStringify v = u :: t ∧ u ≤ 127 ∧ isWsU u = false ∧
      u ≠ 93 ∧ u ≠ 44 ∧ u ≠ 125 ∧ u ≠ 58 := by
  cases v with
  | null => exact ⟨110, _, rfl, by decide, by decide, by decide, by decide,
      by decide, by decide⟩
  | bool b =>
      cases b with
      | true => exact ⟨116, _, rfl, by decide, by decide, by decide, by decide,
          by decide, by decide⟩
      | false => exact ⟨102, _, rfl, by decide, by decide, by decide, by decide,
          by decide, by decide⟩
  | num n =>
      show ∃ u t, intUnits n = u :: t ∧ _
      by_cases hn : n < 0
      · refine ⟨45, natUnits n.natAbs, ?_, by decide, by decide, by decide,
          by decide, by decide, by decide⟩
        unfold intUnits
        rw [if_pos hn]
      · obtain ⟨u, t, hut, h1, h2⟩ := natUnits_cons n.toNat
        refine ⟨u, t, ?_, by omega, ?_, by omega, by omega, by omega, by omega⟩
        · unfold intUnits
          rw [if_neg hn, hut]
        · unfold isWsU
          simp only [Bool.or_eq_false_iff, decide_eq_false_iff_not]
          omega
  | str s => exact ⟨34, _, rfl, by decide, by decide, by decide, by decide,
      by decide, by decide⟩
  | arr l => exact ⟨91, _, rfl, by decide, by decide, by decide, by decide,
      by decide, by decide⟩
  | obj l => exact ⟨123, _, rfl, by decide, by decide, by decide, by decide,
      by decide, by decide⟩

theorem wireEncode_head (v : Json) :
    ∃ u t, asciiEscape (jsonStringify v) = u :: t ∧ u ≤ 127 ∧
      isWsU u = false ∧ u ≠ 93 ∧ u ≠ 44 ∧ u ≠ 125 ∧ u ≠ 58 := by
  obtain ⟨u, t, hut, h1, h2, h3, h4, h5, h6⟩ := wire_head v
  refine ⟨u, asciiEscape t, ?_, h1, h2, h3, h4, h5, h6⟩
  rw [hut, asciiEscape_cons, asciiEscapeChar, if_pos h1]
  rfl

theorem numDelim_elemsTail (vs : List Json) (rest : JStr) :
    NumDelim (asciiEscape (stringifyElemsTail vs) ++ 93 :: rest) := by
  cases vs with
  | nil =>
      rw [show stringifyElemsTail [] = [] from rfl, asciiEscape_nil,
        List.nil_append]
      show isDigitU 93 = false
      decide
  | cons v vs =>
      rw [show stringifyElemsTail (v :: vs) =
          44 :: (jsonStringify v ++ stringifyElemsTail vs) from rfl,
        asciiEscape_cons, show asciiEscapeChar 44 = [44] from by decide]
      show isDigitU 44 = false
      decide

theorem numDelim_fieldsTail (fs : List (JStr × Json)) (rest : JStr) :
    NumDelim (asciiEscape (stringifyFieldsTail fs) ++ 125 :: rest) := by
  cases fs with
  | nil =>
      rw [show stringifyFieldsTail [] = [] from rfl, asciiEscape_nil,
        List.nil_append]
      show isDigitU 125 = false
      decide
  | cons f fs =>
      obtain ⟨k, v⟩ := f
      rw [show stringifyFieldsTail ((k, v) :: fs) =
          44 :: ((34 :: (jsonEscapeStr k ++ [34])) ++ 58 :: jsonStringify v ++
            stringifyFieldsTail fs) from rfl,
        asciiEscape_cons, show asciiEscapeChar 44 = [44] from by decide]
      show isDigitU 44 = false
      decide

mutual

theorem jsonSize_pos : (v : Json) → 1 <= jsonSize v
  | .null => Nat.le_refl 1
  | .bool _ => Nat.le_refl 1
  | .num _ => Nat.le_refl 1
  | .str _ => Nat.le_refl 1
  | .arr l => Nat.le_add_right 1 (jsonSizeL l)
  | .obj l => Nat.le_add_right 1 (jsonSizeF l)

end

theorem jsonSizeL_nonneg (vs : List Json) : 0 <= jsonSizeL vs := Nat.zero_le _

theorem pArrTail_succ_comma (f : Nat) (acc : List Json) (r : JStr) :
    pArrTail (f + 1) acc (44 :: r) =
      match pVal f r with
      | some (v, r2) => pArrTail f (acc ++ [v]) r2
      | none => none := by
  rw [pArrTail_succ, skipWs_cons_of_not_ws _ _ (by decide)]

theorem pArrTail_succ_rbrack (f : Nat) (acc : List Json) (r : JStr) :
    pArrTail (f + 1) acc (93 :: r) = some (.arr acc, r) := by
  rw [pArrTail_succ, skipWs_cons_of_not_ws _ _ (by decide)]

theorem pField_succ_quote (f : Nat) (acc : List (JStr × Json)) (r : JStr) :
    pField (f + 1) acc (34 :: r) =
      match parseStringBody r with
      | some (k, r2) =>
        match skipWs r2 with
        | 58 :: r3 =>
          match pVal f r3 with
          | some (v, r4) => pObjTail f (acc ++ [(k, v)]) r4
          | none => none
        | _ => none
      | none => none := by
  rw [pField_succ, skipWs_cons_of_not_ws _ _ (by decide)]

theorem pObjTail_succ_comma (f : Nat) (acc : List (JStr × Json)) (r : JStr) :
    pObjTail (f + 1) acc (44 :: r) = pField f acc r := by
  rw [pObjTail_succ, skipWs_cons_of_not_ws _ _ (by decide)]

theorem pObjTail_succ_rbrace (f : Nat) (acc : List (JStr × Json)) (r : JStr) :
    pObjTail (f + 1) acc (125 :: r) = some (.obj acc, r) := by
  rw [pObjTail_succ, skipWs_cons_of_not_ws _ _ (by decide)]

/-- Induction hypothesis shape for the parse-of-print theorem, bounded by the
node count. -/
def PValWireIH (N : Nat) : Prop :=
  ∀ v, jsonSize v ≤ N → jsonWF v = true → ∀ f, pNeed v ≤ f →
    ∀ rest, NumDelim rest →
    pVal f (asciiEscape (jsonStringify v) ++ rest) = some (v, rest)

theorem arrNeed_cons (v : Json) (vs : List Json) :
    arrNeed (v :: vs) = 1 + max (pNeed v) (arrNeed vs) := rfl

theorem objTailNeed_cons (k : JStr) (v : Json) (fs : List (JStr × Json)) :
    objTailNeed ((k, v) :: fs) = 2 + max (pNeed v) (objTailNeed fs) := rfl

theorem pArrTail_wire_aux (N : Nat) (ihN : PValWireIH N) :
    ∀ vs, jsonSizeL vs ≤ N → jsonWFList vs = true → ∀ f, arrNeed vs ≤ f →
    ∀ (acc : List Json) (rest : JStr),
    pArrTail f acc (asciiEscape (stringifyElemsTail vs) ++ 93 :: rest) =
      some (.arr (acc ++ vs), rest) := by
  intro vs
  induction vs with
  | nil =>
      intro _ _ f hf acc rest
      obtain ⟨f2, rfl⟩ : ∃ f2, f = f2 + 1 :=
        ⟨f - 1, by unfold arrNeed at hf; omega⟩
      rw [show stringifyElemsTail [] = [] from rfl, asciiEscape_nil,
        List.nil_append, pArrTail_succ_rbrack]
      simp
  | cons v vs ih =>
      intro hsz hwf f hf acc rest
      rw [arrNeed_cons] at hf
      obtain ⟨f2, rfl⟩ : ∃ f2, f = f2 + 1 := ⟨f - 1, by omega⟩
      have hv : pNeed v ≤ f2 := by
        have := Nat.le_max_left (pNeed v) (arrNeed vs)
        omega
      have hvs : arrNeed vs ≤ f2 := by
        have := Nat.le_max_right (pNeed v) (arrNeed vs)
        omega
      unfold jsonSizeL at hsz
      have hszv : jsonSize v ≤ N := by
        have := jsonSizeL_nonneg vs
        omega
      have hszvs : jsonSizeL vs ≤ N := by
        have := jsonSize_pos v
        omega
      rw [jsonWFList] at hwf
      rw [Bool.and_eq_true] at hwf
      rw [show stringifyElemsTail (v :: vs) =
          44 :: (jsonStringify v ++ stringifyElemsTail vs) from rfl,
        asciiEscape_cons, show asciiEscapeChar 44 = [44] from by decide,
        asciiEscape_append]
      rw [show ([44] : JStr) ++
            (asciiEscape (jsonStringify v) ++
              asciiEscape (stringifyElemsTail vs)) ++ 93 :: rest =
          44 :: (asciiEscape (jsonStringify v) ++
            (asciiEscape (stringifyElemsTail vs) ++ 93 :: rest)) from by simp]
      rw [pArrTail_succ_comma]
      rw [ihN v hszv hwf.1 f2 hv _ (numDelim_elemsTail vs rest)]
      show pArrTail f2 (acc ++ [v])
          (asciiEscape (stringifyElemsTail vs) ++ 93 :: rest) = _
      rw [ih hszvs hwf.2 f2 hvs (acc ++ [v]) rest]
      simp

theorem wireFields_cons (k : JStr) (v : Json) (fs : List (JStr × Json))
    (rest : JStr) :
    asciiEscape (stringifyFields ((k, v) :: fs)) ++ 125 :: rest =
      34 :: (asciiEscape (jsonEscapeStr k) ++
        (34 :: (58 :: (asciiEscape (jsonStringify v) ++
          (asciiEscape (stringifyFieldsTail fs) ++ 125 :: rest))))) := by
  rw [show stringifyFields ((k, v) :: fs) =
      (34 :: (jsonEscapeStr k ++ [34])) ++ 58 :: jsonStringify v ++
        stringifyFieldsTail fs from rfl]
  simp [asciiEscape_append, asciiEscape_cons, asciiEscapeChar]

theorem pField_step (N : Nat) (ihN : PValWireIH N) (fs : List (JStr × Json))
    (hfsT : ∀ f, objTailNeed fs ≤ f → ∀ (acc : List (JStr × Json))
      (rest : JStr),
      pObjTail f acc (asciiEscape (stringifyFieldsTail fs) ++ 125 :: rest) =
        some (.obj (acc ++ fs), rest))
    (k : JStr) (v : Json) (hk : k.all (fun u => u < 65536) = true)
    (hv : jsonWF v = true) (hszv : jsonSize v ≤ N) :
    ∀ f, 1 + max (pNeed v) (objTailNeed fs) ≤ f →
    ∀ (acc : List (JStr × Json)) (rest : JStr),
    pField f acc (asciiEscape (stringifyFields ((k, v) :: fs)) ++ 125 :: rest) =
      some (.obj (acc ++ (k, v) :: fs), rest) := by
  intro f hf acc rest
  obtain ⟨f2, rfl⟩ : ∃ f2, f = f2 + 1 := ⟨f - 1, by omega⟩
  have hv2 : pNeed v ≤ f2 := by
    have := Nat.le_max_left (pNeed v) (objTailNeed fs)
    omega
  have hfs2 : objTailNeed fs ≤ f2 := by
    have := Nat.le_max_right (pNeed v) (objTailNeed fs)
    omega
  rw [wireFields_cons, pField_succ_quote]
  rw [parseStringBody_wire k (by
    intro u hu
    have := List.all_eq_true.mp hk u hu
    simpa using this) _]
  show (match skipWs (58 :: (asciiEscape (jsonStringify v) ++
      (asciiEscape (stringifyFieldsTail fs) ++ 125 :: rest))) with
    | 58 :: r3 =>
      match pVal f2 r3 with
      | some (v, r4) => pObjTail f2 (acc ++ [(k, v)]) r4
      | none => none
    | _ => none) = some (.obj (acc ++ (k, v) :: fs), rest)
  rw [skipWs_cons_of_not_ws _ _ (by decide)]
  show (match pVal f2 (asciiEscape (jsonStringify v) ++
      (asciiEscape (stringifyFieldsTail fs) ++ 125 :: rest)) with
    | some (v, r4) => pObjTail f2 (acc ++ [(k, v)]) r4
    | none => none) = some (.obj (acc ++ (k, v) :: fs), rest)
  rw [ihN v hszv hv f2 hv2 _ (numDelim_fieldsTail fs rest)]
  show pObjTail f2 (acc ++ [(k, v)])
      (asciiEscape (stringifyFieldsTail fs) ++ 125 :: rest) = _
  rw [hfsT f2 hfs2 (acc ++ [(k, v)]) rest]
  simp

theorem pObjTail_wire_aux (N : Nat) (ihN : PValWireIH N) :
    ∀ fs, jsonSizeF fs ≤ N → jsonWFFields fs = true →
    ∀ f, objTailNeed fs ≤ f → ∀ (acc : List (JStr × Json)) (rest : JStr),
    pObjTail f acc (asciiEscape (stringifyFieldsTail fs) ++ 125 :: rest) =
      some (.obj (acc ++ fs), rest) := by
  intro fs
  induction fs with
  | nil =>
      intro _ _ f hf acc rest
      obtain ⟨f2, rfl⟩ : ∃ f2, f = f2 + 1 :=
        ⟨f - 1, by unfold objTailNeed at hf; omega⟩
      rw [show stringifyFieldsTail [] = [] from rfl, asciiEscape_nil,
        List.nil_append, pObjTail_succ_rbrace]
      simp
  | cons g gs ih =>
      obtain ⟨k2, v2⟩ := g
      intro hsz hwf f hf acc rest
      rw [objTailNeed_cons] at hf
      obtain ⟨f2, rfl⟩ : ∃ f2, f = f2 + 1 := ⟨f - 1, by omega⟩
      unfold jsonSizeF at hsz
      rw [jsonWFFields] at hwf
      rw [Bool.and_eq_true, Bool.and_eq_true] at hwf
      have hszv : jsonSize v2 ≤ N := by
        have : 0 ≤ jsonSizeF gs := Nat.zero_le _
        omega
      have hszgs : jsonSizeF gs ≤ N := by
        have := jsonSize_pos v2
        omega
      rw [show stringifyFieldsTail ((k2, v2) :: gs) =
          44 :: stringifyFields ((k2, v2) :: gs) from rfl,
        asciiEscape_cons, show asciiEscapeChar 44 = [44] from by decide]
      rw [show ([44] : JStr) ++ asciiEscape (stringifyFields ((k2, v2) :: gs)) ++
          125 :: rest =
          44 :: (asciiEscape (stringifyFields ((k2, v2) :: gs)) ++ 125 :: rest)
        from by simp]
      rw [pObjTail_succ_comma]
      exact pField_step N ihN gs (ih hszgs hwf.2) k2 v2 hwf.1.1 hwf.1.2 hszv
        f2 (by omega) acc rest

theorem pVal_wire : ∀ N : Nat, PValWireIH N := by
  intro N
  induction N with
  | zero =>
      intro v hsz
      have := jsonSize_pos v
      omega
  | succ N ihN =>
      intro v hsz hwf f hfneed rest hrest
      cases v with
      | null =>
          obtain ⟨f2, rfl⟩ : ∃ f2, f = f2 + 1 := ⟨f - 1, by
            unfold pNeed at hfneed; omega⟩
          rfl
      | bool b =>
          obtain ⟨f2, rfl⟩ : ∃ f2, f = f2 + 1 := ⟨f - 1, by
            unfold pNeed at hfneed; omega⟩
          cases b <;> rfl
      | num n =>
          exact pVal_num n f (by unfold pNeed at hfneed; omega) rest hrest
      | str s =>
          obtain ⟨f2, rfl⟩ : ∃ f2, f = f2 + 1 := ⟨f - 1, by
            unfold pNeed at hfneed; omega⟩
          rw [show jsonStringify (.str s) = 34 :: (jsonEscapeStr s ++ [34])
            from rfl]
          rw [asciiEscape_cons, show asciiEscapeChar 34 = [34] from by decide,
            asciiEscape_append, show asciiEscape [34] = [34] from by decide]
          rw [show ([34] : JStr) ++ (asciiEscape (jsonEscapeStr s) ++ [34]) ++
              rest = 34 :: (asciiEscape (jsonEscapeStr s) ++ 34 :: rest)
            from by simp]
          rw [pVal_succ_cons _ _ _ (by decide)]
          rw [if_neg (by decide), if_neg (by decide), if_neg (by decide),
            if_pos rfl]
          rw [parseStringBody_wire s (by simpa [jsonWF] using hwf) rest]
      | arr l =>
          cases l with
          | nil =>
              obtain ⟨f2, rfl⟩ : ∃ f2, f = f2 + 1 := ⟨f - 1, by
                unfold pNeed arrNeed at hfneed; omega⟩
              rfl
          | cons v vs =>
              have hfa : 1 + max (pNeed v) (arrNeed vs) ≤ f := by
                unfold pNeed at hfneed
                rw [arrNeed_cons] at hfneed
                exact hfneed
              obtain ⟨f2, rfl⟩ : ∃ f2, f = f2 + 1 := ⟨f - 1, by omega⟩
              have hv : pNeed v ≤ f2 := by
                have := Nat.le_max_left (pNeed v) (arrNeed vs)
                omega
              have hvs : arrNeed vs ≤ f2 := by
                have := Nat.le_max_right (pNeed v) (arrNeed vs)
                omega
              have hsizes : jsonSize v ≤ N ∧ jsonSizeL vs ≤ N := by
                rw [show jsonSize (.arr (v :: vs)) =
                    1 + (jsonSize v + jsonSizeL vs) from rfl] at hsz
                have := jsonSize_pos v
                constructor <;> omega
              have hwfs : jsonWF v = true ∧ jsonWFList vs = true := by
                rw [show jsonWF (.arr (v :: vs)) =
                    (jsonWF v && jsonWFList vs) from rfl] at hwf
                rw [Bool.and_eq_true] at hwf
                exact hwf
              rw [show jsonStringify (.arr (v :: vs)) =
                  91 :: ((jsonStringify v ++ stringifyElemsTail vs) ++ [93])
                from rfl]
              rw [asciiEscape_cons, show asciiEscapeChar 91 = [91] from by decide,
                asciiEscape_append, asciiEscape_append,
                show asciiEscape [93] = [93] from by decide]
              rw [show ([91] : JStr) ++ ((asciiEscape (jsonStringify v) ++
                    asciiEscape (stringifyElemsTail vs)) ++ [93]) ++ rest =
                  91 :: (asciiEscape (jsonStringify v) ++
                    (asciiEscape (stringifyElemsTail vs) ++ 93 :: rest))
                from by simp]
              rw [pVal_succ_cons _ _ _ (by decide)]
              rw [if_neg (by decide), if_neg (by decide), if_neg (by decide),
                if_neg (by decide), if_neg (by decide), if_neg (by decide),
                if_pos rfl]
              obtain ⟨u, t, hut, hu1, hu2, hu3, hu4, hu5, hu6⟩ :=
                wireEncode_head v
              have hskip : skipWs (asciiEscape (jsonStringify v) ++
                  (asciiEscape (stringifyElemsTail vs) ++ 93 :: rest)) =
                  asciiEscape (jsonStringify v) ++
                  (asciiEscape (stringifyElemsTail vs) ++ 93 :: rest) := by
                rw [hut]
                exact skipWs_cons_of_not_ws _ _ hu2
              rw [hskip]
              split
              · next r heq =>
                  rw [hut] at heq
                  simp only [List.cons_append, List.cons.injEq] at heq
                  exact absurd heq.1 hu3
              · next s2 heq =>
                  rw [ihN v hsizes.1 hwfs.1 f2 hv _
                    (numDelim_elemsTail vs rest)]
                  show pArrTail f2 [v]
                      (asciiEscape (stringifyElemsTail vs) ++ 93 :: rest) = _
                  rw [pArrTail_wire_aux N ihN vs hsizes.2 hwfs.2 f2 hvs [v]
                    rest]
                  simp
      | obj l =>
          cases l with
          | nil =>
              obtain ⟨f2, rfl⟩ : ∃ f2, f = f2 + 1 := ⟨f - 1, by
                unfold pNeed objTailNeed at hfneed; omega⟩
              rfl
          | cons g fs =>
              obtain ⟨k, v⟩ := g
              have hfo : 2 + max (pNeed v) (objTailNeed fs) ≤ f := by
                unfold pNeed at hfneed
                rw [objTailNeed_cons] at hfneed
                exact hfneed
              obtain ⟨f2, rfl⟩ : ∃ f2, f = f2 + 1 := ⟨f - 1, by omega⟩
              have hsizes : jsonSize v ≤ N ∧ jsonSizeF fs ≤ N := by
                rw [show jsonSize (.obj ((k, v) :: fs)) =
                    1 + (jsonSize v + jsonSizeF fs) from rfl] at hsz
                have := jsonSize_pos v
                constructor <;> omega
              have hwfs : k.all (fun u => u < 65536) = true ∧
                  jsonWF v = true ∧ jsonWFFields fs = true := by
                rw [show jsonWF (.obj ((k, v) :: fs)) =
                    (k.all (fun u => u < 65536) && jsonWF v &&
                      jsonWFFields fs) from rfl] at hwf
                rw [Bool.and_eq_true, Bool.and_eq_true] at hwf
                exact ⟨hwf.1.1, hwf.1.2, hwf.2⟩
              rw [show jsonStringify (.obj ((k, v) :: fs)) =
                  123 :: (stringifyFields ((k, v) :: fs) ++ [125]) from rfl]
              rw [asciiEscape_cons,
                show asciiEscapeChar 123 = [123] from by decide,
                asciiEscape_append,
                show asciiEscape [125] = [125] from by decide]
              rw [show ([123] : JStr) ++
                    (asciiEscape (stringifyFields ((k, v) :: fs)) ++ [125]) ++
                    rest =
                  123 :: (asciiEscape (stringifyFields ((k, v) :: fs)) ++
                    125 :: rest) from by simp]
              rw [pVal_succ_cons _ _ _ (by decide)]
              rw [if_neg (by decide), if_neg (by decide), if_neg (by decide),
                if_neg (by decide), if_neg (by decide), if_neg (by decide),
                if_neg (by decide), if_pos rfl]
              have hskip : skipWs (asciiEscape (stringifyFields ((k, v) :: fs))
                  ++ 125 :: rest) =
                  asciiEscape (stringifyFields ((k, v) :: fs)) ++ 125 :: rest
                := by
                rw [wireFields_cons]
                exact skipWs_cons_of_not_ws _ _ (by decide)
              rw [hskip]
              split
              · next r heq =>
                  rw [wireFields_cons] at heq
                  simp only [List.cons.injEq] at heq
                  omega
              · next s2 heq =>
                  exact pField_step N ihN fs
                    (pObjTail_wire_aux N ihN fs hsizes.2 hwfs.2.2) k v hwfs.1
                    hwfs.2.1 hsizes.1 f2 (by omega) [] rest

theorem jsonStringify_ne_nil (v : Json) : jsonStringify v ≠ [] := by
  obtain ⟨u, t, hut, _⟩ := wire_head v
  rw [hut]
  exact List.cons_ne_nil u t

theorem length_le_asciiEscape (s : JStr) :
    s.length ≤ (asciiEscape s).length := by
  induction s with
  | nil => simp [asciiEscape]
  | cons u t ih =>
      rw [asciiEscape_cons, List.length_append, List.length_cons]
      have : 1 ≤ (asciiEscapeChar u).length := by
        unfold asciiEscapeChar
        split <;> simp
      omega

theorem len_elems_le_tail (vs : List Json) :
    (stringifyElems vs).length ≤ (stringifyElemsTail vs).length := by
  cases vs with
  | nil => simp [stringifyElems, stringifyElemsTail]
  | cons v vs =>
      rw [show stringifyElems (v :: vs) =
          jsonStringify v ++ stringifyElemsTail vs from rfl,
        show stringifyElemsTail (v :: vs) =
          44 :: (jsonStringify v ++ stringifyElemsTail vs) from rfl]
      simp

theorem len_fields_le_tail (fs : List (JStr × Json)) :
    (stringifyFields fs).length ≤ (stringifyFieldsTail fs).length := by
  cases fs with
  | nil => simp [stringifyFields, stringifyFieldsTail]
  | cons g fs =>
      obtain ⟨k, v⟩ := g
      rw [show stringifyFields ((k, v) :: fs) =
          (34 :: (jsonEscapeStr k ++ [34])) ++ 58 :: jsonStringify v ++
            stringifyFieldsTail fs from rfl,
        show stringifyFieldsTail ((k, v) :: fs) =
          44 :: ((34 :: (jsonEscapeStr k ++ [34])) ++ 58 :: jsonStringify v ++
            stringifyFieldsTail fs) from rfl]
      simp

mutual

theorem pNeed_le_length : (v : Json) → pNeed v ≤ (jsonStringify v).length
  | .null => by simp [pNeed, jsonStringify, lit]
  | .bool b => by cases b <;> simp [pNeed, jsonStringify, lit]
  | .num n => by
      have h := natUnits_cons n.toNat
      unfold pNeed jsonStringify intUnits
      split
      · simp
      · obtain ⟨u, t, hut, _⟩ := h
        rw [hut]
        simp
  | .str s => by
      unfold pNeed jsonStringify
      simp
  | .arr l => by
      have h := arrNeed_le_elems l
      show arrNeed l ≤ (jsonStringify (.arr l)).length
      rw [show jsonStringify (.arr l) = 91 :: (stringifyElems l ++ [93])
        from rfl]
      simp only [List.length_cons, List.length_append, List.length_singleton]
      omega
  | .obj l => by
      have h := objTailNeed_le_fields l
      show objTailNeed l ≤ (jsonStringify (.obj l)).length
      rw [show jsonStringify (.obj l) = 123 :: (stringifyFields l ++ [125])
        from rfl]
      simp only [List.length_cons, List.length_append, List.length_singleton]
      omega

theorem arrNeed_le_elems : (vs : List Json) →
    arrNeed vs ≤ (stringifyElems vs).length + 1
  | [] => by simp [arrNeed, stringifyElems]
  | v :: vs => by
      have h1 := pNeed_le_length v
      have h2 := arrNeed_le_elems vs
      have h3 := len_elems_le_tail vs
      have h4 : 1 ≤ (jsonStringify v).length := by
        cases hsv : jsonStringify v with
        | nil => exact absurd hsv (jsonStringify_ne_nil v)
        | cons a t => simp
      rw [arrNeed_cons,
        show stringifyElems (v :: vs) =
          jsonStringify v ++ stringifyElemsTail vs from rfl]
      simp only [List.length_append]
      omega

theorem objTailNeed_le_fields : (fs : List (JStr × Json)) →
    objTailNeed fs ≤ (stringifyFields fs).length + 1
  | [] => by simp [objTailNeed, stringifyFields]
  | (k, v) :: fs => by
      have h1 := pNeed_le_length v
      have h2 := objTailNeed_le_fields fs
      have h3 := len_fields_le_tail fs
      rw [objTailNeed_cons,
        show stringifyFields ((k, v) :: fs) =
          (34 :: (jsonEscapeStr k ++ [34])) ++ 58 :: jsonStringify v ++
            stringifyFieldsTail fs from rfl]
      simp only [List.length_cons, List.length_append]
      omega

end

theorem jsonParse_wireEncode (v : Json) (hwf : jsonWF v = true) :
    jsonParse (wireEncode v) = some v := by
  unfold jsonParse wireEncode
  have h1 : pNeed v ≤ (asciiEscape (jsonStringify v)).length + 1 := by
    have := pNeed_le_length v
    have := length_le_asciiEscape (jsonStringify v)
    omega
  have h2 := pVal_wire (jsonSize v) v le_rfl hwf
    ((asciiEscape (jsonStringify v)).length + 1) h1 [] (by
      unfold NumDelim
      trivial)
  rw [show asciiEscape (jsonStringify v) ++ ([] : JStr) =
      asciiEscape (jsonStringify v) from by simp] at h2
  rw [h2]
  rfl

/-- Decoding inverts the producer's encode: `JSON.parse` of the escaped
serialization recovers the payload, and the raw-string fallback is never
taken. -/
theorem decodePayload_wireEncode (v : Json) (hwf : jsonWF v = true) :
    decodePayload (wireEncode v) = v := by
  unfold decodePayload
  rw [jsonParse_wireEncode v hwf]

/-- `WSS_MAXIMUM_BYTES` from `MinecraftWebSocketServer`. -/
def WSS_MAXIMUM_BYTES : Nat := 661

/-- The JSON command envelope built by `#internalRunCommand` /
`getCommandPayloadSize`: header with request id, purpose and protocol
version 26, body with the command line and version. -/
def envelopeJson (rid cmd : JStr) : Json :=
  .obj [(lit "header",
          .obj [(lit "requestId", .str rid),
                (lit "messagePurpose", .str (lit "commandRequest")),
                (lit "version", .num 26)]),
        (lit "body",
          .obj [(lit "commandLine", .str cmd),
                (lit "version", .num 26)])]

/-- Serialized command envelope. -/
def envelopePayload (rid cmd : JStr) : JStr :=
  jsonStringify (envelopeJson rid cmd)

/-- `getCommandPayloadSize` from `sendData`:
`Buffer.byteLength(JSON.stringify(payload), 'utf8')`. -/
def getCommandPayloadSize (rid cmd : JStr) : Nat :=
  utf8Len (envelopePayload rid cmd)

/-- The binary-search loop inside `sendData` (variables `low`, `high`,
`bestFitIndex`; `p mid` is the test `currentSize <= WSS_MAXIMUM_BYTES` for the
prefix of length `mid`).  Mirrors the source exactly, including the
`if (mid === 0) break` exit.  The loop shrinks `high + 1 - low` on every
iteration, so any fuel above that bound reproduces the JS loop; the structural
fuel keeps the function kernel-computable. -/
def bsGo (p : Nat → Bool) : Nat → Nat → Nat → Nat → Nat
  | 0, _, _, best => best
  | fuel + 1, low, high, best =>
      if low > high then best
      else
        let mid := low + (high - low) / 2
        if mid = 0 then best
        else if p mid then bsGo p fuel (mid + 1) high mid
        else bsGo p fuel low (mid - 1) best

/-- One binary-search pass of the packetizer: the chosen `bestFitIndex` for a
given command stem `pre` and remaining data. -/
def chunkFit (rid pre remaining : JStr) : Nat :=
  bsGo (fun mid =>
      getCommandPayloadSize rid (pre ++ remaining.take mid) ≤
        WSS_MAXIMUM_BYTES)
    (remaining.length + 2) 0 remaining.length 0

/-- `commandBase` of `sendData`. -/
def commandBase (name : JStr) : JStr := lit "scriptevent yb:" ++ name

/-- The `commandPrefix` of fragment number `idx`:
`commandBase DATA:<idx>:<transferId>:`. -/
def dataCommandStem (name id : JStr) (idx : Nat) : JStr :=
  commandBase name ++ lit " DATA:" ++ natUnits idx ++ lit ":" ++ id ++ lit ":"

/-- Errors surfaced by the modelled `sendData`. -/
inductive SendDataErr where
  | connectionClosed
  | invalidName
  | nameTooLong
  | overheadTooLarge (overhead : Nat)

/-- Fuel-driven chunking loop of `sendData` (each round consumes at least one
character, so fuel `remaining.length` reproduces the JS `while` loop). -/
def buildChunksAux (rid name id : JStr) :
    Nat → JStr → Nat → Except SendDataErr (List JStr)
  | _, [], _ => .ok []
  | 0, _ :: _, idx =>
      .error (.overheadTooLarge
        (getCommandPayloadSize rid (dataCommandStem name id idx)))
  | fuel + 1, u :: rest, idx =>
      let pre := dataCommandStem name id idx
      let L := chunkFit rid pre (u :: rest)
      if L = 0 then
        .error (.overheadTooLarge (getCommandPayloadSize rid pre))
      else
        match buildChunksAux rid name id fuel ((u :: rest).drop L) (idx + 1)
          with
        | .ok cs => .ok ((u :: rest).take L :: cs)
        | .error e => .error e

/-- The chunking loop of `sendData`: split the remaining data into fragments
by repeated binary search, failing when no character fits. -/
def buildChunks (rid name id : JStr) (remaining : JStr) (idx : Nat) :
    Except SendDataErr (List JStr) :=
  buildChunksAux rid name id remaining.length remaining idx

/-- Character class of the `/^[a-zA-Z0-9_-]+$/` name check in `sendData`. -/
def isNameChar (u : Nat) : Bool :=
  (97 ≤ u && u ≤ 122) || (65 ≤ u && u ≤ 90) || (48 ≤ u && u ≤ 57) ||
    u = 95 || u = 45

/-- The `/^[a-zA-Z0-9_-]+$/` test. -/
def validName (s : JStr) : Bool := !s.isEmpty && s.all isNameChar

/-- The command list built by `sendData` (name validation, escape, chunking,
then `START` / `DATA i` / `END` commands).  The connection check is modelled
by the caller (`runCommands`); `rid` is the sample request id used for size
estimation. -/
def sendDataCommands (rid name id : JStr) (data : Json) :
    Except SendDataErr (List JStr) :=
  if ¬ validName name then .error .invalidName
  else if 64 < name.length then .error .nameTooLong
  else
    match buildChunks rid name id (wireEncode data) 0 with
    | .error e => .error e
    | .ok chunks =>
        .ok ((commandBase name ++ lit " START:" ++ natUnits chunks.length ++
              lit ":" ++ id) ::
          (chunks.enum.map
            (fun p => dataCommandStem name id p.1 ++ p.2)) ++
          [commandBase name ++ lit " END:" ++ id])

theorem jsonEscapeStr_append (a b : JStr) :
    jsonEscapeStr (a ++ b) = jsonEscapeStr a ++ jsonEscapeStr b := by
  simp [jsonEscapeStr]

theorem envelopePayload_eq (rid cmd : JStr) :
    envelopePayload rid cmd =
      lit "\x7b\"header\":\x7b\"requestId\":\"" ++
      (jsonEscapeStr rid ++
      (lit "\",\"messagePurpose\":\"commandRequest\",\"version\":26\x7d,\"body\":\x7b\"commandLine\":\"" ++
      (jsonEscapeStr cmd ++
      lit "\",\"version\":26\x7d\x7d"))) := by
  unfold envelopePayload envelopeJson
  simp only [jsonStringify, stringifyFields, stringifyFieldsTail,
    show intUnits 26 = lit "26" from by decide,
    show jsonEscapeStr (lit "header") = lit "header" from by decide,
    show jsonEscapeStr (lit "requestId") = lit "requestId" from by decide,
    show jsonEscapeStr (lit "messagePurpose") = lit "messagePurpose" from by
      decide,
    show jsonEscapeStr (lit "commandRequest") = lit "commandRequest" from by
      decide,
    show jsonEscapeStr (lit "version") = lit "version" from by decide,
    show jsonEscapeStr (lit "body") = lit "body" from by decide,
    show jsonEscapeStr (lit "commandLine") = lit "commandLine" from by decide]
  simp [lit]

theorem utf8Len_ascii (s : JStr) (h : ∀ u ∈ s, u ≤ 127) :
    utf8Len s = s.length := by
  induction s with
  | nil => rfl
  | cons u rest ih =>
      have hu : u ≤ 127 := h u (by simp)
      have ih2 := ih (fun x hx => h x (by simp [hx]))
      cases rest with
      | nil =>
          rw [show utf8Len [u] = if u < 128 then 1
            else if u < 2048 then 2 else 3 from rfl]
          rw [if_pos (by omega)]
          rfl
      | cons v r2 =>
          rw [show utf8Len (u :: v :: r2) = if u < 128 then
              1 + utf8Len (v :: r2)
            else if u < 2048 then 2 + utf8Len (v :: r2)
            else if 55296 ≤ u ∧ u ≤ 56319 ∧ 56320 ≤ v ∧ v ≤ 57343 then
              4 + utf8Len r2
            else 3 + utf8Len (v :: r2) from rfl]
          rw [if_pos (by omega), ih2]
          simp [Nat.add_comm]

theorem jsonEscapeChar_ascii (u : Nat) (h : u ≤ 127) :
    ∀ x ∈ jsonEscapeChar u, x ≤ 127 := by
  intro x hx
  unfold jsonEscapeChar at hx
  split_ifs at hx <;>
    first
      | (simp only [List.mem_cons, List.not_mem_nil, or_false] at hx; omega)
      | (simp only [List.mem_cons] at hx
         rcases hx with h1 | h1 | h1
         · omega
         · omega
         · exact hex4_ascii u x h1)

theorem jsonEscapeStr_ascii (s : JStr) (h : ∀ u ∈ s, u ≤ 127) :
    ∀ x ∈ jsonEscapeStr s, x ≤ 127 := by
  induction s with
  | nil => simp [jsonEscapeStr]
  | cons u rest ih =>
      intro x hx
      rw [jsonEscapeStr_cons] at hx
      rw [List.mem_append] at hx
      rcases hx with h1 | h1
      · exact jsonEscapeChar_ascii u (h u (by simp)) x h1
      · exact ih (fun y hy => h y (by simp [hy])) x h1

theorem lit_ascii (s : String) (h : ∀ c ∈ s.data, c.toNat ≤ 127) :
    ∀ x ∈ lit s, x ≤ 127 := by
  intro x hx
  unfold lit at hx
  rw [List.mem_map] at hx
  obtain ⟨c, hc, rfl⟩ := hx
  exact h c hc

theorem envelopePayload_ascii (rid cmd : JStr)
    (hr : ∀ u ∈ rid, u ≤ 127) (hc : ∀ u ∈ cmd, u ≤ 127) :
    ∀ x ∈ envelopePayload rid cmd, x ≤ 127 := by
  intro x hx
  rw [envelopePayload_eq] at hx
  simp only [List.mem_append] at hx
  rcases hx with h | h | h | h | h
  · exact lit_ascii _ (by decide) x h
  · exact jsonEscapeStr_ascii rid hr x h
  · exact lit_ascii _ (by decide) x h
  · exact jsonEscapeStr_ascii cmd hc x h
  · exact lit_ascii _ (by decide) x h

theorem getCommandPayloadSize_eq_length (rid cmd : JStr)
    (hr : ∀ u ∈ rid, u ≤ 127) (hc : ∀ u ∈ cmd, u ≤ 127) :
    getCommandPayloadSize rid cmd =
      (lit "\x7b\"header\":\x7b\"requestId\":\"").length +
      (jsonEscapeStr rid).length +
      (lit "\",\"messagePurpose\":\"commandRequest\",\"version\":26\x7d,\"body\":\x7b\"commandLine\":\"").length +
      (jsonEscapeStr cmd).length +
      (lit "\",\"version\":26\x7d\x7d").length := by
  unfold getCommandPayloadSize
  rw [utf8Len_ascii _ (envelopePayload_ascii rid cmd hr hc),
    envelopePayload_eq]
  simp only [List.length_append]
  omega

theorem getCommandPayloadSize_mono (rid pre a b : JStr)
    (hr : ∀ u ∈ rid, u ≤ 127) (hpre : ∀ u ∈ pre, u ≤ 127)
    (ha : ∀ u ∈ a, u ≤ 127) (hb : ∀ u ∈ b, u ≤ 127) :
    getCommandPayloadSize rid (pre ++ a) ≤
      getCommandPayloadSize rid (pre ++ (a ++ b)) := by
  have hpa : ∀ u ∈ pre ++ a, u ≤ 127 := by
    intro u hu
    rw [List.mem_append] at hu
    rcases hu with h | h
    · exact hpre u h
    · exact ha u h
  have hpab : ∀ u ∈ pre ++ (a ++ b), u ≤ 127 := by
    intro u hu
    rw [List.mem_append] at hu
    rcases hu with h | h
    · exact hpre u h
    · rw [List.mem_append] at h
      rcases h with h | h
      · exact ha u h
      · exact hb u h
  rw [getCommandPayloadSize_eq_length rid _ hr hpa,
    getCommandPayloadSize_eq_length rid _ hr hpab]
  rw [jsonEscapeStr_append, jsonEscapeStr_append, jsonEscapeStr_append]
  simp only [List.length_append]
  omega

theorem bsGo_spec (p : Nat → Bool)
    (hp : ∀ m n, m ≤ n → p n = true → p m = true) (N : Nat) :
    ∀ fuel low high best,
      high + 1 - low ≤ fuel →
      high ≤ N →
      (∀ m, high < m → m ≤ N → p m = false) →
      (∀ m, m < low → p m = true → m ≤ best) →
      (best = 0 ∨ p best = true) →
      (best = 0 ∨ best < low) →
      best ≤ N →
      (bsGo p fuel low high best ≤ N ∧
       (bsGo p fuel low high best = 0 ∨
        (p (bsGo p fuel low high best) = true ∧
         ∀ m, m ≤ N → p m = true → m ≤ bsGo p fuel low high best))) := by
  intro fuel
  induction fuel with
  | zero =>
      intro low high best hfuel _ hinv3 hinv4 hinv5 _ hbN
      rw [show bsGo p 0 low high best = best from rfl]
      refine ⟨hbN, ?_⟩
      rcases hinv5 with h | h
      · exact Or.inl h
      · refine Or.inr ⟨h, ?_⟩
        intro m hm hpm
        rcases Nat.lt_or_ge m low with h2 | h2
        · exact hinv4 m h2 hpm
        · exact absurd hpm (by simp [hinv3 m (by omega) hm])
  | succ fuel ih =>
      intro low high best hfuel hhN hinv3 hinv4 hinv5 hinv6 hbN
      rw [show bsGo p (fuel + 1) low high best =
          if low > high then best
          else
            let mid := low + (high - low) / 2
            if mid = 0 then best
            else if p mid then bsGo p fuel (mid + 1) high mid
            else bsGo p fuel low (mid - 1) best from rfl]
      by_cases hlh : low > high
      · rw [if_pos hlh]
        refine ⟨hbN, ?_⟩
        rcases hinv5 with h | h
        · exact Or.inl h
        · refine Or.inr ⟨h, ?_⟩
          intro m hm hpm
          rcases Nat.lt_or_ge m low with h2 | h2
          · exact hinv4 m h2 hpm
          · exact absurd hpm (by simp [hinv3 m (by omega) hm])
      · rw [if_neg hlh]
        simp only []
        set mid := low + (high - low) / 2 with hmid
        by_cases hm0 : mid = 0
        · rw [if_pos hm0]
          refine ⟨hbN, ?_⟩
          rcases hinv6 with h | h
          · exact Or.inl h
          · omega
        · rw [if_neg hm0]
          by_cases hpmid : p mid = true
          · rw [if_pos hpmid]
            exact ih (mid + 1) high mid (by omega) hhN hinv3
              (fun m hm hpm => by omega) (Or.inr hpmid) (Or.inr (by omega))
              (by omega)
          · rw [if_neg hpmid]
            refine ih low (mid - 1) best (by omega) (by omega) ?_ hinv4 hinv5
              hinv6 hbN
            intro m hm hmN
            by_cases hpm : p m = true
            · exact absurd (hp mid m (by omega) hpm) hpmid
            · simpa using hpm

theorem chunkFit_spec (rid pre remaining : JStr)
    (hr : ∀ u ∈ rid, u ≤ 127) (hpre : ∀ u ∈ pre, u ≤ 127)
    (hrem : ∀ u ∈ remaining, u ≤ 127) :
    chunkFit rid pre remaining ≤ remaining.length ∧
    (chunkFit rid pre remaining = 0 ∨
      (getCommandPayloadSize rid
         (pre ++ remaining.take (chunkFit rid pre remaining)) ≤
         WSS_MAXIMUM_BYTES ∧
       ∀ m, m ≤ remaining.length →
         getCommandPayloadSize rid (pre ++ remaining.take m) ≤
           WSS_MAXIMUM_BYTES → m ≤ chunkFit rid pre remaining)) := by
  have hp : ∀ m n, m ≤ n →
      (decide (getCommandPayloadSize rid (pre ++ remaining.take n) ≤
        WSS_MAXIMUM_BYTES)) = true →
      (decide (getCommandPayloadSize rid (pre ++ remaining.take m) ≤
        WSS_MAXIMUM_BYTES)) = true := by
    intro m n hmn hn
    rw [decide_eq_true_eq] at hn ⊢
    have hsplit : remaining.take n =
        remaining.take m ++ (remaining.drop m).take (n - m) := by
      rw [← List.take_add]
      congr 1
      omega
    have hmono := getCommandPayloadSize_mono rid pre (remaining.take m)
      ((remaining.drop m).take (n - m)) hr hpre
      (fun u hu => hrem u (List.take_subset _ _ hu))
      (fun u hu => hrem u (List.drop_subset _ _ (List.take_subset _ _ hu)))
    rw [← hsplit] at hmono
    omega
  have h := bsGo_spec
    (fun mid => decide (getCommandPayloadSize rid
      (pre ++ remaining.take mid) ≤ WSS_MAXIMUM_BYTES))
    hp remaining.length (remaining.length + 2) 0 remaining.length 0
    (by omega) (by omega) (by intro m h1 h2; omega)
    (by intro m h1 h2; omega) (Or.inl rfl) (Or.inl rfl) (by omega)
  obtain ⟨hbound, h⟩ := h
  refine ⟨hbound, ?_⟩
  rcases h with h | ⟨h1, h2⟩
  · exact Or.inl h
  · refine Or.inr ⟨?_, ?_⟩
    · rw [decide_eq_true_eq] at h1
      exact h1
    · intro m hm hsz
      exact h2 m hm (by rw [decide_eq_true_eq]; exact hsz)

theorem asciiEscapeChar_out (u : Nat) : ∀ x ∈ asciiEscapeChar u, x ≤ 127 := by
  intro x hx
  unfold asciiEscapeChar at hx
  split_ifs at hx with h
  · simp only [List.mem_singleton] at hx
    omega
  · simp only [List.mem_cons] at hx
    rcases hx with h1 | h1 | h1
    · omega
    · omega
    · exact hex4_ascii u x h1

theorem asciiEscape_out (s : JStr) : ∀ x ∈ asciiEscape s, x ≤ 127 := by
  induction s with
  | nil => simp [asciiEscape]
  | cons u rest ih =>
      intro x hx
      rw [asciiEscape_cons, List.mem_append] at hx
      rcases hx with h | h
      · exact asciiEscapeChar_out u x h
      · exact ih x h

theorem wireEncode_ascii (v : Json) : ∀ x ∈ wireEncode v, x ≤ 127 :=
  asciiEscape_out (jsonStringify v)

theorem natUnits_ascii (n : Nat) : ∀ x ∈ natUnits n, x ≤ 127 := by
  intro x hx
  have := natUnits_digits n x hx
  omega

theorem dataCommandStem_ascii (name id : JStr) (idx : Nat)
    (hn : ∀ u ∈ name, u ≤ 127) (hi : ∀ u ∈ id, u ≤ 127) :
    ∀ u ∈ dataCommandStem name id idx, u ≤ 127 := by
  intro u hu
  unfold dataCommandStem commandBase at hu
  simp only [List.append_assoc, List.mem_append] at hu
  rcases hu with h | h | h | h | h | h
  · exact lit_ascii _ (by decide) u h
  · exact hn u h
  · exact lit_ascii _ (by decide) u h
  · exact natUnits_ascii idx u h
  · exact lit_ascii _ (by decide) u h
  · rcases h with h | h
    · exact hi u h
    · exact lit_ascii _ (by decide) u h

theorem buildChunksAux_spec (rid name id : JStr)
    (hr : ∀ u ∈ rid, u ≤ 127) (hn : ∀ u ∈ name, u ≤ 127)
    (hi : ∀ u ∈ id, u ≤ 127) :
    ∀ fuel remaining idx cs, remaining.length ≤ fuel →
    (∀ u ∈ remaining, u ≤ 127) →
    buildChunksAux rid name id fuel remaining idx = .ok cs →
    cs.flatten = remaining ∧
    (∀ c ∈ cs, c ≠ []) ∧
    (∀ k, (hk : k < cs.length) →
      getCommandPayloadSize rid
        (dataCommandStem name id (idx + k) ++ cs.get ⟨k, hk⟩) ≤
        WSS_MAXIMUM_BYTES ∧
      ((cs.get ⟨k, hk⟩).length < ((cs.drop k).flatten).length →
        WSS_MAXIMUM_BYTES < getCommandPayloadSize rid
          (dataCommandStem name id (idx + k) ++
            ((cs.drop k).flatten).take ((cs.get ⟨k, hk⟩).length + 1)))) := by
  intro fuel
  induction fuel with
  | zero =>
      intro remaining idx cs hlen hrem hok
      cases remaining with
      | nil =>
          rw [show buildChunksAux rid name id 0 [] idx = .ok [] from rfl]
            at hok
          obtain rfl : ([] : List JStr) = cs := by
            simpa using hok
          refine ⟨rfl, by simp, ?_⟩
          intro k hk
          simp at hk
      | cons u rest => simp at hlen
  | succ fuel ih =>
      intro remaining idx cs hlen hrem hok
      cases remaining with
      | nil =>
          rw [show buildChunksAux rid name id (fuel + 1) [] idx = .ok []
            from rfl] at hok
          obtain rfl : ([] : List JStr) = cs := by
            simpa using hok
          refine ⟨rfl, by simp, ?_⟩
          intro k hk
          simp at hk
      | cons u rest =>
          rw [show buildChunksAux rid name id (fuel + 1) (u :: rest) idx =
              (let pre := dataCommandStem name id idx
               let L := chunkFit rid pre (u :: rest)
               if L = 0 then
                 .error (.overheadTooLarge (getCommandPayloadSize rid pre))
               else
                 match buildChunksAux rid name id fuel
                     ((u :: rest).drop L) (idx + 1) with
                 | .ok cs => .ok ((u :: rest).take L :: cs)
                 | .error e => .error e) from rfl] at hok
          simp only [] at hok
          set pre := dataCommandStem name id idx with hpre
          set L := chunkFit rid pre (u :: rest) with hL
          by_cases hL0 : L = 0
          · rw [if_pos hL0] at hok
            exact absurd hok (by simp)
          · rw [if_neg hL0] at hok
            have hspec := chunkFit_spec rid pre (u :: rest) hr
              (dataCommandStem_ascii name id idx hn hi) hrem
            rw [← hL] at hspec
            obtain ⟨hLle, hspec⟩ := hspec
            rcases hspec with h | ⟨hfit, hmax⟩
            · exact absurd h hL0
            · cases hrec : buildChunksAux rid name id fuel
                ((u :: rest).drop L) (idx + 1) with
              | error e => rw [hrec] at hok; exact absurd hok (by simp)
              | ok cs2 =>
                  rw [hrec] at hok
                  have hcs : (u :: rest).take L :: cs2 = cs := by
                    simpa using hok
                  have hL1 : 1 ≤ L := Nat.pos_of_ne_zero hL0
                  have hdroplen : ((u :: rest).drop L).length ≤ fuel := by
                    simp only [List.length_drop, List.length_cons]
                    simp only [List.length_cons] at hlen
                    omega
                  obtain ⟨ihflat, ihne, ihk⟩ := ih ((u :: rest).drop L)
                    (idx + 1) cs2 hdroplen
                    (fun x hx => hrem x (List.drop_subset _ _ hx)) hrec
                  subst hcs
                  have hflat : (((u :: rest).take L) :: cs2).flatten =
                      u :: rest := by
                    simp only [List.flatten_cons, ihflat]
                    exact List.take_append_drop L (u :: rest)
                  refine ⟨hflat, ?_, ?_⟩
                  · intro c hc
                    rcases List.mem_cons.mp hc with h | h
                    · subst h
                      cases hLlen : (u :: rest).take L with
                      | nil =>
                          have := congrArg List.length hLlen
                          simp only [List.length_take, List.length_cons,
                            List.length_nil] at this
                          omega
                      | cons a t => simp
                    · exact ihne c h
                  · intro k hk
                    cases k with
                    | zero =>
                        have hget : (((u :: rest).take L :: cs2).get
                            ⟨0, hk⟩) = (u :: rest).take L := rfl
                        have hlen0 : ((((u :: rest).take L :: cs2).get
                            ⟨0, hk⟩)).length = L := by
                          rw [hget]
                          simp only [List.length_take]
                          omega
                        constructor
                        · rw [show idx + 0 = idx from rfl, hget]
                          exact hfit
                        · intro hlt
                          rw [List.drop_zero, hflat] at hlt ⊢
                          rw [hlen0] at hlt ⊢
                          rw [show idx + 0 = idx from rfl, ← hpre]
                          have hnot : ¬ (getCommandPayloadSize rid
                              (pre ++ (u :: rest).take (L + 1)) ≤
                              WSS_MAXIMUM_BYTES) := by
                            intro hcon
                            have := hmax (L + 1) (by omega) hcon
                            omega
                          omega
                    | succ k =>
                        have hk2 : k < cs2.length := by
                          simpa using hk
                        obtain ⟨ha, hb⟩ := ihk k hk2
                        constructor
                        · rw [show idx + (k + 1) = idx + 1 + k from by omega]
                          exact ha
                        · intro hlt
                          rw [show idx + (k + 1) = idx + 1 + k from by omega]
                          exact hb (by simpa using hlt)

/-- `String.prototype.split(":")`. -/
def splitOnColon : JStr → List JStr
  | [] => [[]]
  | u :: rest =>
      if u = 58 then [] :: splitOnColon rest
      else
        match splitOnColon rest with
        | [] => [[u]]
        | p :: ps => (u :: p) :: ps

/-- `Array.prototype.join(":")` (used as `parts.slice(3).join(":")`). -/
def joinColon : List JStr → JStr
  | [] => []
  | [p] => p
  | p :: ps => p ++ 58 :: joinColon ps

/-- Leading digit run of `parseInt(s, 10)` after sign handling. -/
def parseIntDigits : JStr → Option Int
  | [] => none
  | u :: rest =>
      if isDigitU u then some ((parseNatGo (u - 48) rest).1 : Int) else none

/-- `parseInt(s, 10)`: skip whitespace, optional sign, then a maximal digit
run; `none` models `NaN`.  Trailing non-digit characters are ignored. -/
def jsParseInt (s : JStr) : Option Int :=
  match skipWs s with
  | 43 :: rest => parseIntDigits rest
  | 45 :: rest => (parseIntDigits rest).map (fun n => -n)
  | rest => parseIntDigits rest

/-- Insertion-order-preserving `Map.set`. -/
def alistSet {α β : Type} [DecidableEq α] (k : α) (v : β) :
    List (α × β) → List (α × β)
  | [] => [(k, v)]
  | (k2, v2) :: rest =>
      if k = k2 then (k, v) :: rest else (k2, v2) :: alistSet k v rest

/-- `Map.delete`. -/
def alistDelete {α β : Type} [DecidableEq α] (k : α) :
    List (α × β) → List (α × β)
  | [] => []
  | (k2, v2) :: rest =>
      if k = k2 then rest else (k2, v2) :: alistDelete k rest

/-- One tracked inbound transfer of `WebSocketBridge` /
`ScriptEventDataManager` (the `timeout` handle is bookkeeping for the runtime
scheduler and is not part of the data model; expiry is modelled as an explicit
event). -/
structure RTransfer where
  name : JStr
  totalChunks : Int
  receivedChunks : List (Int × JStr)
  startTime : Nat
  deriving Repr, DecidableEq

/-- Receiver-side state: the `incomingTransfers` map, the registered listener
names, and the current game tick. -/
structure RState where
  incomingTransfers : List (JStr × RTransfer)
  listeners : List JStr
  currentTick : Nat
  deriving Repr, DecidableEq

/-- Diagnostics emitted by the receiver (one constructor per
`console.warn` / `console.error` site in `handleScriptEvent` /
`processCompleteTransfer`). -/
inductive RLog where
  | invalidStart (msg : JStr)
  | invalidData (msg : JStr)
  | incompleteTransfer (id : JStr) (expected : Int) (received : Nat)
  | missingChunk (id : JStr) (i : Int)
  | transferTimeout (id : JStr)
  deriving Repr, DecidableEq

/-- A listener invocation: channel name, decoded payload, transport delay. -/
abbrev Dispatch := JStr × Json × Nat

/-- The reassembly loop of `processCompleteTransfer`
(`for i = 0; i < totalChunks; i++`), aborting at the first missing index. -/
def reassembleGo (chunks : List (Int × JStr)) : Nat → Nat → Except Int JStr
  | _, 0 => .ok []
  | i, k + 1 =>
      match List.lookup (i : Int) chunks with
      | none => .error (i : Int)
      | some c =>
          match reassembleGo chunks (i + 1) k with
          | .ok s => .ok (c ++ s)
          | .error e => .error e

/-- `processCompleteTransfer` of `WebSocketBridge`: cancel the timer, delete
the record, concatenate the fragments in index order (aborting on a gap),
decode with the `JSON.parse`-else-raw fallback, and dispatch to the listener
registered for the transfer's name, with the elapsed ticks. -/
def processCompleteTransfer (st : RState) (tid : JStr) (tr : RTransfer) :
    RState × List RLog × List Dispatch :=
  let st2 := { st with
    incomingTransfers := alistDelete tid st.incomingTransfers }
  match reassembleGo tr.receivedChunks 0 tr.totalChunks.toNat with
  | .error i => (st2, [.missingChunk tid i], [])
  | .ok s =>
      (st2, [],
        if tr.name ∈ st.listeners then
          [(tr.name, decodePayload s, st.currentTick - tr.startTime)]
        else [])

/-- `handleScriptEvent` of `WebSocketBridge` / `ScriptEventDataManager`:
dispatch on the `START` / `DATA` / `END` message kinds.  `evId` is the script
event identifier (`yb:<name>`). -/
def handleScriptEvent (st : RState) (evId msg : JStr) :
    RState × List RLog × List Dispatch :=
  let name := evId.drop 3
  let parts := splitOnColon msg
  let mtype := parts.headD []
  if mtype = lit "START" then
    match jsParseInt (parts.getD 1 []) with
    | none => (st, [.invalidStart msg], [])
    | some total =>
        let tid := parts.getD 2 []
        if tid = [] then (st, [.invalidStart msg], [])
        else
          let tr0 : RTransfer := RTransfer.mk name total [] st.currentTick
          ({ st with incomingTransfers :=
              alistSet tid tr0 st.incomingTransfers }, [], [])
  else if mtype = lit "DATA" then
    match jsParseInt (parts.getD 1 []) with
    | none => (st, [.invalidData msg], [])
    | some idx =>
        let tid := parts.getD 2 []
        if tid = [] then (st, [.invalidData msg], [])
        else
          let chunkData := joinColon (parts.drop 3)
          match List.lookup tid st.incomingTransfers with
          | none => (st, [], [])
          | some tr =>
              let tr2 : RTransfer :=
                { tr with receivedChunks :=
                    alistSet idx chunkData tr.receivedChunks }
              ({ st with incomingTransfers :=
                  alistSet tid tr2 st.incomingTransfers }, [], [])
  else if mtype = lit "END" then
    let tid := parts.getD 1 []
    match List.lookup tid st.incomingTransfers with
    | none => (st, [], [])
    | some tr =>
        if (tr.receivedChunks.length : Int) = tr.totalChunks then
          processCompleteTransfer st tid tr
        else
          ({ st with incomingTransfers :=
              alistDelete tid st.incomingTransfers },
            [.incompleteTransfer tid tr.totalChunks
              tr.receivedChunks.length], [])
  else (st, [], [])

/-- The expiry timer of a transfer firing (`system.runTimeout` callback):
delete the record and warn. -/
def handleTransferTimeout (st : RState) (tid : JStr) :
    RState × List RLog × List Dispatch :=
  if (List.lookup tid st.incomingTransfers).isSome then
    ({ st with incomingTransfers := alistDelete tid st.incomingTransfers },
      [.transferTimeout tid], [])
  else (st, [], [])

/-- A receiver-side event: a script event or an expiry-timer firing. -/
inductive REvent where
  | script (evId msg : JStr)
  | timeout (tid : JStr)

/-- One receiver step. -/
def rStep (st : RState) : REvent → RState × List RLog × List Dispatch
  | .script evId msg => handleScriptEvent st evId msg
  | .timeout tid => handleTransferTimeout st tid

/-- Run the receiver over an event sequence, collecting diagnostics and
listener invocations. -/
def runReceiver (st : RState) : List REvent →
    RState × List RLog × List Dispatch
  | [] => (st, [], [])
  | e :: es =>
      let (st1, logs1, d1) := rStep st e
      let (st2, logs2, d2) := runReceiver st1 es
      (st2, logs1 ++ logs2, d1 ++ d2)

theorem splitOnColon_ne_nil (s : JStr) : splitOnColon s ≠ [] := by
  cases s with
  | nil => simp [splitOnColon]
  | cons u rest =>
      unfold splitOnColon
      by_cases h : u = 58
      · simp [h]
      · rw [if_neg h]
        cases hs : splitOnColon rest with
        | nil => simp
        | cons p ps => simp

theorem splitOnColon_no_colon (a : JStr) (h : ¬ 58 ∈ a) :
    splitOnColon a = [a] := by
  induction a with
  | nil => rfl
  | cons u rest ih =>
      unfold splitOnColon
      rw [if_neg (by intro hc; exact h (by simp [hc]))]
      rw [ih (by intro hc; exact h (by simp [hc]))]

theorem splitOnColon_append (a b : JStr) (h : ¬ 58 ∈ a) :
    splitOnColon (a ++ 58 :: b) = a :: splitOnColon b := by
  induction a with
  | nil => simp [splitOnColon]
  | cons u rest ih =>
      rw [List.cons_append]
      rw [show splitOnColon (u :: (rest ++ 58 :: b)) =
          (if u = 58 then [] :: splitOnColon (rest ++ 58 :: b)
          else
            match splitOnColon (rest ++ 58 :: b) with
            | [] => [[u]]
            | p :: ps => (u :: p) :: ps) from rfl]
      rw [if_neg (by intro hc; exact h (by simp [hc]))]
      rw [ih (by intro hc; exact h (by simp [hc]))]


theorem joinColon_splitOnColon (s : JStr) :
    joinColon (splitOnColon s) = s := by
  induction s with
  | nil => rfl
  | cons u rest ih =>
      unfold splitOnColon
      by_cases h : u = 58
      · rw [if_pos h]
        obtain ⟨p, ps, hps⟩ := List.exists_cons_of_ne_nil
          (splitOnColon_ne_nil rest)
        rw [hps]
        rw [show joinColon ([] :: p :: ps) = [] ++ 58 :: joinColon (p :: ps)
          from rfl]
        rw [← hps, ih, h]
        rfl
      · rw [if_neg h]
        cases hs : splitOnColon rest with
        | nil => exact absurd hs (splitOnColon_ne_nil rest)
        | cons p ps =>
            rw [hs] at ih
            cases ps with
            | nil =>
                rw [show joinColon [u :: p] = u :: p from rfl]
                rw [show joinColon [p] = p from rfl] at ih
                rw [ih]
            | cons q qs =>
                rw [show joinColon ((u :: p) :: q :: qs) =
                    (u :: p) ++ 58 :: joinColon (q :: qs) from rfl]
                rw [show joinColon (p :: q :: qs) =
                    p ++ 58 :: joinColon (q :: qs) from rfl] at ih
                simp only [List.cons_append, List.cons.injEq, true_and]
                exact ih

theorem parseNatGo_zero_natUnits (n : Nat) : parseNatGo 0 (natUnits n) = (n, []) := by
  rw [natUnits_eq_digits]
  by_cases hn : n = 0
  · subst hn
    rfl
  · rw [if_neg hn, ← List.map_reverse]
    have h := parseNatGo_digits (Nat.digits 10 n).reverse
      (fun d hd => Nat.digits_lt_base (by norm_num)
        (List.mem_reverse.mp hd)) 0 [] (by unfold NumDelim; trivial)
    rw [List.append_nil] at h
    rw [h, foldl_digits_reverse]

theorem jsParseInt_natUnits (n : Nat) :
    jsParseInt (natUnits n) = some (n : Int) := by
  obtain ⟨u, t, hut, hu1, hu2⟩ := natUnits_cons n
  unfold jsParseInt
  rw [hut, skipWs_cons_of_not_ws _ _ (by
    unfold isWsU
    simp only [Bool.or_eq_false_iff, decide_eq_false_iff_not]
    omega)]
  have hdig : isDigitU u = true := by
    unfold isDigitU
    simp only [Bool.and_eq_true, decide_eq_true_eq]
    omega
  split
  · next r heq =>
      rw [List.cons.injEq] at heq
      omega
  · next r heq =>
      rw [List.cons.injEq] at heq
      omega
  · next r h43 h45 =>
      rw [show parseIntDigits (u :: t) =
          if isDigitU u = true then
            some (((parseNatGo (u - 48) t).1 : Nat) : Int)
          else none from rfl]
      rw [if_pos hdig]
      have : parseNatGo (u - 48) t = (n, []) := by
        have h0 : parseNatGo 0 (u :: t) = (n, []) := by
          rw [← hut]
          exact parseNatGo_zero_natUnits n
        rw [show parseNatGo 0 (u :: t) =
            if isDigitU u = true then parseNatGo (0 * 10 + (u - 48)) t
            else (0, u :: t) from rfl, if_pos hdig,
          show 0 * 10 + (u - 48) = u - 48 from by omega] at h0
        exact h0
      rw [this]

theorem lookup_cons {α β : Type} [BEq α] [LawfulBEq α] [DecidableEq α] (k k2 : α) (v2 : β)
    (t : List (α × β)) :
    List.lookup k ((k2, v2) :: t) =
      if k = k2 then some v2 else List.lookup k t := by
  cases hbeq : k == k2 with
  | true =>
      rw [if_pos (eq_of_beq hbeq)]
      show (match k == k2 with
        | true => some v2
        | false => List.lookup k t) = some v2
      rw [hbeq]
  | false =>
      rw [if_neg (by
        intro he
        rw [he] at hbeq
        simp at hbeq)]
      show (match k == k2 with
        | true => some v2
        | false => List.lookup k t) = List.lookup k t
      rw [hbeq]

theorem lookup_alistSet_self {α β : Type} [BEq α] [LawfulBEq α] [DecidableEq α] (k : α) (v : β)
    (l : List (α × β)) : List.lookup k (alistSet k v l) = some v := by
  induction l with
  | nil => simp [alistSet, lookup_cons]
  | cons h t ih =>
      obtain ⟨k2, v2⟩ := h
      unfold alistSet
      by_cases hk : k = k2
      · rw [if_pos hk, lookup_cons, if_pos rfl]
      · rw [if_neg hk, lookup_cons, if_neg hk, ih]

theorem lookup_alistSet_ne {α β : Type} [BEq α] [LawfulBEq α] [DecidableEq α] (k k2 : α) (v : β)
    (l : List (α × β)) (h : k2 ≠ k) :
    List.lookup k2 (alistSet k v l) = List.lookup k2 l := by
  induction l with
  | nil =>
      rw [show alistSet k v [] = [(k, v)] from rfl, lookup_cons, if_neg h]
  | cons hd t ih =>
      obtain ⟨k3, v3⟩ := hd
      unfold alistSet
      by_cases hk : k = k3
      · rw [if_pos hk]
        subst hk
        rw [lookup_cons, lookup_cons, if_neg h, if_neg h]
      · rw [if_neg hk, lookup_cons, lookup_cons, ih]

theorem alistSet_lookup_eq {α β : Type} [BEq α] [LawfulBEq α] [DecidableEq α] (k : α) (v : β)
    (l : List (α × β)) (h : List.lookup k l = some v) :
    alistSet k v l = l := by
  induction l with
  | nil => simp [List.lookup] at h
  | cons hd t ih =>
      obtain ⟨k2, v2⟩ := hd
      rw [lookup_cons] at h
      unfold alistSet
      by_cases hk : k = k2
      · rw [if_pos hk]
        rw [if_pos hk] at h
        simp only [Option.some.injEq] at h
        rw [hk, h]
      · rw [if_neg hk]
        rw [if_neg hk] at h
        rw [ih h]

theorem length_alistSet_new {α β : Type} [BEq α] [LawfulBEq α] [DecidableEq α] (k : α) (v : β)
    (l : List (α × β)) (h : List.lookup k l = none) :
    (alistSet k v l).length = l.length + 1 := by
  induction l with
  | nil => rfl
  | cons hd t ih =>
      obtain ⟨k2, v2⟩ := hd
      rw [lookup_cons] at h
      by_cases hk : k = k2
      · rw [if_pos hk] at h
        exact absurd h (by simp)
      · rw [if_neg hk] at h
        unfold alistSet
        rw [if_neg hk]
        simp only [List.length_cons, ih h]

theorem length_alistSet_mem {α β : Type} [BEq α] [LawfulBEq α] [DecidableEq α] (k : α) (v w : β)
    (l : List (α × β)) (h : List.lookup k l = some w) :
    (alistSet k v l).length = l.length := by
  induction l with
  | nil => simp [List.lookup] at h
  | cons hd t ih =>
      obtain ⟨k2, v2⟩ := hd
      rw [lookup_cons] at h
      unfold alistSet
      by_cases hk : k = k2
      · rw [if_pos hk]
        simp
      · rw [if_neg hk]
        rw [if_neg hk] at h
        simp only [List.length_cons, ih h]

/-- The script-event message carried by a `START` command. -/
def startMsg (total : Nat) (id : JStr) : JStr :=
  lit "START" ++ 58 :: (natUnits total ++ 58 :: id)

/-- The script-event message carried by a `DATA` command. -/
def dataMsg (i : Nat) (id c : JStr) : JStr :=
  lit "DATA" ++ 58 :: (natUnits i ++ 58 :: (id ++ 58 :: c))

/-- The script-event message carried by an `END` command. -/
def endMsg (id : JStr) : JStr := lit "END" ++ 58 :: id

theorem natUnits_no_colon (n : Nat) : ¬ 58 ∈ natUnits n := by
  intro h
  have := natUnits_digits n 58 h
  omega

theorem splitOnColon_startMsg (total : Nat) (id : JStr) (h : ¬ 58 ∈ id) :
    splitOnColon (startMsg total id) =
      [lit "START", natUnits total, id] := by
  unfold startMsg
  rw [splitOnColon_append _ _ (by decide),
    splitOnColon_append _ _ (natUnits_no_colon total),
    splitOnColon_no_colon _ h]

theorem splitOnColon_dataMsg (i : Nat) (id c : JStr) (h : ¬ 58 ∈ id) :
    splitOnColon (dataMsg i id c) =
      lit "DATA" :: natUnits i :: id :: splitOnColon c := by
  unfold dataMsg
  rw [splitOnColon_append _ _ (by decide),
    splitOnColon_append _ _ (natUnits_no_colon i),
    splitOnColon_append _ _ h]

theorem splitOnColon_endMsg (id : JStr) (h : ¬ 58 ∈ id) :
    splitOnColon (endMsg id) = [lit "END", id] := by
  unfold endMsg
  rw [splitOnColon_append _ _ (by decide), splitOnColon_no_colon _ h]

theorem handleScriptEvent_start (st : RState) (evId : JStr) (total : Nat)
    (id : JStr) (hid : id ≠ []) (hcol : ¬ 58 ∈ id) :
    handleScriptEvent st evId (startMsg total id) =
      (RState.mk
        (alistSet id
          (RTransfer.mk (evId.drop 3) (total : Int) [] st.currentTick)
          st.incomingTransfers)
        st.listeners st.currentTick, [], []) := by
  unfold handleScriptEvent
  rw [splitOnColon_startMsg total id hcol]
  simp [List.headD, List.getD, jsParseInt_natUnits, hid]

theorem handleScriptEvent_data (st : RState) (evId : JStr) (i : Nat)
    (id c : JStr) (hid : id ≠ []) (hcol : ¬ 58 ∈ id)
    (tr : RTransfer)
    (hlook : List.lookup id st.incomingTransfers = some tr) :
    handleScriptEvent st evId (dataMsg i id c) =
      (RState.mk
        (alistSet id
          (RTransfer.mk tr.name tr.totalChunks
            (alistSet (i : Int) c tr.receivedChunks) tr.startTime)
          st.incomingTransfers)
        st.listeners st.currentTick, [], []) := by
  unfold handleScriptEvent
  rw [splitOnColon_dataMsg i id c hcol]
  simp [List.headD, List.getD, jsParseInt_natUnits, hid,
    show ¬ (lit "DATA" = lit "START") from by decide,
    joinColon_splitOnColon, hlook]

theorem handleScriptEvent_end (st : RState) (evId id : JStr)
    (hcol : ¬ 58 ∈ id) (tr : RTransfer)
    (hlook : List.lookup id st.incomingTransfers = some tr) :
    handleScriptEvent st evId (endMsg id) =
      if (tr.receivedChunks.length : Int) = tr.totalChunks then
        processCompleteTransfer st id tr
      else
        (RState.mk (alistDelete id st.incomingTransfers) st.listeners
          st.currentTick,
          [.incompleteTransfer id tr.totalChunks tr.receivedChunks.length],
          []) := by
  unfold handleScriptEvent
  rw [splitOnColon_endMsg id hcol]
  simp [List.headD, List.getD,
    show ¬ (lit "END" = lit "START") from by decide,
    show ¬ (lit "END" = lit "DATA") from by decide, hlook]

/-- The accumulated `receivedChunks` map after a list of fragment stores. -/
def foldSetChunks (m : List (Int × JStr)) (ps : List (Nat × JStr)) :
    List (Int × JStr) :=
  ps.foldl (fun m p => alistSet (p.1 : Int) p.2 m) m

theorem foldSetChunks_nil (m : List (Int × JStr)) : foldSetChunks m [] = m :=
  rfl

theorem foldSetChunks_cons (m : List (Int × JStr)) (p : Nat × JStr)
    (ps : List (Nat × JStr)) :
    foldSetChunks m (p :: ps) =
      foldSetChunks (alistSet (p.1 : Int) p.2 m) ps := rfl

theorem foldSetChunks_lookup_of_not_mem (ps : List (Nat × JStr)) (j : Int)
    (h : ∀ p ∈ ps, (p.1 : Int) ≠ j) (m : List (Int × JStr)) :
    List.lookup j (foldSetChunks m ps) = List.lookup j m := by
  induction ps generalizing m with
  | nil => rfl
  | cons p ps ih =>
      rw [foldSetChunks_cons]
      rw [ih (fun q hq => h q (by simp [hq]))]
      exact lookup_alistSet_ne _ _ _ _ (fun he =>
        h p (by simp) (by omega))

theorem foldSetChunks_lookup_mem (ps : List (Nat × JStr)) (i : Nat) (c : JStr)
    (hnd : (ps.map Prod.fst).Nodup) (hmem : (i, c) ∈ ps)
    (m : List (Int × JStr)) :
    List.lookup (i : Int) (foldSetChunks m ps) = some c := by
  induction ps generalizing m with
  | nil => simp at hmem
  | cons p ps ih =>
      rw [foldSetChunks_cons]
      rcases List.mem_cons.mp hmem with h | h
      · subst h
        rw [foldSetChunks_lookup_of_not_mem ps (i : Int) (by
          intro q hq he
          rw [List.map_cons, List.nodup_cons] at hnd
          exact hnd.1 (List.mem_map.mpr ⟨q, hq, by omega⟩))]
        exact lookup_alistSet_self _ _ _
      · exact ih (by
          rw [List.map_cons, List.nodup_cons] at hnd
          exact hnd.2) h _

theorem foldSetChunks_length (ps : List (Nat × JStr))
    (hnd : (ps.map Prod.fst).Nodup) (m : List (Int × JStr))
    (hnew : ∀ p ∈ ps, List.lookup (p.1 : Int) m = none) :
    (foldSetChunks m ps).length = m.length + ps.length := by
  induction ps generalizing m with
  | nil => rfl
  | cons p ps ih =>
      rw [foldSetChunks_cons]
      rw [List.map_cons, List.nodup_cons] at hnd
      rw [ih hnd.2 _ (by
        intro q hq
        rw [lookup_alistSet_ne _ _ _ _ (by
          intro he
          exact hnd.1 (List.mem_map.mpr ⟨q, hq, by omega⟩))]
        exact hnew q (by simp [hq]))]
      rw [length_alistSet_new _ _ _ (hnew p (by simp))]
      simp only [List.length_cons]
      omega

theorem alistSet_cons {α β : Type} [DecidableEq α] (k k2 : α) (v w : β)
    (t : List (α × β)) :
    alistSet k v ((k2, w) :: t) =
      if k = k2 then (k, v) :: t else (k2, w) :: alistSet k v t := rfl

theorem alistSet_alistSet {α β : Type} [DecidableEq α] (k : α) (v1 v2 : β)
    (l : List (α × β)) :
    alistSet k v2 (alistSet k v1 l) = alistSet k v2 l := by
  induction l with
  | nil => simp [alistSet]
  | cons hd t ih =>
      obtain ⟨k2, w⟩ := hd
      rw [alistSet_cons k k2 v1 w t]
      by_cases hk : k = k2
      · rw [if_pos hk, alistSet_cons k k v2 v1 t, if_pos rfl,
          alistSet_cons k k2 v2 w t, if_pos hk]
      · rw [if_neg hk, alistSet_cons k k2 v2 w (alistSet k v1 t), if_neg hk,
          alistSet_cons k k2 v2 w t, if_neg hk, ih]

theorem runReceiver_cons (st : RState) (e : REvent) (es : List REvent) :
    runReceiver st (e :: es) =
      ((runReceiver (rStep st e).1 es).1,
       (rStep st e).2.1 ++ (runReceiver (rStep st e).1 es).2.1,
       (rStep st e).2.2 ++ (runReceiver (rStep st e).1 es).2.2) := rfl

theorem runReceiver_data_fold (evId id : JStr) (hid : id ≠ [])
    (hcol : ¬ 58 ∈ id) :
    ∀ (ps : List (Nat × JStr)) (st : RState) (tr : RTransfer),
    List.lookup id st.incomingTransfers = some tr →
    runReceiver st (ps.map (fun p => .script evId (dataMsg p.1 id p.2))) =
      (RState.mk
        (alistSet id
          (RTransfer.mk tr.name tr.totalChunks
            (foldSetChunks tr.receivedChunks ps) tr.startTime)
          st.incomingTransfers)
        st.listeners st.currentTick, [], []) := by
  intro ps
  induction ps with
  | nil =>
      intro st tr hlook
      rw [show (([] : List (Nat × JStr)).map
          (fun p => REvent.script evId (dataMsg p.1 id p.2))) = [] from rfl]
      rw [show runReceiver st [] = (st, [], []) from rfl]
      rw [foldSetChunks_nil]
      have heta : RTransfer.mk tr.name tr.totalChunks tr.receivedChunks
          tr.startTime = tr := rfl
      rw [heta, alistSet_lookup_eq id tr st.incomingTransfers hlook]
  | cons p ps ih =>
      intro st tr hlook
      rw [List.map_cons, runReceiver_cons]
      rw [show rStep st (REvent.script evId (dataMsg p.1 id p.2)) =
          handleScriptEvent st evId (dataMsg p.1 id p.2) from rfl]
      rw [handleScriptEvent_data st evId p.1 id p.2 hid hcol tr hlook]
      have hlook1 : List.lookup id
          (RState.mk
            (alistSet id
              (RTransfer.mk tr.name tr.totalChunks
                (alistSet ((p.1 : Nat) : Int) p.2 tr.receivedChunks)
                tr.startTime)
              st.incomingTransfers)
            st.listeners st.currentTick).incomingTransfers =
          some (RTransfer.mk tr.name tr.totalChunks
            (alistSet ((p.1 : Nat) : Int) p.2 tr.receivedChunks)
            tr.startTime) := lookup_alistSet_self _ _ _
      rw [show ((RState.mk
            (alistSet id
              (RTransfer.mk tr.name tr.totalChunks
                (alistSet ((p.1 : Nat) : Int) p.2 tr.receivedChunks)
                tr.startTime)
              st.incomingTransfers)
            st.listeners st.currentTick, [], []) :
          RState × List RLog × List Dispatch).1 =
          RState.mk
            (alistSet id
              (RTransfer.mk tr.name tr.totalChunks
                (alistSet ((p.1 : Nat) : Int) p.2 tr.receivedChunks)
                tr.startTime)
              st.incomingTransfers)
            st.listeners st.currentTick from rfl]
      rw [ih _ _ hlook1]
      simp only [alistSet_alistSet, foldSetChunks_cons]
      rfl

theorem reassembleGo_ok (cs : List JStr) :
    ∀ (m : List (Int × JStr)) (i : Nat),
    (∀ j, (hj : j < cs.length) →
      List.lookup (((i + j : Nat) : Int)) m = some (cs.get ⟨j, hj⟩)) →
    reassembleGo m i cs.length = .ok cs.flatten := by
  induction cs with
  | nil => intro m i _; rfl
  | cons c cs ih =>
      intro m i hlook
      rw [show (c :: cs).length = cs.length + 1 from rfl]
      rw [show reassembleGo m i (cs.length + 1) =
          (match List.lookup (i : Int) m with
          | none => .error (i : Int)
          | some c =>
              match reassembleGo m (i + 1) cs.length with
              | .ok s => .ok (c ++ s)
              | .error e => .error e) from rfl]
      have h0 := hlook 0 (by simp)
      rw [show ((i + 0 : Nat) : Int) = (i : Int) from by omega] at h0
      rw [show (c :: cs).get ⟨0, by simp⟩ = c from rfl] at h0
      rw [h0]
      rw [ih m (i + 1) (fun j hj => by
        have := hlook (j + 1) (by simp; omega)
        rw [show ((i + (j + 1) : Nat) : Int) = ((i + 1 + j : Nat) : Int)
          from by omega] at this
        rw [show (c :: cs).get ⟨j + 1, by simp; omega⟩ =
            cs.get ⟨j, hj⟩ from rfl] at this
        exact this)]
      rfl

theorem buildChunksAux_flatten (rid name id : JStr) :
    ∀ fuel remaining idx cs,
    buildChunksAux rid name id fuel remaining idx = .ok cs →
    cs.flatten = remaining := by
  intro fuel
  induction fuel with
  | zero =>
      intro remaining idx cs hok
      cases remaining with
      | nil =>
          rw [show buildChunksAux rid name id 0 [] idx = .ok [] from rfl]
            at hok
          obtain rfl : ([] : List JStr) = cs := by simpa using hok
          rfl
      | cons u rest => exact absurd hok (by simp [buildChunksAux])
  | succ fuel ih =>
      intro remaining idx cs hok
      cases remaining with
      | nil =>
          rw [show buildChunksAux rid name id (fuel + 1) [] idx = .ok []
            from rfl] at hok
          obtain rfl : ([] : List JStr) = cs := by simpa using hok
          rfl
      | cons u rest =>
          rw [show buildChunksAux rid name id (fuel + 1) (u :: rest) idx =
              (let pre := dataCommandStem name id idx
               let L := chunkFit rid pre (u :: rest)
               if L = 0 then
                 .error (.overheadTooLarge (getCommandPayloadSize rid pre))
               else
                 match buildChunksAux rid name id fuel
                     ((u :: rest).drop L) (idx + 1) with
                 | .ok cs => .ok ((u :: rest).take L :: cs)
                 | .error e => .error e) from rfl] at hok
          simp only [] at hok
          by_cases hL0 : chunkFit rid (dataCommandStem name id idx)
              (u :: rest) = 0
          · rw [if_pos hL0] at hok
            exact absurd hok (by simp)
          · rw [if_neg hL0] at hok
            cases hrec : buildChunksAux rid name id fuel
                ((u :: rest).drop (chunkFit rid (dataCommandStem name id idx)
                  (u :: rest))) (idx + 1) with
            | error e => rw [hrec] at hok; exact absurd hok (by simp)
            | ok cs2 =>
                rw [hrec] at hok
                obtain rfl : (u :: rest).take (chunkFit rid
                    (dataCommandStem name id idx) (u :: rest)) :: cs2 = cs :=
                  by simpa using hok
                rw [List.flatten_cons, ih _ _ _ hrec]
                exact List.take_append_drop _ _

theorem runReceiver_append (st : RState) (es1 es2 : List REvent) :
    runReceiver st (es1 ++ es2) =
      ((runReceiver (runReceiver st es1).1 es2).1,
       (runReceiver st es1).2.1 ++ (runReceiver (runReceiver st es1).1 es2).2.1,
       (runReceiver st es1).2.2 ++
         (runReceiver (runReceiver st es1).1 es2).2.2) := by
  induction es1 generalizing st with
  | nil => simp [runReceiver]
  | cons e es ih =>
      rw [List.cons_append, runReceiver_cons, runReceiver_cons, ih]
      simp

theorem runReceiver_singleton (st : RState) (e : REvent) :
    runReceiver st [e] = rStep st e := by
  rw [runReceiver_cons]
  rw [show runReceiver (rStep st e).1 [] = ((rStep st e).1, [], []) from rfl]
  simp

/-- C1: round-trip.  For any well-formed payload `data`, if `sendData`'s
packetizer splits the escaped serialized string `wireEncode data` into the
fragment list `cs`, then running the receiver on the START message, the DATA
fragment messages delivered in ANY order (any permutation of the indexed
fragments), and the END message, invokes the listener registered for `name`
exactly once with the original payload `data`. -/
theorem c1_roundtrip_reassembly
    (data : Json) (hwf : jsonWF data = true)
    (rid name id : JStr)
    (hid1 : id ≠ []) (hid2 : ¬ 58 ∈ id)
    (st : RState) (hlist : name ∈ st.listeners)
    (cs : List JStr)
    (hok : buildChunks rid name id (wireEncode data) 0 = .ok cs)
    (perm : List (Nat × JStr)) (hperm : perm.Perm cs.enum) :
    (runReceiver st
        (REvent.script (lit "yb:" ++ name) (startMsg cs.length id) ::
          (perm.map (fun p =>
            REvent.script (lit "yb:" ++ name) (dataMsg p.1 id p.2)) ++
          [REvent.script (lit "yb:" ++ name) (endMsg id)]))).2.2 =
      [(name, data, 0)] := by
  have hflat : cs.flatten = wireEncode data :=
    buildChunksAux_flatten rid name id _ _ _ _ hok
  have hkeysnd : (perm.map Prod.fst).Nodup := by
    have hp := hperm.map Prod.fst
    rw [List.enum_map_fst] at hp
    exact hp.symm.nodup (List.nodup_range cs.length)
  have hlen : (foldSetChunks [] perm).length = cs.length := by
    rw [foldSetChunks_length perm hkeysnd [] (fun p hp => rfl)]
    rw [hperm.length_eq, List.enum_length]
    simp
  have hmem : ∀ j, (hj : j < cs.length) →
      List.lookup ((j : Nat) : Int) (foldSetChunks [] perm) =
        some (cs.get ⟨j, hj⟩) := by
    intro j hj
    refine foldSetChunks_lookup_mem perm j (cs.get ⟨j, hj⟩) hkeysnd ?_ []
    rw [hperm.mem_iff]
    rw [List.mk_mem_enum_iff_getElem?]
    simp [List.getElem?_eq_getElem hj]
  rw [runReceiver_cons]
  rw [show rStep st (REvent.script (lit "yb:" ++ name)
      (startMsg cs.length id)) =
      handleScriptEvent st (lit "yb:" ++ name) (startMsg cs.length id)
    from rfl]
  rw [handleScriptEvent_start st (lit "yb:" ++ name) cs.length id hid1 hid2]
  rw [show (lit "yb:" ++ name).drop 3 = name from rfl]
  dsimp only [List.nil_append]
  rw [runReceiver_append]
  rw [runReceiver_data_fold (lit "yb:" ++ name) id hid1 hid2 perm
    (RState.mk (alistSet id
        (RTransfer.mk name (cs.length : Int) [] st.currentTick)
        st.incomingTransfers) st.listeners st.currentTick)
    (RTransfer.mk name (cs.length : Int) [] st.currentTick)
    (lookup_alistSet_self _ _ _)]
  dsimp only [List.nil_append]
  rw [alistSet_alistSet]
  rw [runReceiver_singleton]
  rw [show rStep (RState.mk (alistSet id
      (RTransfer.mk name (cs.length : Int) (foldSetChunks [] perm)
        st.currentTick) st.incomingTransfers) st.listeners st.currentTick)
      (REvent.script (lit "yb:" ++ name) (endMsg id)) =
    handleScriptEvent (RState.mk (alistSet id
      (RTransfer.mk name (cs.length : Int) (foldSetChunks [] perm)
        st.currentTick) st.incomingTransfers) st.listeners st.currentTick)
      (lit "yb:" ++ name) (endMsg id) from rfl]
  rw [handleScriptEvent_end _ _ _ hid2
    (RTransfer.mk name (cs.length : Int) (foldSetChunks [] perm)
      st.currentTick)
    (lookup_alistSet_self _ _ _)]
  rw [if_pos (by
    dsimp only
    rw [hlen])]
  unfold processCompleteTransfer
  dsimp only
  rw [show ((cs.length : Int)).toNat = cs.length from by omega]
  rw [reassembleGo_ok cs (foldSetChunks [] perm) 0 (fun j hj => by
    rw [show ((0 + j : Nat) : Int) = ((j : Nat) : Int) from by omega]
    exact hmem j hj)]
  dsimp only
  rw [if_pos hlist]
  rw [hflat, decodePayload_wireEncode data hwf, Nat.sub_self]

def c1data : Json := .str (List.replicate 700 97)

def c1cs : List JStr :=
  match buildChunks (lit "r") (lit "n") (lit "t") (wireEncode c1data) 0 with
  | .ok cs => cs
  | .error _ => []

def c1st : RState := RState.mk [] [lit "n"] 0

set_option maxRecDepth 100000 in
theorem c1_roundtrip_reassembly_witness :
    (runReceiver c1st
        (REvent.script (lit "yb:" ++ lit "n")
            (startMsg c1cs.length (lit "t")) ::
          (c1cs.enum.reverse.map (fun p =>
            REvent.script (lit "yb:" ++ lit "n")
              (dataMsg p.1 (lit "t") p.2)) ++
          [REvent.script (lit "yb:" ++ lit "n") (endMsg (lit "t"))]))).2.2 =
      [(lit "n", c1data, 0)] :=
  c1_roundtrip_reassembly c1data (by decide) (lit "r") (lit "n") (lit "t")
    (by decide) (by decide) c1st (by decide) c1cs rfl
    c1cs.enum.reverse (List.reverse_perm _)

/-- C4: packetizer maximality.  Every fragment produced by the binary-search
chunker of `sendData` fits the `WSS_MAXIMUM_BYTES = 661` envelope budget, and
whenever more of the remainder was available, extending the fragment by one
more character would exceed the budget: each fragment is the maximal prefix
of the remaining data that fits. -/
theorem c4_packetizer_maximality (rid name id remaining : JStr) (idx : Nat)
    (hr : ∀ u ∈ rid, u ≤ 127) (hn : ∀ u ∈ name, u ≤ 127)
    (hi : ∀ u ∈ id, u ≤ 127) (hrem : ∀ u ∈ remaining, u ≤ 127)
    (cs : List JStr)
    (hok : buildChunks rid name id remaining idx = .ok cs)
    (k : Nat) (hk : k < cs.length) :
    getCommandPayloadSize rid
        (dataCommandStem name id (idx + k) ++ cs.get ⟨k, hk⟩) ≤
      WSS_MAXIMUM_BYTES ∧
    ((cs.get ⟨k, hk⟩).length < ((cs.drop k).flatten).length →
      WSS_MAXIMUM_BYTES < getCommandPayloadSize rid
        (dataCommandStem name id (idx + k) ++
          ((cs.drop k).flatten).take ((cs.get ⟨k, hk⟩).length + 1))) :=
  (buildChunksAux_spec rid name id hr hn hi remaining.length remaining idx cs
    le_rfl hrem hok).2.2 k hk

def c4rem : JStr := List.replicate 700 97

def c4cs : List JStr :=
  match buildChunks (lit "r") (lit "n") (lit "t") c4rem 0 with
  | .ok cs => cs
  | .error _ => []

set_option maxRecDepth 100000 in
theorem c4_packetizer_maximality_witness :
    getCommandPayloadSize (lit "r")
        (dataCommandStem (lit "n") (lit "t") (0 + 0) ++
          c4cs.get ⟨0, by decide⟩) ≤ WSS_MAXIMUM_BYTES ∧
    ((c4cs.get ⟨0, by decide⟩).length < ((c4cs.drop 0).flatten).length →
      WSS_MAXIMUM_BYTES < getCommandPayloadSize (lit "r")
        (dataCommandStem (lit "n") (lit "t") (0 + 0) ++
          ((c4cs.drop 0).flatten).take
            ((c4cs.get ⟨0, by decide⟩).length + 1))) :=
  c4_packetizer_maximality (lit "r") (lit "n") (lit "t") c4rem 0
    (by decide) (by decide) (by decide) (by decide) c4cs rfl 0 (by decide)

theorem lookup_mem {α β : Type} [BEq α] [LawfulBEq α] [DecidableEq α]
    {k : α} {v : β} :
    ∀ {l : List (α × β)}, List.lookup k l = some v → (k, v) ∈ l := by
  intro l
  induction l with
  | nil => intro h; simp [List.lookup] at h
  | cons hd t ih =>
      intro h
      obtain ⟨k2, v2⟩ := hd
      rw [lookup_cons] at h
      by_cases hk : k = k2
      · rw [if_pos hk] at h
        obtain rfl := Option.some.inj h
        simp [hk]
      · rw [if_neg hk] at h
        exact List.mem_cons_of_mem _ (ih h)

theorem mem_alistSet {α β : Type} [DecidableEq α] (k : α) (v : β)
    (q : α × β) : ∀ (l : List (α × β)),
    q ∈ alistSet k v l → q = (k, v) ∨ q ∈ l := by
  intro l
  induction l with
  | nil => intro h; simp [alistSet] at h; simp [h]
  | cons hd t ih =>
      obtain ⟨k2, v2⟩ := hd
      intro h
      rw [alistSet_cons] at h
      by_cases hk : k = k2
      · rw [if_pos hk] at h
        rcases List.mem_cons.mp h with h | h
        · exact Or.inl h
        · exact Or.inr (List.mem_cons_of_mem _ h)
      · rw [if_neg hk] at h
        rcases List.mem_cons.mp h with h | h
        · exact Or.inr (by simp [h])
        · rcases ih h with h | h
          · exact Or.inl h
          · exact Or.inr (List.mem_cons_of_mem _ h)

theorem alistSet_keys_subset {α β : Type} [DecidableEq α] (k : α) (v : β)
    (x : α) : ∀ (l : List (α × β)),
    x ∈ (alistSet k v l).map Prod.fst → x = k ∨ x ∈ l.map Prod.fst := by
  intro l hx
  obtain ⟨q, hq, rfl⟩ := List.mem_map.mp hx
  rcases mem_alistSet k v q l hq with h | h
  · exact Or.inl (by rw [h])
  · exact Or.inr (List.mem_map.mpr ⟨q, h, rfl⟩)

theorem alistSet_keys_nodup {α β : Type} [DecidableEq α] (k : α) (v : β) :
    ∀ (l : List (α × β)), (l.map Prod.fst).Nodup →
    ((alistSet k v l).map Prod.fst).Nodup := by
  intro l
  induction l with
  | nil => intro _; simp [alistSet]
  | cons hd t ih =>
      obtain ⟨k2, v2⟩ := hd
      intro hnd
      rw [List.map_cons, List.nodup_cons] at hnd
      rw [alistSet_cons]
      by_cases hk : k = k2
      · rw [if_pos hk]
        rw [List.map_cons, List.nodup_cons]
        exact ⟨by rw [hk]; exact hnd.1, hnd.2⟩
      · rw [if_neg hk]
        rw [List.map_cons, List.nodup_cons]
        refine ⟨?_, ih hnd.2⟩
        intro hmem
        rcases alistSet_keys_subset k v k2 t hmem with h | h
        · exact hk h.symm
        · exact hnd.1 h

theorem mem_alistDelete {α β : Type} [DecidableEq α] (k : α)
    (q : α × β) : ∀ (l : List (α × β)), q ∈ alistDelete k l → q ∈ l := by
  intro l
  induction l with
  | nil => intro h; simp [alistDelete] at h
  | cons hd t ih =>
      obtain ⟨k2, v2⟩ := hd
      intro h
      rw [show alistDelete k ((k2, v2) :: t) =
          if k = k2 then t else (k2, v2) :: alistDelete k t from rfl] at h
      by_cases hk : k = k2
      · rw [if_pos hk] at h
        exact List.mem_cons_of_mem _ h
      · rw [if_neg hk] at h
        rcases List.mem_cons.mp h with h | h
        · simp [h]
        · exact List.mem_cons_of_mem _ (ih h)

theorem intKeys_length_le (l : List Int) (N : Int) (hN : 0 ≤ N)
    (hnd : l.Nodup) (hb : ∀ x ∈ l, 0 ≤ x ∧ x < N) :
    (l.length : Int) ≤ N := by
  have hm : (l.map Int.toNat).Nodup := by
    refine List.Nodup.map_on ?_ hnd
    intro x hx y hy hxy
    have h1 := hb x hx
    have h2 := hb y hy
    omega
  have hsub : (l.map Int.toNat).toFinset ⊆ Finset.range N.toNat := by
    intro y hy
    rw [List.mem_toFinset] at hy
    obtain ⟨x, hx, rfl⟩ := List.mem_map.mp hy
    have := hb x hx
    rw [Finset.mem_range]
    omega
  have hcard := Finset.card_le_card hsub
  rw [List.toFinset_card_of_nodup hm, Finset.card_range,
    List.length_map] at hcard
  omega

/-- The intended invariant: every tracked transfer has a nonnegative declared
total, duplicate-free chunk indices, and every stored index within
`[0, totalChunks)`. -/
def chunksBounded (st : RState) : Bool :=
  st.incomingTransfers.all (fun p =>
    decide (0 ≤ p.2.totalChunks) &&
    decide ((p.2.receivedChunks.map Prod.fst).Nodup) &&
    p.2.receivedChunks.all (fun q =>
      decide (0 ≤ q.1 ∧ q.1 < p.2.totalChunks)))

/-- An event is in-protocol for the current state: a `START` announces a
nonnegative total and a `DATA` fragment aimed at a tracked transfer carries an
index within `[0, totalChunks)` of that transfer.  (The fragment handler
itself enforces neither.) -/
def goodREvent (st : RState) : REvent → Bool
  | .script _ msg =>
      let parts := splitOnColon msg
      if parts.headD [] = lit "START" then
        match jsParseInt (parts.getD 1 []) with
        | none => true
        | some total => decide (0 ≤ total)
      else if parts.headD [] = lit "DATA" then
        match jsParseInt (parts.getD 1 []) with
        | none => true
        | some i =>
            match List.lookup (parts.getD 2 []) st.incomingTransfers with
            | none => true
            | some tr => decide (0 ≤ i ∧ i < tr.totalChunks)
      else true
  | .timeout _ => true

/-- An event trace that is in-protocol at every intermediate state. -/
def goodTrace (st : RState) : List REvent → Bool
  | [] => true
  | e :: es => goodREvent st e && goodTrace (rStep st e).1 es

theorem chunksBounded_iff (st : RState) :
    chunksBounded st = true ↔
      ∀ p ∈ st.incomingTransfers,
        0 ≤ p.2.totalChunks ∧
        (p.2.receivedChunks.map Prod.fst).Nodup ∧
        ∀ q ∈ p.2.receivedChunks, 0 ≤ q.1 ∧ q.1 < p.2.totalChunks := by
  simp [chunksBounded, List.all_eq_true, and_assoc]

theorem processCompleteTransfer_fst (st : RState) (tid : JStr)
    (tr : RTransfer) :
    (processCompleteTransfer st tid tr).1 =
      { st with incomingTransfers :=
          alistDelete tid st.incomingTransfers } := by
  unfold processCompleteTransfer
  cases hr : reassembleGo tr.receivedChunks 0 tr.totalChunks.toNat <;>
    simp [hr]

theorem chunksBounded_step (st : RState) (e : REvent)
    (hinv : chunksBounded st = true) (hgood : goodREvent st e = true) :
    chunksBounded (rStep st e).1 = true := by
  rw [chunksBounded_iff] at hinv
  cases e with
  | timeout tid =>
      show chunksBounded (handleTransferTimeout st tid).1 = true
      unfold handleTransferTimeout
      by_cases h : (List.lookup tid st.incomingTransfers).isSome
      · rw [if_pos h]
        rw [chunksBounded_iff]
        intro p hp
        exact hinv p (mem_alistDelete tid p _ hp)
      · rw [if_neg h]
        rw [chunksBounded_iff]
        exact hinv
  | script evId msg =>
      show chunksBounded (handleScriptEvent st evId msg).1 = true
      simp only [goodREvent] at hgood
      simp only [handleScriptEvent]
      by_cases hA : (splitOnColon msg).headD [] = lit "START"
      · rw [if_pos hA] at hgood ⊢
        cases hj : jsParseInt ((splitOnColon msg).getD 1 []) with
        | none =>
            rw [chunksBounded_iff]
            exact hinv
        | some total =>
            rw [hj] at hgood
            dsimp only at hgood ⊢
            rw [decide_eq_true_eq] at hgood
            by_cases htid : (splitOnColon msg).getD 2 [] = []
            · rw [if_pos htid]
              rw [chunksBounded_iff]
              exact hinv
            · rw [if_neg htid]
              rw [chunksBounded_iff]
              intro p hp
              rcases mem_alistSet _ _ p _ hp with h | h
              · subst h
                refine ⟨hgood, by simp, by simp⟩
              · exact hinv p h
      · rw [if_neg hA] at hgood ⊢
        by_cases hB : (splitOnColon msg).headD [] = lit "DATA"
        · rw [if_pos hB] at hgood ⊢
          cases hj : jsParseInt ((splitOnColon msg).getD 1 []) with
          | none =>
              rw [chunksBounded_iff]
              exact hinv
          | some i =>
              rw [hj] at hgood
              dsimp only at hgood ⊢
              by_cases htid : (splitOnColon msg).getD 2 [] = []
              · rw [if_pos htid]
                rw [chunksBounded_iff]
                exact hinv
              · rw [if_neg htid]
                cases hl : List.lookup ((splitOnColon msg).getD 2 [])
                    st.incomingTransfers with
                | none =>
                    rw [chunksBounded_iff]
                    exact hinv
                | some tr =>
                    rw [hl] at hgood
                    dsimp only at hgood ⊢
                    rw [decide_eq_true_eq] at hgood
                    have htr := hinv _ (lookup_mem hl)
                    rw [chunksBounded_iff]
                    intro p hp
                    rcases mem_alistSet _ _ p _ hp with h | h
                    · subst h
                      refine ⟨htr.1, alistSet_keys_nodup _ _ _ htr.2.1, ?_⟩
                      intro q hq
                      rcases mem_alistSet _ _ q _ hq with h | h
                      · subst h
                        exact hgood
                      · exact htr.2.2 q h
                    · exact hinv p h
        · rw [if_neg hB]
          by_cases hC : (splitOnColon msg).headD [] = lit "END"
          · rw [if_pos hC]
            cases hl : List.lookup ((splitOnColon msg).getD 1 [])
                st.incomingTransfers with
            | none =>
                rw [chunksBounded_iff]
                exact hinv
            | some tr =>
                dsimp only
                by_cases hcomp : (tr.receivedChunks.length : Int) =
                    tr.totalChunks
                · rw [if_pos hcomp, processCompleteTransfer_fst]
                  rw [chunksBounded_iff]
                  intro p hp
                  exact hinv p (mem_alistDelete _ p _ hp)
                · rw [if_neg hcomp]
                  rw [chunksBounded_iff]
                  intro p hp
                  exact hinv p (mem_alistDelete _ p _ hp)
          · rw [if_neg hC]
            rw [chunksBounded_iff]
            exact hinv

theorem chunksBounded_run (st : RState) (es : List REvent)
    (hinv : chunksBounded st = true) (hgood : goodTrace st es = true) :
    chunksBounded (runReceiver st es).1 = true := by
  induction es generalizing st with
  | nil => exact hinv
  | cons e es ih =>
      rw [show goodTrace st (e :: es) =
          (goodREvent st e && goodTrace (rStep st e).1 es) from rfl,
        Bool.and_eq_true] at hgood
      rw [runReceiver_cons]
      exact ih (rStep st e).1 (chunksBounded_step st e hinv hgood.1) hgood.2

/-- C2 (amended): the fragment handler itself never checks the index, so the
claimed invariant `receivedChunks.size ≤ totalChunks` holds only for
in-protocol traces: starting from a state satisfying `chunksBounded`, if every
handled `DATA` message carries an index within `[0, totalChunks)` of its
transfer (and every `START` a nonnegative total), then every tracked transfer
keeps `receivedChunks.length ≤ totalChunks`. -/
theorem c2_received_le_total (st : RState) (es : List REvent)
    (hinv : chunksBounded st = true) (hgood : goodTrace st es = true)
    (p : JStr × RTransfer)
    (hp : p ∈ (runReceiver st es).1.incomingTransfers) :
    (p.2.receivedChunks.length : Int) ≤ p.2.totalChunks := by
  have h := (chunksBounded_iff _).mp (chunksBounded_run st es hinv hgood) p hp
  have hle := intKeys_length_le (p.2.receivedChunks.map Prod.fst)
    p.2.totalChunks h.1 h.2.1 (fun x hx => by
      obtain ⟨q, hq, rfl⟩ := List.mem_map.mp hx
      exact h.2.2 q hq)
  simpa using hle

def c2st : RState := RState.mk [] [] 0

def c2events : List REvent :=
  [REvent.script (lit "yb:n") (lit "START:1:t"),
   REvent.script (lit "yb:n") (lit "DATA:0:t:a"),
   REvent.script (lit "yb:n") (lit "DATA:1:t:b")]

/-- C2 counterexample: the handler stores a fragment at any index without
bounds checking, so after `START:1:t` the two fragments `DATA:0` and `DATA:1`
are both stored and the tracked transfer holds 2 chunks while its declared
`totalChunks` is 1 — `receivedChunks.size ≤ totalChunks` is violated. -/
theorem c2_chunk_count_counterexample :
    List.lookup (lit "t") (runReceiver c2st c2events).1.incomingTransfers =
      some (RTransfer.mk (lit "n") 1 [(0, lit "a"), (1, lit "b")] 0) ∧
    ¬ ((((RTransfer.mk (lit "n") 1 [(0, lit "a"), (1, lit "b")] 0)
          : RTransfer).receivedChunks.length : Int) ≤
        (RTransfer.mk (lit "n") 1 [(0, lit "a"), (1, lit "b")]
          0).totalChunks) :=
  ⟨rfl, by decide⟩

def c2wevents : List REvent :=
  [REvent.script (lit "yb:n") (lit "START:2:t"),
   REvent.script (lit "yb:n") (lit "DATA:0:t:a")]

theorem c2_received_le_total_witness :
    ((((lit "t", RTransfer.mk (lit "n") 2 [(0, lit "a")] 0) :
        JStr × RTransfer)).2.receivedChunks.length : Int) ≤
      ((lit "t", RTransfer.mk (lit "n") 2 [(0, lit "a")] 0) :
        JStr × RTransfer).2.totalChunks :=
  c2_received_le_total c2st c2wevents (by decide) (by decide)
    (lit "t", RTransfer.mk (lit "n") 2 [(0, lit "a")] 0) (by decide)

/-- C5 (amended): an `END` for a transfer whose stored chunk count differs
from `totalChunks` — such as indices `\x7b0,1,3\x7d` of 4 — takes the
incomplete-discard branch: the transfer is deleted with an
incomplete-transfer warning, reassembly never runs (so no missing-fragment
error is raised) and no listener is invoked. -/
theorem c5_incomplete_end_discards (st : RState) (evId id : JStr)
    (hcol : ¬ 58 ∈ id) (tr : RTransfer)
    (hlook : List.lookup id st.incomingTransfers = some tr)
    (hne : (tr.receivedChunks.length : Int) ≠ tr.totalChunks) :
    handleScriptEvent st evId (endMsg id) =
      (RState.mk (alistDelete id st.incomingTransfers) st.listeners
        st.currentTick,
       [.incompleteTransfer id tr.totalChunks tr.receivedChunks.length],
       []) := by
  rw [handleScriptEvent_end st evId id hcol tr hlook, if_neg hne]

def c5tr : RTransfer :=
  RTransfer.mk (lit "n") 4 [(0, lit "a"), (1, lit "b"), (3, lit "d")] 0

def c5st : RState := RState.mk [(lit "t", c5tr)] [lit "n"] 0

theorem c5_incomplete_end_discards_witness :
    handleScriptEvent c5st (lit "yb:n") (endMsg (lit "t")) =
      (RState.mk (alistDelete (lit "t") c5st.incomingTransfers)
        c5st.listeners c5st.currentTick,
       [.incompleteTransfer (lit "t") c5tr.totalChunks
          c5tr.receivedChunks.length],
       []) :=
  c5_incomplete_end_discards c5st (lit "yb:n") (lit "t") (by decide) c5tr
    rfl (by decide)

def c5events : List REvent :=
  [REvent.script (lit "yb:n") (lit "START:4:t"),
   REvent.script (lit "yb:n") (lit "DATA:0:t:a"),
   REvent.script (lit "yb:n") (lit "DATA:1:t:b"),
   REvent.script (lit "yb:n") (lit "DATA:3:t:d"),
   REvent.script (lit "yb:n") (lit "END:t")]

/-- C5 counterexample: running the receiver on a transfer with chunks
`\x7b0,1,3\x7d` of 4 and then `END` produces exactly the incomplete-transfer
warning — not the missing-chunk (MissingFragment) error the claim names —
and no listener invocation, even though a listener for the name is
registered. -/
theorem c5_gap_counterexample :
    (runReceiver (RState.mk [] [lit "n"] 0) c5events).2.1 =
        [RLog.incompleteTransfer (lit "t") 4 3] ∧
    (runReceiver (RState.mk [] [lit "n"] 0) c5events).2.2 = [] :=
  ⟨rfl, rfl⟩

/-- One pending command batch of `runCommands` (`commandCount`, the collected
`results`; `resolve`/`reject`/`timeout` handles are modelled by the event
machine). -/
structure Batch where
  commandCount : Nat
  results : List JStr
  deriving Repr, DecidableEq

/-- Server-side command-channel state: the connection flag, the
`#commandBatches` and `#requestIdToBatchId` maps, the pending batch timers
(with the request ids each timeout callback will purge), and a ghost record
of every batch id ever used (so freshness of generated ids is expressible). -/
structure BState where
  connOpen : Bool
  commandBatches : List (JStr × Batch)
  requestIdToBatchId : List (JStr × JStr)
  timers : List (JStr × List JStr)
  usedBatchIds : List JStr
  deriving Repr, DecidableEq

/-- Observable effects of the command channel: a promise resolution, a
timeout rejection, the rejection for a closed connection, a payload handed to
`sendText`, the oversize notice of `#internalRunCommand`, and its
closed-connection skip. -/
inductive BOut where
  | resolved (batchId : JStr) (results : List JStr)
  | rejectedTimeout (batchId : JStr)
  | rejectedClosed
  | sent (payload : JStr)
  | oversize (command : JStr)
  | skippedClosed (command : JStr)
  deriving Repr, DecidableEq

/-- The rejection reason of `runCommands` when no connection is open. -/
def bClosedErr : JStr := lit "連線尚未建立或已關閉，無法執行指令"

/-- The rejection reason of a batch timeout (default `requestTimeoutMs`
60000). -/
def bTimeoutErr : JStr := lit "指令批次執行超時 (60000ms)"

/-- `#internalRunCommand`: skip when the connection is closed; when the
serialized envelope exceeds `WSS_MAXIMUM_BYTES`, notify in-game and log
without transmitting; otherwise hand the envelope to `sendText`. -/
def internalRunCommand (st : BState) (command reqId : JStr) : List BOut :=
  if st.connOpen = false then [.skippedClosed command]
  else if WSS_MAXIMUM_BYTES < getCommandPayloadSize reqId command then
    [.oversize command]
  else [.sent (envelopePayload reqId command)]

/-- Command-channel events: `runCommands` invoked with a generated batch id
and request ids, a `commandResponse` arriving (`#onText`), and a batch
timeout firing. -/
inductive BEvent where
  | startBatch (batchId : JStr) (reqIds : List JStr) (commands : List JStr)
  | response (requestId statusMessage : JStr)
  | timeoutFire (batchId : JStr)

/-- One command-channel step, mirroring `runCommands`, the `commandResponse`
branch of `#onText`, and the batch-timeout callback.  The `forEach` of
`runCommands` interleaves map updates and sends; since `#internalRunCommand`
never reads `#requestIdToBatchId`, the fold over the map and the concatenated
send effects reproduce it exactly. -/
def bStep (st : BState) : BEvent → BState × List BOut
  | .startBatch bid rids cmds =>
      if st.connOpen = false then (st, [.rejectedClosed])
      else
        (BState.mk st.connOpen
            (alistSet bid (Batch.mk cmds.length []) st.commandBatches)
            ((cmds.zip rids).foldl (fun m p => alistSet p.2 bid m)
              st.requestIdToBatchId)
            (alistSet bid rids st.timers)
            (bid :: st.usedBatchIds),
          ((cmds.zip rids).map
            (fun p => internalRunCommand st p.1 p.2)).flatten)
  | .response rid status =>
      match List.lookup rid st.requestIdToBatchId with
      | none => (st, [])
      | some bid =>
          match List.lookup bid st.commandBatches with
          | none => (st, [])
          | some b =>
              let b2 := Batch.mk b.commandCount (b.results ++ [status])
              if b2.results.length = b2.commandCount then
                (BState.mk st.connOpen
                    (alistDelete bid st.commandBatches)
                    (alistDelete rid st.requestIdToBatchId)
                    (alistDelete bid st.timers)
                    st.usedBatchIds,
                  [.resolved bid b2.results])
              else
                (BState.mk st.connOpen
                    (alistSet bid b2 st.commandBatches)
                    (alistDelete rid st.requestIdToBatchId)
                    st.timers
                    st.usedBatchIds, [])
  | .timeoutFire bid =>
      match List.lookup bid st.timers with
      | none => (st, [])
      | some rids =>
          (BState.mk st.connOpen
              (alistDelete bid st.commandBatches)
              (rids.foldl (fun m r => alistDelete r m) st.requestIdToBatchId)
              (alistDelete bid st.timers)
              st.usedBatchIds,
            [.rejectedTimeout bid])

/-- Run the command channel over an event sequence. -/
def runB (st : BState) : List BEvent → BState × List BOut
  | [] => (st, [])
  | e :: es =>
      let (st1, o1) := bStep st e
      let (st2, o2) := runB st1 es
      (st2, o1 ++ o2)

/-- Does an output settle (resolve or timeout-reject) batch `bid`? -/
def settlesB (bid : JStr) : BOut → Bool
  | .resolved b _ => b == bid
  | .rejectedTimeout b => b == bid
  | _ => false

/-- The number of settlements of batch `bid` in an output list. -/
def settleCount (bid : JStr) (outs : List BOut) : Nat :=
  (outs.filter (settlesB bid)).length

/-- Batch `bid` is currently tracked. -/
def liveB (st : BState) (bid : JStr) : Bool :=
  (List.lookup bid st.commandBatches).isSome

/-- Well-formedness of the channel state: duplicate-free map keys, a tracked
batch and its timer exist together, every tracked id was used, and every
pending request-id mapping is listed in its batch's timer purge list. -/
def bWF (st : BState) : Bool :=
  decide ((st.commandBatches.map Prod.fst).Nodup) &&
  decide ((st.requestIdToBatchId.map Prod.fst).Nodup) &&
  decide ((st.timers.map Prod.fst).Nodup) &&
  st.commandBatches.all (fun p =>
    (List.lookup p.1 st.timers).isSome && decide (p.1 ∈ st.usedBatchIds)) &&
  st.timers.all (fun p =>
    (List.lookup p.1 st.commandBatches).isSome &&
    decide (p.1 ∈ st.usedBatchIds)) &&
  st.requestIdToBatchId.all (fun q =>
    decide (q.2 ∈ st.usedBatchIds) &&
    (match List.lookup q.2 st.timers with
     | none => true
     | some rids => decide (q.1 ∈ rids)))

/-- A `startBatch` is well-generated when its batch id is fresh (the source
draws it from `#generateId`) and one request id was generated per command. -/
def goodBEvent (st : BState) : BEvent → Bool
  | .startBatch bid rids cmds =>
      decide (¬ bid ∈ st.usedBatchIds) && rids.length == cmds.length
  | .response _ _ => true
  | .timeoutFire _ => true

/-- A trace whose `startBatch` events always use fresh generated ids. -/
def goodBTrace (st : BState) : List BEvent → Bool
  | [] => true
  | e :: es => goodBEvent st e && goodBTrace (bStep st e).1 es

theorem alistDelete_cons {α β : Type} [DecidableEq α] (k k2 : α) (v : β)
    (t : List (α × β)) :
    alistDelete k ((k2, v) :: t) =
      if k = k2 then t else (k2, v) :: alistDelete k t := rfl

theorem alistDelete_keys_sublist {α β : Type} [DecidableEq α] (k : α) :
    ∀ (l : List (α × β)),
    ((alistDelete k l).map Prod.fst).Sublist (l.map Prod.fst) := by
  intro l
  induction l with
  | nil => simp [alistDelete]
  | cons hd t ih =>
      obtain ⟨k2, v⟩ := hd
      rw [alistDelete_cons]
      by_cases hk : k = k2
      · rw [if_pos hk]
        exact List.sublist_cons_self _ _
      · rw [if_neg hk]
        simpa using ih.cons₂ k2

theorem alistDelete_keys_nodup {α β : Type} [DecidableEq α] (k : α)
    (l : List (α × β)) (h : (l.map Prod.fst).Nodup) :
    ((alistDelete k l).map Prod.fst).Nodup :=
  h.sublist (alistDelete_keys_sublist k l)

theorem mem_alistDelete_ne {α β : Type} [DecidableEq α] (k : α)
    (q : α × β) : ∀ (l : List (α × β)), (l.map Prod.fst).Nodup →
    q ∈ alistDelete k l → q.1 ≠ k ∧ q ∈ l := by
  intro l
  induction l with
  | nil => intro _ h; simp [alistDelete] at h
  | cons hd t ih =>
      obtain ⟨k2, v⟩ := hd
      intro hnd h
      rw [List.map_cons, List.nodup_cons] at hnd
      rw [alistDelete_cons] at h
      by_cases hk : k = k2
      · rw [if_pos hk] at h
        subst hk
        refine ⟨?_, List.mem_cons_of_mem _ h⟩
        intro hq
        refine hnd.1 ?_
        rw [← hq]
        exact List.mem_map.mpr ⟨q, h, rfl⟩
      · rw [if_neg hk] at h
        rcases List.mem_cons.mp h with h | h
        · subst h
          exact ⟨fun hq => hk hq.symm, by simp⟩
        · obtain ⟨h1, h2⟩ := ih hnd.2 h
          exact ⟨h1, List.mem_cons_of_mem _ h2⟩

theorem lookup_alistDelete_ne {α β : Type} [BEq α] [LawfulBEq α]
    [DecidableEq α] (k k2 : α) (hne : k2 ≠ k) :
    ∀ (l : List (α × β)),
    List.lookup k2 (alistDelete k l) = List.lookup k2 l := by
  intro l
  induction l with
  | nil => rfl
  | cons hd t ih =>
      obtain ⟨k3, v⟩ := hd
      rw [alistDelete_cons]
      by_cases hk : k = k3
      · rw [if_pos hk]
        rw [lookup_cons]
        rw [if_neg (by rw [← hk]; exact hne)]
      · rw [if_neg hk]
        rw [lookup_cons, lookup_cons]
        by_cases h2 : k2 = k3
        · rw [if_pos h2, if_pos h2]
        · rw [if_neg h2, if_neg h2, ih]

theorem lookup_alistDelete_self {α β : Type} [BEq α] [LawfulBEq α]
    [DecidableEq α] (k : α) :
    ∀ (l : List (α × β)), (l.map Prod.fst).Nodup →
    List.lookup k (alistDelete k l) = none := by
  intro l
  induction l with
  | nil => intro _; rfl
  | cons hd t ih =>
      obtain ⟨k2, v⟩ := hd
      intro hnd
      rw [List.map_cons, List.nodup_cons] at hnd
      rw [alistDelete_cons]
      by_cases hk : k = k2
      · rw [if_pos hk]
        subst hk
        cases hl : List.lookup k t with
        | none => rfl
        | some v2 =>
            exact absurd (List.mem_map.mpr ⟨(k, v2), lookup_mem hl, rfl⟩)
              hnd.1
      · rw [if_neg hk]
        rw [lookup_cons, if_neg hk]
        exact ih hnd.2

theorem lookup_foldDel {α β : Type} [BEq α] [LawfulBEq α] [DecidableEq α]
    (rids : List α) :
    ∀ (m : List (α × β)), (m.map Prod.fst).Nodup → ∀ (r : α),
    List.lookup r (rids.foldl (fun m x => alistDelete x m) m) =
      if r ∈ rids then none else List.lookup r m := by
  induction rids with
  | nil => intro m _ r; simp
  | cons r0 rids ih =>
      intro m hnd r
      rw [List.foldl_cons]
      rw [ih (alistDelete r0 m) (alistDelete_keys_nodup r0 m hnd) r]
      by_cases hr : r ∈ r0 :: rids
      · rw [if_pos hr]
        rcases List.mem_cons.mp hr with h | h
        · subst h
          by_cases h2 : r ∈ rids
          · rw [if_pos h2]
          · rw [if_neg h2]
            exact lookup_alistDelete_self r m hnd
        · rw [if_pos h]
      · rw [if_neg (show ¬ r ∈ rids from
            fun h => hr (List.mem_cons_of_mem _ h)), if_neg hr]
        exact lookup_alistDelete_ne r0 r
          (fun h => hr (by simp [h])) m

theorem mem_foldDel {α β : Type} [DecidableEq α] (rids : List α)
    (q : α × β) : ∀ (m : List (α × β)),
    q ∈ rids.foldl (fun m x => alistDelete x m) m → q ∈ m := by
  induction rids with
  | nil => intro m h; simpa using h
  | cons r0 rids ih =>
      intro m h
      rw [List.foldl_cons] at h
      exact mem_alistDelete r0 q m (ih _ h)

theorem foldDel_keys_nodup {α β : Type} [DecidableEq α] (rids : List α) :
    ∀ (m : List (α × β)), (m.map Prod.fst).Nodup →
    (((rids.foldl (fun m x => alistDelete x m) m).map Prod.fst)).Nodup := by
  induction rids with
  | nil => intro m h; simpa using h
  | cons r0 rids ih =>
      intro m h
      rw [List.foldl_cons]
      exact ih _ (alistDelete_keys_nodup r0 m h)

theorem mem_foldSetRid {α β : Type} [DecidableEq α] (bid : β)
    (pairs : List (α × α)) (q : α × β) :
    ∀ (m : List (α × β)),
    q ∈ pairs.foldl (fun m p => alistSet p.2 bid m) m →
    (q.2 = bid ∧ q.1 ∈ pairs.map Prod.snd) ∨ q ∈ m := by
  induction pairs with
  | nil => intro m h; simpa using h
  | cons p0 pairs ih =>
      intro m h
      rw [List.foldl_cons] at h
      rcases ih _ h with h | h
      · exact Or.inl ⟨h.1, by simp [h.2]⟩
      · rcases mem_alistSet _ _ _ _ h with h | h
        · subst h
          exact Or.inl ⟨rfl, by simp⟩
        · exact Or.inr h

theorem foldSetRid_keys_nodup {α β : Type} [DecidableEq α] (bid : β)
    (pairs : List (α × α)) :
    ∀ (m : List (α × β)), (m.map Prod.fst).Nodup →
    ((pairs.foldl (fun m p => alistSet p.2 bid m) m).map Prod.fst).Nodup := by
  induction pairs with
  | nil => intro m h; simpa using h
  | cons p0 pairs ih =>
      intro m h
      rw [List.foldl_cons]
      exact ih _ (alistSet_keys_nodup _ _ _ h)

theorem bStep_startBatch_closed (st : BState) (bid : JStr)
    (rids cmds : List JStr) (h : st.connOpen = false) :
    bStep st (.startBatch bid rids cmds) = (st, [.rejectedClosed]) := by
  unfold bStep
  dsimp only
  rw [if_pos h]

theorem bStep_startBatch_open (st : BState) (bid : JStr)
    (rids cmds : List JStr) (h : st.connOpen = true) :
    bStep st (.startBatch bid rids cmds) =
      (BState.mk st.connOpen
          (alistSet bid (Batch.mk cmds.length []) st.commandBatches)
          ((cmds.zip rids).foldl (fun m p => alistSet p.2 bid m)
            st.requestIdToBatchId)
          (alistSet bid rids st.timers)
          (bid :: st.usedBatchIds),
        ((cmds.zip rids).map
          (fun p => internalRunCommand st p.1 p.2)).flatten) := by
  unfold bStep
  dsimp only
  rw [if_neg (by simp [h])]

theorem bStep_response_none (st : BState) (rid status : JStr)
    (h : List.lookup rid st.requestIdToBatchId = none) :
    bStep st (.response rid status) = (st, []) := by
  unfold bStep
  dsimp only
  rw [h]

theorem bStep_response_nobatch (st : BState) (rid status bid : JStr)
    (h : List.lookup rid st.requestIdToBatchId = some bid)
    (hb : List.lookup bid st.commandBatches = none) :
    bStep st (.response rid status) = (st, []) := by
  unfold bStep
  dsimp only
  rw [h]
  dsimp only
  rw [hb]

theorem bStep_response_resolve (st : BState) (rid status bid : JStr)
    (b : Batch)
    (h : List.lookup rid st.requestIdToBatchId = some bid)
    (hb : List.lookup bid st.commandBatches = some b)
    (hfull : b.results.length + 1 = b.commandCount) :
    bStep st (.response rid status) =
      (BState.mk st.connOpen
          (alistDelete bid st.commandBatches)
          (alistDelete rid st.requestIdToBatchId)
          (alistDelete bid st.timers)
          st.usedBatchIds,
        [.resolved bid (b.results ++ [status])]) := by
  unfold bStep
  dsimp only
  rw [h]
  dsimp only
  rw [hb]
  dsimp only
  rw [if_pos (by simp; omega)]

theorem bStep_response_incomplete (st : BState) (rid status bid : JStr)
    (b : Batch)
    (h : List.lookup rid st.requestIdToBatchId = some bid)
    (hb : List.lookup bid st.commandBatches = some b)
    (hfull : b.results.length + 1 ≠ b.commandCount) :
    bStep st (.response rid status) =
      (BState.mk st.connOpen
          (alistSet bid (Batch.mk b.commandCount (b.results ++ [status]))
            st.commandBatches)
          (alistDelete rid st.requestIdToBatchId)
          st.timers
          st.usedBatchIds, []) := by
  unfold bStep
  dsimp only
  rw [h]
  dsimp only
  rw [hb]
  dsimp only
  rw [if_neg (by simp; omega)]

theorem bStep_timeout_none (st : BState) (bid : JStr)
    (h : List.lookup bid st.timers = none) :
    bStep st (.timeoutFire bid) = (st, []) := by
  unfold bStep
  dsimp only
  rw [h]

theorem bStep_timeout_fire (st : BState) (bid : JStr) (rids : List JStr)
    (h : List.lookup bid st.timers = some rids) :
    bStep st (.timeoutFire bid) =
      (BState.mk st.connOpen
          (alistDelete bid st.commandBatches)
          (rids.foldl (fun m r => alistDelete r m) st.requestIdToBatchId)
          (alistDelete bid st.timers)
          st.usedBatchIds,
        [.rejectedTimeout bid]) := by
  unfold bStep
  dsimp only
  rw [h]

theorem bWF_iff (st : BState) :
    bWF st = true ↔
      (st.commandBatches.map Prod.fst).Nodup ∧
      (st.requestIdToBatchId.map Prod.fst).Nodup ∧
      (st.timers.map Prod.fst).Nodup ∧
      (∀ p ∈ st.commandBatches,
        (List.lookup p.1 st.timers).isSome = true ∧
        p.1 ∈ st.usedBatchIds) ∧
      (∀ p ∈ st.timers,
        (List.lookup p.1 st.commandBatches).isSome = true ∧
        p.1 ∈ st.usedBatchIds) ∧
      (∀ q ∈ st.requestIdToBatchId,
        q.2 ∈ st.usedBatchIds ∧
        ∀ rids, List.lookup q.2 st.timers = some rids → q.1 ∈ rids) := by
  unfold bWF
  simp only [Bool.and_eq_true, List.all_eq_true, decide_eq_true_eq]
  constructor
  · intro h
    obtain ⟨⟨⟨⟨⟨h1, h2⟩, h3⟩, h4⟩, h5⟩, h6⟩ := h
    refine ⟨h1, h2, h3, h4, h5, fun q hq => ⟨(h6 q hq).1, ?_⟩⟩
    intro rids hrids
    have hm := (h6 q hq).2
    rw [hrids] at hm
    rw [show (match some rids with
        | none => true
        | some rids => decide (q.1 ∈ rids)) = decide (q.1 ∈ rids)
      from rfl] at hm
    exact of_decide_eq_true hm
  · intro h
    obtain ⟨h1, h2, h3, h4, h5, h6⟩ := h
    refine ⟨⟨⟨⟨⟨h1, h2⟩, h3⟩, h4⟩, h5⟩, fun q hq => ⟨(h6 q hq).1, ?_⟩⟩
    cases hrids : List.lookup q.2 st.timers with
    | none => rfl
    | some rids =>
        rw [show (match some rids with
            | none => true
            | some rids => decide (q.1 ∈ rids)) = decide (q.1 ∈ rids)
          from rfl]
        exact decide_eq_true ((h6 q hq).2 rids hrids)

theorem mem_zip_snd (cmds rids : List JStr) (r : JStr)
    (h : r ∈ (cmds.zip rids).map Prod.snd) : r ∈ rids := by
  obtain ⟨⟨c, r2⟩, hp, hr⟩ := List.mem_map.mp h
  obtain rfl : r2 = r := hr
  exact (List.of_mem_zip hp).2

theorem bWF_step (st : BState) (e : BEvent) (hwf : bWF st = true)
    (hgood : goodBEvent st e = true) : bWF (bStep st e).1 = true := by
  rw [bWF_iff] at hwf
  obtain ⟨h1, h2, h3, h4, h5, h6⟩ := hwf
  cases e with
  | startBatch bid rids cmds =>
      have hfresh : ¬ bid ∈ st.usedBatchIds := by
        rw [show goodBEvent st (.startBatch bid rids cmds) =
            (decide (¬ bid ∈ st.usedBatchIds) &&
              (rids.length == cmds.length)) from rfl,
          Bool.and_eq_true] at hgood
        exact of_decide_eq_true hgood.1
      by_cases hconn : st.connOpen = false
      · rw [bStep_startBatch_closed st bid rids cmds hconn]
        rw [bWF_iff]
        exact ⟨h1, h2, h3, h4, h5, h6⟩
      · rw [bStep_startBatch_open st bid rids cmds (by
          cases hb : st.connOpen
          · exact absurd hb hconn
          · rfl)]
        rw [bWF_iff]
        dsimp only
        refine ⟨alistSet_keys_nodup _ _ _ h1,
          foldSetRid_keys_nodup _ _ _ h2,
          alistSet_keys_nodup _ _ _ h3, ?_, ?_, ?_⟩
        · intro p hp
          rcases mem_alistSet _ _ p _ hp with hp | hp
          · subst hp
            exact ⟨by rw [lookup_alistSet_self]; rfl, by simp⟩
          · obtain ⟨ho1, ho2⟩ := h4 p hp
            refine ⟨?_, List.mem_cons_of_mem _ ho2⟩
            by_cases hpb : p.1 = bid
            · rw [hpb, lookup_alistSet_self]; rfl
            · rw [lookup_alistSet_ne _ _ _ _ hpb]
              exact ho1
        · intro p hp
          rcases mem_alistSet _ _ p _ hp with hp | hp
          · subst hp
            exact ⟨by rw [lookup_alistSet_self]; rfl, by simp⟩
          · obtain ⟨ho1, ho2⟩ := h5 p hp
            refine ⟨?_, List.mem_cons_of_mem _ ho2⟩
            by_cases hpb : p.1 = bid
            · rw [hpb, lookup_alistSet_self]; rfl
            · rw [lookup_alistSet_ne _ _ _ _ hpb]
              exact ho1
        · intro q hq
          rcases mem_foldSetRid bid (cmds.zip rids) q _ hq with hq | hq
          · obtain ⟨hq2, hq1⟩ := hq
            refine ⟨by rw [hq2]; simp, ?_⟩
            intro rids2 hrids2
            rw [hq2, lookup_alistSet_self] at hrids2
            obtain rfl := Option.some.inj hrids2
            exact mem_zip_snd cmds _ q.1 hq1
          · obtain ⟨ho1, ho2⟩ := h6 q hq
            refine ⟨List.mem_cons_of_mem _ ho1, ?_⟩
            intro rids2 hrids2
            rw [lookup_alistSet_ne _ _ _ _
              (fun hh => hfresh (by rw [← hh]; exact ho1))] at hrids2
            exact ho2 rids2 hrids2
  | response rid status =>
      cases hm : List.lookup rid st.requestIdToBatchId with
      | none =>
          rw [bStep_response_none st rid status hm, bWF_iff]
          exact ⟨h1, h2, h3, h4, h5, h6⟩
      | some bid =>
          cases hb : List.lookup bid st.commandBatches with
          | none =>
              rw [bStep_response_nobatch st rid status bid hm hb, bWF_iff]
              exact ⟨h1, h2, h3, h4, h5, h6⟩
          | some b =>
              by_cases hfull : b.results.length + 1 = b.commandCount
              · rw [bStep_response_resolve st rid status bid b hm hb hfull,
                  bWF_iff]
                dsimp only
                refine ⟨alistDelete_keys_nodup _ _ h1,
                  alistDelete_keys_nodup _ _ h2,
                  alistDelete_keys_nodup _ _ h3, ?_, ?_, ?_⟩
                · intro p hp
                  obtain ⟨hpne, hpold⟩ := mem_alistDelete_ne bid p _ h1 hp
                  obtain ⟨ho1, ho2⟩ := h4 p hpold
                  rw [lookup_alistDelete_ne bid p.1 hpne]
                  exact ⟨ho1, ho2⟩
                · intro p hp
                  obtain ⟨hpne, hpold⟩ := mem_alistDelete_ne bid p _ h3 hp
                  obtain ⟨ho1, ho2⟩ := h5 p hpold
                  rw [lookup_alistDelete_ne bid p.1 hpne]
                  exact ⟨ho1, ho2⟩
                · intro q hq
                  have hqold := mem_alistDelete rid q _ hq
                  obtain ⟨ho1, ho2⟩ := h6 q hqold
                  refine ⟨ho1, ?_⟩
                  intro rids2 hrids2
                  by_cases hqb : q.2 = bid
                  · rw [hqb, lookup_alistDelete_self bid _ h3] at hrids2
                    exact absurd hrids2 (by simp)
                  · rw [lookup_alistDelete_ne bid q.2 hqb] at hrids2
                    exact ho2 rids2 hrids2
              · rw [bStep_response_incomplete st rid status bid b hm hb hfull,
                  bWF_iff]
                dsimp only
                refine ⟨alistSet_keys_nodup _ _ _ h1,
                  alistDelete_keys_nodup _ _ h2, h3, ?_, ?_, ?_⟩
                · intro p hp
                  rcases mem_alistSet _ _ p _ hp with hp | hp
                  · subst hp
                    exact h4 (bid, b) (lookup_mem hb)
                  · exact h4 p hp
                · intro p hp
                  obtain ⟨ho1, ho2⟩ := h5 p hp
                  refine ⟨?_, ho2⟩
                  by_cases hpb : p.1 = bid
                  · rw [hpb, lookup_alistSet_self]; rfl
                  · rw [lookup_alistSet_ne _ _ _ _ hpb]
                    exact ho1
                · intro q hq
                  exact h6 q (mem_alistDelete rid q _ hq)
  | timeoutFire bid =>
      cases ht : List.lookup bid st.timers with
      | none =>
          rw [bStep_timeout_none st bid ht, bWF_iff]
          exact ⟨h1, h2, h3, h4, h5, h6⟩
      | some rids =>
          rw [bStep_timeout_fire st bid rids ht, bWF_iff]
          dsimp only
          refine ⟨alistDelete_keys_nodup _ _ h1,
            foldDel_keys_nodup _ _ h2,
            alistDelete_keys_nodup _ _ h3, ?_, ?_, ?_⟩
          · intro p hp
            obtain ⟨hpne, hpold⟩ := mem_alistDelete_ne bid p _ h1 hp
            obtain ⟨ho1, ho2⟩ := h4 p hpold
            rw [lookup_alistDelete_ne bid p.1 hpne]
            exact ⟨ho1, ho2⟩
          · intro p hp
            obtain ⟨hpne, hpold⟩ := mem_alistDelete_ne bid p _ h3 hp
            obtain ⟨ho1, ho2⟩ := h5 p hpold
            rw [lookup_alistDelete_ne bid p.1 hpne]
            exact ⟨ho1, ho2⟩
          · intro q hq
            have hqold := mem_foldDel rids q _ hq
            obtain ⟨ho1, ho2⟩ := h6 q hqold
            refine ⟨ho1, ?_⟩
            intro rids2 hrids2
            by_cases hqb : q.2 = bid
            · rw [hqb, lookup_alistDelete_self bid _ h3] at hrids2
              exact absurd hrids2 (by simp)
            · rw [lookup_alistDelete_ne bid q.2 hqb] at hrids2
              exact ho2 rids2 hrids2

theorem internalRunCommand_no_settle (st : BState) (c r : JStr)
    (bid : JStr) (o : BOut) (ho : o ∈ internalRunCommand st c r) :
    settlesB bid o = false := by
  unfold internalRunCommand at ho
  by_cases h1 : st.connOpen = false
  · rw [if_pos h1] at ho
    obtain rfl := List.mem_singleton.mp ho
    rfl
  · rw [if_neg h1] at ho
    by_cases h2 : WSS_MAXIMUM_BYTES < getCommandPayloadSize r c
    · rw [if_pos h2] at ho
      obtain rfl := List.mem_singleton.mp ho
      rfl
    · rw [if_neg h2] at ho
      obtain rfl := List.mem_singleton.mp ho
      rfl

theorem settleCount_append (bid : JStr) (o1 o2 : List BOut) :
    settleCount bid (o1 ++ o2) =
      settleCount bid o1 + settleCount bid o2 := by
  simp [settleCount, List.filter_append]

theorem settleCount_eq_zero (bid : JStr) :
    ∀ outs : List BOut, (∀ o ∈ outs, settlesB bid o = false) →
    settleCount bid outs = 0 := by
  intro outs
  induction outs with
  | nil => intro _; rfl
  | cons o os ih =>
      intro h
      show ((o :: os).filter (settlesB bid)).length = 0
      rw [List.filter_cons, h o (by simp)]
      rw [if_neg (by simp)]
      exact ih (fun o2 ho2 => h o2 (List.mem_cons_of_mem _ ho2))

theorem settleCount_resolved_eq (bid : JStr) (rs : List JStr) :
    settleCount bid [BOut.resolved bid rs] = 1 := by
  simp [settleCount, settlesB]

theorem settleCount_resolved_ne (bid bid2 : JStr) (rs : List JStr)
    (h : bid2 ≠ bid) : settleCount bid [BOut.resolved bid2 rs] = 0 := by
  simp [settleCount, settlesB, h]

theorem settleCount_timeout_eq (bid : JStr) :
    settleCount bid [BOut.rejectedTimeout bid] = 1 := by
  simp [settleCount, settlesB]

theorem settleCount_timeout_ne (bid bid2 : JStr) (h : bid2 ≠ bid) :
    settleCount bid [BOut.rejectedTimeout bid2] = 0 := by
  simp [settleCount, settlesB, h]

theorem liveB_some (st : BState) (bid : JStr) (h : liveB st bid = true) :
    ∃ b, List.lookup bid st.commandBatches = some b := by
  unfold liveB at h
  cases hl : List.lookup bid st.commandBatches with
  | none => rw [hl] at h; simp at h
  | some b => exact ⟨b, rfl⟩

theorem bStep_settle (st : BState) (e : BEvent) (hwf : bWF st = true)
    (hgood : goodBEvent st e = true) (bid : JStr) :
    (bid ∈ st.usedBatchIds → bid ∈ (bStep st e).1.usedBatchIds) ∧
    (liveB st bid = true →
      (settleCount bid (bStep st e).2 = 0 ∧
        liveB (bStep st e).1 bid = true) ∨
      (settleCount bid (bStep st e).2 = 1 ∧
        liveB (bStep st e).1 bid = false ∧
        bid ∈ (bStep st e).1.usedBatchIds)) ∧
    (liveB st bid = false → bid ∈ st.usedBatchIds →
      settleCount bid (bStep st e).2 = 0 ∧
      liveB (bStep st e).1 bid = false) ∧
    (liveB st bid = false → ¬ bid ∈ st.usedBatchIds →
      settleCount bid (bStep st e).2 = 0 ∧
      (liveB (bStep st e).1 bid = true ∨
        ¬ bid ∈ (bStep st e).1.usedBatchIds)) := by
  rw [bWF_iff] at hwf
  obtain ⟨h1, h2, h3, h4, h5, h6⟩ := hwf
  cases e with
  | startBatch bid2 rids cmds =>
      have hfresh : ¬ bid2 ∈ st.usedBatchIds := by
        rw [show goodBEvent st (.startBatch bid2 rids cmds) =
            (decide (¬ bid2 ∈ st.usedBatchIds) &&
              (rids.length == cmds.length)) from rfl,
          Bool.and_eq_true] at hgood
        exact of_decide_eq_true hgood.1
      by_cases hconn : st.connOpen = false
      · rw [bStep_startBatch_closed st bid2 rids cmds hconn]
        exact ⟨fun h => h,
          fun h => Or.inl ⟨rfl, h⟩,
          fun h hu => ⟨rfl, h⟩,
          fun h hu => ⟨rfl, Or.inr hu⟩⟩
      · rw [bStep_startBatch_open st bid2 rids cmds (by
          cases hb : st.connOpen
          · exact absurd hb hconn
          · rfl)]
        dsimp only
        have hzero : settleCount bid
            ((List.map (fun p => internalRunCommand st p.1 p.2)
              (cmds.zip rids)).flatten) = 0 := by
          refine settleCount_eq_zero bid _ ?_
          intro o ho
          obtain ⟨l, hl, ho⟩ := List.mem_flatten.mp ho
          obtain ⟨p, hp, rfl⟩ := List.mem_map.mp hl
          exact internalRunCommand_no_settle st p.1 p.2 bid o ho
        refine ⟨fun h => List.mem_cons_of_mem _ h, ?_, ?_, ?_⟩
        · intro hlive
          obtain ⟨b, hb⟩ := liveB_some st bid hlive
          have hused : bid ∈ st.usedBatchIds := (h4 _ (lookup_mem hb)).2
          have hne : bid ≠ bid2 := fun h => hfresh (h ▸ hused)
          refine Or.inl ⟨hzero, ?_⟩
          show (List.lookup bid (alistSet bid2 _ st.commandBatches)).isSome
            = true
          rw [lookup_alistSet_ne _ _ _ _ hne, hb]
          rfl
        · intro hdead hused
          have hne : bid ≠ bid2 := fun h => hfresh (h ▸ hused)
          refine ⟨hzero, ?_⟩
          show (List.lookup bid (alistSet bid2 _ st.commandBatches)).isSome
            = false
          rw [lookup_alistSet_ne _ _ _ _ hne]
          exact hdead
        · intro hdead hnu
          refine ⟨hzero, ?_⟩
          by_cases hne : bid = bid2
          · refine Or.inl ?_
            show (List.lookup bid (alistSet bid2 _ st.commandBatches)).isSome
              = true
            rw [hne, lookup_alistSet_self]
            rfl
          · refine Or.inr ?_
            intro hmem
            rcases List.mem_cons.mp hmem with h | h
            · exact hne h
            · exact hnu h
  | response rid status =>
      cases hm : List.lookup rid st.requestIdToBatchId with
      | none =>
          rw [bStep_response_none st rid status hm]
          exact ⟨fun h => h,
            fun h => Or.inl ⟨rfl, h⟩,
            fun h hu => ⟨rfl, h⟩,
            fun h hu => ⟨rfl, Or.inr hu⟩⟩
      | some bid2 =>
          cases hb : List.lookup bid2 st.commandBatches with
          | none =>
              rw [bStep_response_nobatch st rid status bid2 hm hb]
              exact ⟨fun h => h,
                fun h => Or.inl ⟨rfl, h⟩,
                fun h hu => ⟨rfl, h⟩,
                fun h hu => ⟨rfl, Or.inr hu⟩⟩
          | some b =>
              have hused2 : bid2 ∈ st.usedBatchIds :=
                (h4 _ (lookup_mem hb)).2
              have hlive2 : liveB st bid2 = true := by
                unfold liveB
                rw [hb]
                rfl
              by_cases hfull : b.results.length + 1 = b.commandCount
              · rw [bStep_response_resolve st rid status bid2 b hm hb hfull]
                dsimp only
                refine ⟨fun h => h, ?_, ?_, ?_⟩
                · intro hlive
                  by_cases hne : bid = bid2
                  · subst hne
                    refine Or.inr ⟨settleCount_resolved_eq bid _, ?_, hused2⟩
                    show (List.lookup bid
                      (alistDelete bid st.commandBatches)).isSome = false
                    rw [lookup_alistDelete_self bid _ h1]
                    rfl
                  · refine Or.inl ⟨settleCount_resolved_ne bid bid2 _
                      (fun h => hne h.symm), ?_⟩
                    show (List.lookup bid
                      (alistDelete bid2 st.commandBatches)).isSome = true
                    rw [lookup_alistDelete_ne bid2 bid hne]
                    exact hlive
                · intro hdead hused
                  have hne : bid ≠ bid2 := fun h => by
                    rw [h, hlive2] at hdead
                    exact absurd hdead (by simp)
                  refine ⟨settleCount_resolved_ne bid bid2 _
                    (fun h => hne h.symm), ?_⟩
                  show (List.lookup bid
                    (alistDelete bid2 st.commandBatches)).isSome = false
                  rw [lookup_alistDelete_ne bid2 bid hne]
                  exact hdead
                · intro hdead hnu
                  have hne : bid ≠ bid2 := fun h => hnu (h ▸ hused2)
                  refine ⟨settleCount_resolved_ne bid bid2 _
                    (fun h => hne h.symm), Or.inr hnu⟩
              · rw [bStep_response_incomplete st rid status bid2 b hm hb hfull]
                dsimp only
                refine ⟨fun h => h, ?_, ?_, ?_⟩
                · intro hlive
                  refine Or.inl ⟨rfl, ?_⟩
                  by_cases hne : bid = bid2
                  · show (List.lookup bid
                      (alistSet bid2 _ st.commandBatches)).isSome = true
                    rw [hne, lookup_alistSet_self]
                    rfl
                  · show (List.lookup bid
                      (alistSet bid2 _ st.commandBatches)).isSome = true
                    rw [lookup_alistSet_ne _ _ _ _ hne]
                    exact hlive
                · intro hdead hused
                  have hne : bid ≠ bid2 := fun h => by
                    rw [h, hlive2] at hdead
                    exact absurd hdead (by simp)
                  refine ⟨rfl, ?_⟩
                  show (List.lookup bid
                    (alistSet bid2 _ st.commandBatches)).isSome = false
                  rw [lookup_alistSet_ne _ _ _ _ hne]
                  exact hdead
                · intro hdead hnu
                  refine ⟨rfl, Or.inr hnu⟩
  | timeoutFire bid2 =>
      cases ht : List.lookup bid2 st.timers with
      | none =>
          rw [bStep_timeout_none st bid2 ht]
          exact ⟨fun h => h,
            fun h => Or.inl ⟨rfl, h⟩,
            fun h hu => ⟨rfl, h⟩,
            fun h hu => ⟨rfl, Or.inr hu⟩⟩
      | some rids =>
          have hsb := h5 _ (lookup_mem ht)
          have hused2 : bid2 ∈ st.usedBatchIds := hsb.2
          have hlive2 : liveB st bid2 = true := hsb.1
          rw [bStep_timeout_fire st bid2 rids ht]
          dsimp only
          refine ⟨fun h => h, ?_, ?_, ?_⟩
          · intro hlive
            by_cases hne : bid = bid2
            · subst hne
              refine Or.inr ⟨settleCount_timeout_eq bid, ?_, hused2⟩
              show (List.lookup bid
                (alistDelete bid st.commandBatches)).isSome = false
              rw [lookup_alistDelete_self bid _ h1]
              rfl
            · refine Or.inl ⟨settleCount_timeout_ne bid bid2
                (fun h => hne h.symm), ?_⟩
              show (List.lookup bid
                (alistDelete bid2 st.commandBatches)).isSome = true
              rw [lookup_alistDelete_ne bid2 bid hne]
              exact hlive
          · intro hdead hused
            have hne : bid ≠ bid2 := fun h => by
              rw [h, hlive2] at hdead
              exact absurd hdead (by simp)
            refine ⟨settleCount_timeout_ne bid bid2
              (fun h => hne h.symm), ?_⟩
            show (List.lookup bid
              (alistDelete bid2 st.commandBatches)).isSome = false
            rw [lookup_alistDelete_ne bid2 bid hne]
            exact hdead
          · intro hdead hnu
            have hne : bid ≠ bid2 := fun h => hnu (h ▸ hused2)
            exact ⟨settleCount_timeout_ne bid bid2
              (fun h => hne h.symm), Or.inr hnu⟩

theorem runB_cons (st : BState) (e : BEvent) (es : List BEvent) :
    runB st (e :: es) =
      ((runB (bStep st e).1 es).1,
       (bStep st e).2 ++ (runB (bStep st e).1 es).2) := rfl

theorem runB_settle (es : List BEvent) :
    ∀ st : BState, bWF st = true → goodBTrace st es = true → ∀ bid : JStr,
    (liveB st bid = true → settleCount bid (runB st es).2 ≤ 1) ∧
    (liveB st bid = false → bid ∈ st.usedBatchIds →
      settleCount bid (runB st es).2 = 0) ∧
    (liveB st bid = false → ¬ bid ∈ st.usedBatchIds →
      settleCount bid (runB st es).2 ≤ 1) := by
  induction es with
  | nil =>
      intro st _ _ bid
      exact ⟨fun _ => Nat.zero_le 1, fun _ _ => rfl,
        fun _ _ => Nat.zero_le 1⟩
  | cons e es ih =>
      intro st hwf hgood bid
      rw [show goodBTrace st (e :: es) =
          (goodBEvent st e && goodBTrace (bStep st e).1 es) from rfl,
        Bool.and_eq_true] at hgood
      have hwf2 := bWF_step st e hwf hgood.1
      have hstep := bStep_settle st e hwf hgood.1 bid
      have ihh := ih (bStep st e).1 hwf2 hgood.2 bid
      rw [runB_cons]
      rw [show ((runB (bStep st e).1 es).1,
          (bStep st e).2 ++ (runB (bStep st e).1 es).2).2 =
          (bStep st e).2 ++ (runB (bStep st e).1 es).2 from rfl]
      rw [settleCount_append]
      refine ⟨?_, ?_, ?_⟩
      · intro hlive
        rcases hstep.2.1 hlive with ⟨hz, hlive2⟩ | ⟨hone, hdead2, hused2⟩
        · rw [hz]
          simpa using ihh.1 hlive2
        · rw [hone, ihh.2.1 hdead2 hused2]
      · intro hdead hused
        obtain ⟨hz, hdead2⟩ := hstep.2.2.1 hdead hused
        rw [hz, ihh.2.1 hdead2 (hstep.1 hused)]
      · intro hdead hnu
        obtain ⟨hz, hnext⟩ := hstep.2.2.2 hdead hnu
        rw [hz]
        rcases hnext with hlive2 | hnu2
        · simpa using ihh.1 hlive2
        · cases hlb : liveB (bStep st e).1 bid with
          | true => simpa using ihh.1 hlb
          | false => simpa using ihh.2.2 hlb hnu2

/-- C3: batch settlement discipline of `runCommands` / `#onText` /
the batch-timeout callback.  Starting from a well-formed channel state, for
any trace whose generated batch ids are fresh: (1) a batch settles (resolves
or timeout-rejects) at most once; (2) a batch that has already been retired
never settles again; (3) a `commandResponse` resolves its batch exactly when
it brings the collected results to the expected command count; (4) when the
timeout of a tracked batch fires, the batch is rejected and retired and every
pending requestId-to-batchId mapping of that batch is purged. -/
theorem c3_batch_lifecycle (st : BState) (es : List BEvent)
    (hwf : bWF st = true) (hgood : goodBTrace st es = true) (bid : JStr) :
    settleCount bid (runB st es).2 ≤ 1 ∧
    (liveB st bid = false → bid ∈ st.usedBatchIds →
      settleCount bid (runB st es).2 = 0) ∧
    (∀ rid status b, List.lookup rid st.requestIdToBatchId = some bid →
      List.lookup bid st.commandBatches = some b →
      (BOut.resolved bid (b.results ++ [status]) ∈
          (bStep st (.response rid status)).2 ↔
        b.results.length + 1 = b.commandCount)) ∧
    (∀ rids, List.lookup bid st.timers = some rids →
      (bStep st (.timeoutFire bid)).2 = [.rejectedTimeout bid] ∧
      liveB (bStep st (.timeoutFire bid)).1 bid = false ∧
      ∀ rid, ¬ List.lookup rid
          (bStep st (.timeoutFire bid)).1.requestIdToBatchId = some bid) := by
  have hrun := runB_settle es st hwf hgood bid
  have hwfp := (bWF_iff st).mp hwf
  obtain ⟨h1, h2, h3, h4, h5, h6⟩ := hwfp
  refine ⟨?_, hrun.2.1, ?_, ?_⟩
  · cases hlb : liveB st bid with
    | true => exact hrun.1 hlb
    | false =>
        by_cases hu : bid ∈ st.usedBatchIds
        · rw [hrun.2.1 hlb hu]
          exact Nat.zero_le 1
        · exact hrun.2.2 hlb hu
  · intro rid status b hm hb
    by_cases hfull : b.results.length + 1 = b.commandCount
    · rw [bStep_response_resolve st rid status bid b hm hb hfull]
      simpa using hfull
    · rw [bStep_response_incomplete st rid status bid b hm hb hfull]
      simpa using hfull
  · intro rids ht
    rw [bStep_timeout_fire st bid rids ht]
    refine ⟨rfl, ?_, ?_⟩
    · show (List.lookup bid (alistDelete bid st.commandBatches)).isSome
        = false
      rw [lookup_alistDelete_self bid _ h1]
      rfl
    · intro rid hlook
      rw [show (BState.mk st.connOpen
          (alistDelete bid st.commandBatches)
          (rids.foldl (fun m r => alistDelete r m) st.requestIdToBatchId)
          (alistDelete bid st.timers)
          st.usedBatchIds,
          [BOut.rejectedTimeout bid]).1.requestIdToBatchId =
          rids.foldl (fun m r => alistDelete r m) st.requestIdToBatchId
        from rfl] at hlook
      rw [lookup_foldDel rids st.requestIdToBatchId h2 rid] at hlook
      by_cases hr : rid ∈ rids
      · rw [if_pos hr] at hlook
        exact absurd hlook (by simp)
      · rw [if_neg hr] at hlook
        exact hr ((h6 _ (lookup_mem hlook)).2 rids ht)

def c3st : BState :=
  BState.mk true [(lit "B", Batch.mk 1 [])] [(lit "R", lit "B")]
    [(lit "B", [lit "R"])] [lit "B"]

def c3es : List BEvent := [BEvent.response (lit "R") (lit "ok")]

theorem c3_batch_lifecycle_witness :
    settleCount (lit "B") (runB c3st c3es).2 ≤ 1 ∧
    (liveB c3st (lit "B") = false → lit "B" ∈ c3st.usedBatchIds →
      settleCount (lit "B") (runB c3st c3es).2 = 0) ∧
    (∀ rid status b,
      List.lookup rid c3st.requestIdToBatchId = some (lit "B") →
      List.lookup (lit "B") c3st.commandBatches = some b →
      (BOut.resolved (lit "B") (b.results ++ [status]) ∈
          (bStep c3st (.response rid status)).2 ↔
        b.results.length + 1 = b.commandCount)) ∧
    (∀ rids, List.lookup (lit "B") c3st.timers = some rids →
      (bStep c3st (.timeoutFire (lit "B"))).2 =
        [.rejectedTimeout (lit "B")] ∧
      liveB (bStep c3st (.timeoutFire (lit "B"))).1 (lit "B") = false ∧
      ∀ rid, ¬ List.lookup rid
          (bStep c3st (.timeoutFire (lit "B"))).1.requestIdToBatchId =
          some (lit "B")) :=
  c3_batch_lifecycle c3st c3es (by decide) (by decide) (lit "B")

/-- C9: a `commandResponse` whose requestId is absent from
`#requestIdToBatchId` (or maps to an already-purged batch) changes neither
`#commandBatches` nor `#requestIdToBatchId` and emits nothing — no batch is
resolved or rejected. -/
theorem c9_stale_response_frame (st : BState) (rid status : JStr)
    (h : List.lookup rid st.requestIdToBatchId = none ∨
      ∃ bid, List.lookup rid st.requestIdToBatchId = some bid ∧
        List.lookup bid st.commandBatches = none) :
    bStep st (.response rid status) = (st, []) := by
  rcases h with h | ⟨bid, h, hb⟩
  · exact bStep_response_none st rid status h
  · exact bStep_response_nobatch st rid status bid h hb

def c9st : BState :=
  BState.mk true [(lit "B", Batch.mk 2 [lit "r1"])] [(lit "R", lit "B")]
    [(lit "B", [lit "R"])] [lit "B"]

theorem c9_stale_response_frame_witness :
    bStep c9st (.response (lit "X") (lit "ok")) = (c9st, []) :=
  c9_stale_response_frame c9st (lit "X") (lit "ok") (Or.inl rfl)

/-- C6: a single command whose serialized envelope exceeds
`WSS_MAXIMUM_BYTES` (661) is dropped by `#internalRunCommand` before any
transmission: only the local oversize notice is emitted, nothing is handed to
`sendText`, and the failure the caller eventually observes (the batch
timeout rejection) is a different error from the connection-failure
rejection. -/
theorem c6_oversize_local_reject (st : BState) (hconn : st.connOpen = true)
    (command reqId : JStr)
    (hbig : WSS_MAXIMUM_BYTES < getCommandPayloadSize reqId command) :
    internalRunCommand st command reqId = [.oversize command] ∧
    (∀ p, ¬ BOut.sent p ∈ internalRunCommand st command reqId) ∧
    bTimeoutErr ≠ bClosedErr := by
  have he : internalRunCommand st command reqId = [.oversize command] := by
    unfold internalRunCommand
    rw [if_neg (by simp [hconn]), if_pos hbig]
  refine ⟨he, ?_, by decide⟩
  intro p hp
  rw [he] at hp
  simp at hp

def c6st : BState := BState.mk true [] [] [] []

def c6cmd : JStr := List.replicate 700 97

set_option maxRecDepth 100000 in
theorem c6_oversize_local_reject_witness :
    internalRunCommand c6st c6cmd (lit "r") = [.oversize c6cmd] ∧
    (∀ p, ¬ BOut.sent p ∈ internalRunCommand c6st c6cmd (lit "r")) ∧
    bTimeoutErr ≠ bClosedErr :=
  c6_oversize_local_reject c6st rfl c6cmd (lit "r") (by decide)

/-- A producer-side action: handing one command to the socket, or awaiting
`n` outstanding command acknowledgments. -/
inductive PAct where
  | send (cmd : JStr)
  | awaitAcks (n : Nat)
  deriving Repr, DecidableEq

/-- The number of outstanding (sent, unacknowledged) commands after an
action. -/
def outstandingAfter : Nat → PAct → Nat
  | k, .send _ => k + 1
  | k, .awaitAcks n => k - n

/-- The peak outstanding-command count over a producer trace. -/
def maxOutstanding (acts : List PAct) : Nat :=
  (acts.foldl (fun p a =>
    (outstandingAfter p.1 a, max p.2 (outstandingAfter p.1 a))) (0, 0)).2

/-- The producer trace of `sendData` in `part_002`: the command list is
handed to `runCommands`, whose `forEach` sends every command immediately and
whose promise resolves only once all acknowledgments arrived — all sends,
then a single await of the whole batch. -/
def sendDataTracePart002 (cmds : List JStr) : List PAct :=
  cmds.map PAct.send ++ [PAct.awaitAcks cmds.length]

/-- The producer trace of `sendDataToMinecraft` in `index.js`:
`for (const command of commands) await this.runCommand(command)` — each send
is followed by awaiting its single acknowledgment. -/
def sendDataTraceIndex (cmds : List JStr) : List PAct :=
  (cmds.map (fun c => [PAct.send c, PAct.awaitAcks 1])).flatten

theorem index_trace_foldl (cmds : List JStr) : ∀ m, (0 : Nat) ≤ m → m ≤ 1 →
    ((cmds.map (fun c => [PAct.send c, PAct.awaitAcks 1])).flatten.foldl
      (fun p a =>
        (outstandingAfter p.1 a, max p.2 (outstandingAfter p.1 a)))
      (0, m)).2 ≤ 1 := by
  induction cmds with
  | nil => intro m _ hm; simpa using hm
  | cons c cmds ih =>
      intro m _ hm
      rw [List.map_cons, List.flatten_cons, List.foldl_append]
      rw [show ([PAct.send c, PAct.awaitAcks 1].foldl
          (fun p a =>
            (outstandingAfter p.1 a, max p.2 (outstandingAfter p.1 a)))
          (0, m)) = (0, max (max m 1) 0) from rfl]
      exact ih (max (max m 1) 0) (Nat.zero_le _) (by omega)

theorem part002_sends_foldl (cmds : List JStr) : ∀ k m, k ≤ m →
    (cmds.map PAct.send).foldl
      (fun p a =>
        (outstandingAfter p.1 a, max p.2 (outstandingAfter p.1 a)))
      (k, m) = (k + cmds.length, max m (k + cmds.length)) := by
  induction cmds with
  | nil =>
      intro k m hk
      simp
      omega
  | cons c cmds ih =>
      intro k m hk
      rw [List.map_cons, List.foldl_cons]
      rw [show (outstandingAfter (k, m).1 (PAct.send c),
          max (k, m).2 (outstandingAfter (k, m).1 (PAct.send c))) =
          ((k + 1 : Nat), max m (k + 1)) from rfl]
      rw [ih (k + 1) (max m (k + 1)) (by omega)]
      rw [show (c :: cmds).length = cmds.length + 1 from rfl]
      simp only [Prod.mk.injEq]
      exact ⟨by omega, by omega⟩

/-- C7 (amended): the two producers pace a multi-fragment transfer
differently.  `sendDataToMinecraft` in `index.js` awaits each command's
acknowledgment before issuing the next, so at most one command of the
transfer is outstanding at any moment; `sendData` in `part_002` hands the
whole command batch to the socket and awaits all acknowledgments at once, so
its outstanding count reaches the full command count (`N` fragments + START
+ END), not 1. -/
theorem c7_producer_pacing (cmds : List JStr) :
    maxOutstanding (sendDataTraceIndex cmds) ≤ 1 ∧
    maxOutstanding (sendDataTracePart002 cmds) = cmds.length := by
  constructor
  · exact index_trace_foldl cmds 0 le_rfl (by omega)
  · unfold maxOutstanding sendDataTracePart002
    rw [List.foldl_append]
    rw [part002_sends_foldl cmds 0 0 le_rfl]
    rw [show (([PAct.awaitAcks cmds.length]).foldl
        (fun p a =>
          (outstandingAfter p.1 a, max p.2 (outstandingAfter p.1 a)))
        (0 + cmds.length, max 0 (0 + cmds.length))) =
        (0 + cmds.length - cmds.length,
          max (max 0 (0 + cmds.length)) (0 + cmds.length - cmds.length))
      from rfl]
    dsimp only
    omega

def c7data : Json := .str (List.replicate 700 97)

def c7cmds : List JStr :=
  match sendDataCommands (lit "r") (lit "n") (lit "t") c7data with
  | .ok cs => cs
  | .error _ => []

set_option maxRecDepth 100000 in
/-- C7 counterexample: a concrete 2-fragment transfer of `sendData` in
`part_002` produces 4 commands (START, DATA 0, DATA 1, END); the producer
sends all of them before awaiting any acknowledgment, so 4 commands of the
transfer are outstanding at once — the claimed one-at-a-time pacing with at
most one outstanding command is false for this producer. -/
theorem c7_pacing_counterexample :
    c7cmds.length = 4 ∧
    maxOutstanding (sendDataTracePart002 c7cmds) = 4 ∧
    ¬ maxOutstanding (sendDataTracePart002 c7cmds) ≤ 1 := by
  have h2 : maxOutstanding (sendDataTracePart002 c7cmds) = 4 := rfl
  exact ⟨rfl, h2, by omega⟩

/-- One parsed entry of a `scoreboard players list yb:data` response: the
`(value, score, name)` capture groups of the polling regex. -/
abbrev PollEntry := JStr × JStr × JStr

/-- Observable effects of `#handleDataPollingResponse`: a data-callback
invocation and a fired removal command. -/
inductive PollOut where
  | dispatched (value : JStr) (score : Option Int) (name : JStr)
  | removalIssued (cmd : JStr)
  deriving Repr, DecidableEq

/-- The property names a plain `\x7b\x7d` object inherits from
`Object.prototype`: looking any of these up with `obj[name]` yields a truthy
value (a function, or the prototype object itself for `__proto__`) even
though the key was never assigned. -/
def objectProtoKeys : List JStr :=
  [lit "constructor", lit "hasOwnProperty", lit "isPrototypeOf",
   lit "propertyIsEnumerable", lit "toLocaleString", lit "toString",
   lit "valueOf", lit "__proto__", lit "__defineGetter__",
   lit "__defineSetter__", lit "__lookupGetter__", lit "__lookupSetter__"]

/-- The truthiness test `if (this.#dataPollingTemp[name])`: the bracket
lookup on the plain-object dictionary finds an own key set by an earlier
dispatch, or else walks the `Object.prototype` chain, where every inherited
property is truthy. -/
def pollSuppressed (temp : List JStr) (name : JStr) : Bool :=
  decide (name ∈ temp) || decide (name ∈ objectProtoKeys)

/-- One iteration of the `matchAll` loop of `#handleDataPollingResponse`:
skip a key whose `#dataPollingTemp[name]` lookup is truthy (an own
suppression entry, or an inherited `Object.prototype` property); otherwise
invoke the data callback with
`\x7bvalue, score: parseInt(score, 10), name\x7d`, issue
`scoreboard objectives remove "<name>"` (fire-and-forget), and put the key
into `#dataPollingTemp` (the runtime deletes it 3000 ms later). -/
def pollEntryStep (temp : List JStr) (e : PollEntry) :
    List JStr × List PollOut :=
  if pollSuppressed temp e.2.2 then (temp, [])
  else (e.2.2 :: temp,
    [.dispatched e.1 (jsParseInt e.2.1) e.2.2,
     .removalIssued (lit "scoreboard objectives remove \"" ++ e.2.2 ++
       lit "\"")])

/-- The whole `matchAll` loop (also across consecutive polling responses
inside one suppression window, since the loop body is the same and the
suppression map only changes by these steps until an expiry fires). -/
def pollEntries (temp : List JStr) :
    List PollEntry → List JStr × List PollOut
  | [] => (temp, [])
  | e :: es =>
      let r1 := pollEntryStep temp e
      let r2 := pollEntries r1.1 es
      (r2.1, r1.2 ++ r2.2)

/-- Is this output a callback invocation for `name`? -/
def dispatchesTo (name : JStr) : PollOut → Bool
  | .dispatched _ _ n => n == name
  | _ => false

/-- The number of callback invocations for `name` in an output list. -/
def dispatchCount (name : JStr) (outs : List PollOut) : Nat :=
  (outs.filter (dispatchesTo name)).length

theorem dispatchCount_append (name : JStr) (o1 o2 : List PollOut) :
    dispatchCount name (o1 ++ o2) =
      dispatchCount name o1 + dispatchCount name o2 := by
  simp [dispatchCount, List.filter_append]

theorem pollEntryStep_phase (temp : List JStr) (e : PollEntry)
    (name : JStr) :
    (pollSuppressed temp name = true →
      dispatchCount name (pollEntryStep temp e).2 = 0 ∧
      pollSuppressed (pollEntryStep temp e).1 name = true) ∧
    (pollSuppressed temp name = false →
      (dispatchCount name (pollEntryStep temp e).2 = 0 ∧
        pollSuppressed (pollEntryStep temp e).1 name = false) ∨
      (dispatchCount name (pollEntryStep temp e).2 = 1 ∧
        pollSuppressed (pollEntryStep temp e).1 name = true)) := by
  unfold pollEntryStep
  by_cases he : pollSuppressed temp e.2.2 = true
  · rw [if_pos he]
    exact ⟨fun h => ⟨rfl, h⟩, fun h => Or.inl ⟨rfl, h⟩⟩
  · rw [if_neg he]
    by_cases hn : e.2.2 = name
    · constructor
      · intro h
        exact absurd (by rw [hn]; exact h) he
      · intro h
        refine Or.inr ⟨?_, ?_⟩
        · simp [dispatchCount, dispatchesTo, hn]
        · simp [pollSuppressed, hn]
    · constructor
      · intro h
        refine ⟨by simp [dispatchCount, dispatchesTo, hn], ?_⟩
        simp only [pollSuppressed, Bool.or_eq_true, decide_eq_true_eq]
          at h ⊢
        rcases h with h | h
        · exact Or.inl (List.mem_cons_of_mem _ h)
        · exact Or.inr h
      · intro h
        refine Or.inl ⟨by simp [dispatchCount, dispatchesTo, hn], ?_⟩
        simp only [pollSuppressed, Bool.or_eq_false_iff,
          decide_eq_false_iff_not] at h ⊢
        refine ⟨?_, h.2⟩
        intro hm
        rcases List.mem_cons.mp hm with hm | hm
        · exact hn hm.symm
        · exact h.1 hm

theorem pollEntries_suppressed (name : JStr) (es : List PollEntry) :
    ∀ temp, pollSuppressed temp name = true →
    dispatchCount name (pollEntries temp es).2 = 0 ∧
    pollSuppressed (pollEntries temp es).1 name = true := by
  induction es with
  | nil => intro temp h; exact ⟨rfl, h⟩
  | cons e es ih =>
      intro temp h
      have hstep := (pollEntryStep_phase temp e name).1 h
      have ihh := ih (pollEntryStep temp e).1 hstep.2
      rw [show pollEntries temp (e :: es) =
          ((pollEntries (pollEntryStep temp e).1 es).1,
           (pollEntryStep temp e).2 ++
             (pollEntries (pollEntryStep temp e).1 es).2) from rfl]
      exact ⟨by rw [dispatchCount_append, hstep.1, ihh.1], ihh.2⟩

theorem pollEntries_once (name : JStr) (es : List PollEntry) :
    ∀ temp, dispatchCount name (pollEntries temp es).2 ≤ 1 := by
  induction es with
  | nil => intro temp; exact Nat.zero_le 1
  | cons e es ih =>
      intro temp
      rw [show pollEntries temp (e :: es) =
          ((pollEntries (pollEntryStep temp e).1 es).1,
           (pollEntryStep temp e).2 ++
             (pollEntries (pollEntryStep temp e).1 es).2) from rfl]
      rw [show ((pollEntries (pollEntryStep temp e).1 es).1,
          (pollEntryStep temp e).2 ++
            (pollEntries (pollEntryStep temp e).1 es).2).2 =
          (pollEntryStep temp e).2 ++
            (pollEntries (pollEntryStep temp e).1 es).2 from rfl]
      rw [dispatchCount_append]
      cases h : pollSuppressed temp name with
      | true =>
          have hstep := (pollEntryStep_phase temp e name).1 h
          rw [hstep.1,
            (pollEntries_suppressed name es (pollEntryStep temp e).1
              hstep.2).1]
          omega
      | false =>
          rcases (pollEntryStep_phase temp e name).2 h with
            ⟨hz, _⟩ | ⟨ho, hin⟩
          · rw [hz]
            simpa using ih (pollEntryStep temp e).1
          · rw [ho,
              (pollEntries_suppressed name es (pollEntryStep temp e).1
                hin).1]

/-- C8 (amended): polling deduplication of `#handleDataPollingResponse`,
with the plain-object prototype chain accounted for.  A key whose
`#dataPollingTemp[name]` lookup is truthy is skipped entirely; a key that is
neither suppressed nor an inherited `Object.prototype` property name is
dispatched exactly once to the data callback as
`\x7bvalue, score: parseInt(score, 10), name\x7d` together with a
`scoreboard objectives remove "<name>"` command, and the key is suppressed;
a key named like an `Object.prototype` property is permanently skipped even
though it is never inside a suppression window; a key already in the
suppression map is never dispatched, and any key is dispatched at most once
within one suppression window. -/
theorem c8_polling_dedup (name : JStr) :
    (∀ temp v s, pollSuppressed temp name = true →
      pollEntryStep temp (v, s, name) = (temp, [])) ∧
    (∀ temp v s, ¬ name ∈ temp → ¬ name ∈ objectProtoKeys →
      pollEntryStep temp (v, s, name) =
        (name :: temp,
         [.dispatched v (jsParseInt s) name,
          .removalIssued (lit "scoreboard objectives remove \"" ++ name ++
            lit "\"")])) ∧
    (∀ temp v s, name ∈ objectProtoKeys →
      pollEntryStep temp (v, s, name) = (temp, [])) ∧
    (∀ temp es, name ∈ temp →
      dispatchCount name (pollEntries temp es).2 = 0) ∧
    (∀ temp es, dispatchCount name (pollEntries temp es).2 ≤ 1) := by
  refine ⟨?_, ?_, ?_, ?_, ?_⟩
  · intro temp v s h
    unfold pollEntryStep
    rw [if_pos (show pollSuppressed temp ((v, s, name) : PollEntry).2.2 =
      true from h)]
  · intro temp v s h1 h2
    unfold pollEntryStep
    rw [if_neg (show ¬ pollSuppressed temp
        ((v, s, name) : PollEntry).2.2 = true from by
      simp only [pollSuppressed, Bool.or_eq_true, decide_eq_true_eq]
      rintro (h | h)
      · exact h1 h
      · exact h2 h)]
  · intro temp v s h
    unfold pollEntryStep
    rw [if_pos (show pollSuppressed temp ((v, s, name) : PollEntry).2.2 =
      true from by
      simp only [pollSuppressed, Bool.or_eq_true, decide_eq_true_eq]
      exact Or.inr h)]
  · intro temp es h
    exact (pollEntries_suppressed name es temp (by
      simp only [pollSuppressed, Bool.or_eq_true, decide_eq_true_eq]
      exact Or.inl h)).1
  · intro temp es
    exact pollEntries_once name es temp

/-- C8 counterexample: a polled entry whose key is `constructor` is never
inside any suppression window (the suppression map is empty), yet the
`\x7b\x7d` dictionary lookup finds the inherited
`Object.prototype.constructor`, which is truthy, so the entry is silently
skipped: no callback invocation, no removal command — refuting the claimed
dispatch of every key not currently within its suppression window. -/
theorem c8_proto_key_counterexample :
    pollEntryStep [] (lit "v", lit "1", lit "constructor") = ([], []) ∧
    ¬ lit "constructor" ∈ ([] : List JStr) ∧
    dispatchCount (lit "constructor")
      (pollEntryStep [] (lit "v", lit "1", lit "constructor")).2 = 0 :=
  ⟨rfl, List.not_mem_nil _, rfl⟩

/-- A scoreboard objective: its id, its display name (which carries the
data), and its scores. -/
structure SBObjective where
  objId : JStr
  displayName : JStr
  scores : List (JStr × Int)
  deriving Repr, DecidableEq

/-- `sendData` of `WebSocketBridge` (outbound scoreboard channel):
`addObjective(generateId(3), JSON.stringify(data))`, then
`obj.addScore("yb:data", score)`, then `await system.waitTicks(100)`, then
throw iff `obj.isValid` (the external server never removed the objective);
`stillValid` is whether the objective still exists after the wait. -/
def bridgeSendData (objId : JStr) (data : Json) (score : Int)
    (stillValid : Bool) : SBObjective × Nat × Except Unit Unit :=
  (SBObjective.mk objId (jsonStringify data) [(lit "yb:data", score)], 100,
   if stillValid then .error () else .ok ())

/-- C10: the Minecraft-side `sendData` creates a scoreboard objective whose
display name is the serialized payload with the score on `yb:data`, waits
exactly 100 ticks, and then throws precisely when the objective is still
valid (the external server never consumed and removed it); if the objective
was removed within the window it returns normally. -/
theorem c10_scoreboard_senddata (objId : JStr) (data : Json) (score : Int)
    (stillValid : Bool) :
    (bridgeSendData objId data score stillValid).1.displayName =
      jsonStringify data ∧
    List.lookup (lit "yb:data")
        (bridgeSendData objId data score stillValid).1.scores =
      some score ∧
    (bridgeSendData objId data score stillValid).2.1 = 100 ∧
    ((bridgeSendData objId data score stillValid).2.2 = .error () ↔
      stillValid = true) := by
  refine ⟨rfl, ?_, rfl, ?_⟩
  · rw [show (bridgeSendData objId data score stillValid).1.scores =
        [(lit "yb:data", score)] from rfl]
    rw [lookup_cons, if_pos rfl]
  · cases stillValid with
    | true =>
        rw [show (bridgeSendData objId data score true).2.2 =
            .error () from rfl]
        simp
    | false =>
        rw [show (bridgeSendData objId data score false).2.2 =
            .ok () from rfl]
        simp
